import Mathlib

/-!
# ESCape32-Update: serial transfer protocol

A shallow embedding of `src/io.c` and `src/main.c`.

* Bytes are natural numbers (`< 256` on a real line).
* The serial line is a `World`: the results the next `read()` and `write()`
  calls will produce, and the transcript of what has happened so far.
* `err`/`errx` end the process: every operation returns a `Res`, which is
  either a normal return or a fatal exit, both carrying the world.
* `int` values are `Int`; `size_t` values are `Nat` (64-bit wrap-around is
  explicit in `maxlen`, the only place a subtraction could wrap).
* `crc32` is declared in `common.h` and implemented outside the two source
  files; the codec functions take it as a parameter.
-/

namespace ESCape32

/-! ## Data model -/

/-- Messages handed to `checkres` by its callers in `main.c`. -/
inductive Msg
  | writingData      -- "Error writing data"
  | updateFailed     -- "Update failed"
  | operationFailed  -- "Operation failed"
  | readingData      -- "Error reading data"
  deriving DecidableEq, Repr

/-- Lines written to stdout/stderr by `main`. -/
inductive Out
  | usage
  | versionBanner
  | probing
  | countdown (n : Int)           -- "%4d\r", 20 - i
  | spinner (k : Nat)             -- "%3c\r", "-\\|/"[i & 3]
  | updatingBootloader
  | updatingFirmware
  | progress (pct : Nat)          -- "%4zu%%\r", pos * 100 / size
  | done
  | settingProtection
  | fetchingInfo
  | bootloaderRevision (rev : Nat)
  | firmwareRevision (rev : Nat) (name : List Nat)
  | firmwareNotInstalled
  deriving DecidableEq, Repr

/-- One entry of the transcript: a byte accepted by `write()`, a byte
returned by `read()`, a `read()` that returned no byte (timeout), or a line
of output. -/
inductive Ev
  | tx (b : Nat)
  | rx (b : Nat)
  | timeout
  | out (o : Out)
  deriving DecidableEq, Repr

/-- The serial line and the transcript.
`rd` lists what the coming `read()` calls find: `none` is an OS error
(`-1`), `some bs` the bytes that have arrived (`some []` is a 300 ms timeout);
once the list is used up the line stays silent.
`wr` lists the results of the coming `write()` calls: `none` is an OS error,
`some k` accepts at most `k` bytes; once the list is used up every `write()`
accepts all it is given. -/
structure World where
  rd : List (Option (List Nat))
  wr : List (Option Nat)
  trace : List Ev
  deriving DecidableEq, Repr

/-- Reasons for `err(1, ...)` / `errx(1, ...)`. -/
inductive Fatal
  | readErr                             -- io.c: read() == -1
  | writeErr                            -- io.c: write() == -1
  | openErr                             -- io.c: openserial
  | fileErr                             -- main.c: fopen/fread
  | emptyData                           -- main.c: "Empty data"
  | tooBig                              -- main.c: "Image too big"
  | check (res val : Int) (msg : Msg)   -- main.c: checkres
  deriving DecidableEq, Repr

/-- Outcome of an operation: it returns `a`, or the process exits with
status 1. -/
inductive Res (α : Type)
  | ok (a : α) (w : World)
  | fatal (f : Fatal) (w : World)
  deriving DecidableEq, Repr

/-- The world an outcome leaves behind. -/
def Res.world {α : Type} : Res α → World
  | .ok _ w => w
  | .fatal _ w => w

/-- Store `bs` into the buffer `buf` starting at index `off`. -/
def writeAt (buf : List Nat) (off : Nat) (bs : List Nat) : List Nat :=
  buf.take off ++ bs ++ buf.drop (off + bs.length)

/-- Append entries to the transcript. -/
def World.log (w : World) (es : List Ev) : World :=
  { w with trace := w.trace ++ es }

/-! ## io.c -/

/-- `read(fd, buf, len)`: `none` for `-1`, otherwise the bytes read (at most
`len`; bytes of the burst beyond `len` stay queued). -/
def read (w : World) (len : Nat) : Option (List Nat) × World :=
  match w.rd with
  | [] => (some [], w.log [Ev.timeout])
  | none :: rest => (none, { w with rd := rest })
  | some b :: rest =>
    if b.length = 0 then (some [], { rd := rest, wr := w.wr, trace := w.trace ++ [Ev.timeout] })
    else if b.length ≤ len then
      (some b, { rd := rest, wr := w.wr, trace := w.trace ++ b.map Ev.rx })
    else
      (some (b.take len),
        { rd := some (b.drop len) :: rest, wr := w.wr,
          trace := w.trace ++ (b.take len).map Ev.rx })

/-- The loop of `recv`; `off` is how far `buf` has advanced. Every iteration
that continues has received at least one byte, so `len` iterations are
enough and the fuel never runs out before `len` reaches 0. -/
def recvLoop : Nat → World → List Nat → Nat → Nat → Res (Int × List Nat)
  | 0, w, buf, _, _ => .ok (1, buf) w
  | fuel + 1, w, buf, off, len =>
    if len = 0 then .ok (1, buf) w
    else
      match read w len with
      | (none, w1) => .fatal .readErr w1
      | (some got, w1) =>
        if got.length = 0 then .ok (0, buf) w1 -- Timeout
        else recvLoop fuel w1 (writeAt buf off got) (off + got.length) (len - got.length)

/-- `recv(fd, buf, len)`: returns 1 and the filled buffer, or 0 on timeout. -/
def recv (w : World) (buf : List Nat) (len : Nat) : Res (Int × List Nat) :=
  recvLoop len w buf 0 len

/-- `write(fd, buf, n)`: `none` for `-1`, otherwise the number of bytes
accepted, which are the first bytes of `buf`. -/
def write (w : World) (buf : List Nat) (n : Nat) : Option Nat × World :=
  match w.wr with
  | [] => (some n, { rd := w.rd, wr := [], trace := w.trace ++ (buf.take n).map Ev.tx })
  | none :: rest => (none, { w with wr := rest })
  | some k :: rest =>
    (some (min k n),
      { rd := w.rd, wr := rest, trace := w.trace ++ (buf.take (min k n)).map Ev.tx })

/-- The loop of `send` over the `len` bytes `buf` still to write. An
iteration either uses up one entry of `wr` or, once `wr` is empty, writes at
least one byte, so `wr.length + len` iterations are enough. -/
def sendLoop (delay : Bool) : Nat → World → List Nat → Res Unit
  | 0, w, _ => .ok () w
  | fuel + 1, w, buf =>
    if buf.length = 0 then .ok () w
    else
      match write w buf (if delay then 1 else buf.length) with
      | (none, w1) => .fatal .writeErr w1
      | (some res, w1) => sendLoop delay fuel w1 (buf.drop res)

/-- `send(fd, buf, len)` with `buf` the `len` bytes to write. -/
def send (delay : Bool) (w : World) (buf : List Nat) : Res Unit :=
  sendLoop delay (w.wr.length + buf.length) w buf

/-- `recvval(fd)`: the value received, or -1. -/
def recvval (w : World) : Res Int :=
  match recv w [0, 0] 2 with
  | .fatal f w1 => .fatal f w1
  | .ok (r, buf) w1 =>
    .ok (if r ≠ 0 ∧ (buf.getD 0 0 ^^^ buf.getD 1 0) = 0xff then (buf.getD 0 0 : Int) else -1) w1

/-- `sendval(fd, val)`: `uint8_t buf[2] = {val, ~val}`. -/
def sendval (delay : Bool) (w : World) (val : Int) : Res Unit :=
  send delay w [(val % 256).toNat, ((-val - 1) % 256).toNat]

/-- Value of a `uint32_t` stored as 4 bytes on a little-endian host. -/
def le32 (b : List Nat) : Nat :=
  b.getD 0 0 + 256 * b.getD 1 0 + 65536 * b.getD 2 0 + 16777216 * b.getD 3 0

/-- The 4 bytes of a `uint32_t` on a little-endian host. -/
def bytes32 (x : Nat) : List Nat :=
  [x % 256, x / 256 % 256, x / 65536 % 256, x / 16777216 % 256]

/-- `recvdata(fd, buf)`: the length received and the buffer, or -1. -/
def recvdata (crc32 : List Nat → Nat) (w : World) (buf : List Nat) : Res (Int × List Nat) :=
  match recvval w with
  | .fatal f w1 => .fatal f w1
  | .ok cnt w1 =>
    if cnt = -1 then .ok (-1, buf) w1
    else
      let len := ((cnt + 1) * 4).toNat
      match recv w1 buf len with
      | .fatal f w2 => .fatal f w2
      | .ok (r1, buf1) w2 =>
        if r1 = 0 then .ok (-1, buf1) w2
        else
          match recv w2 [0, 0, 0, 0] 4 with
          | .fatal f w3 => .fatal f w3
          | .ok (r2, crc) w3 =>
            if r2 = 0 then .ok (-1, buf1) w3
            else .ok (if crc32 (buf1.take len) % 4294967296 = le32 crc then (len : Int) else -1, buf1) w3

/-- `senddata(fd, buf, len)`; `buf` is the memory from the pointer on. -/
def senddata (crc32 : List Nat → Nat) (delay : Bool) (w : World) (buf : List Nat) (len : Nat) :
    Res Unit :=
  let crc := crc32 (buf.take len) % 4294967296
  match sendval delay w ((len / 4 : Nat) - 1) with
  | .fatal f w1 => .fatal f w1
  | .ok _ w1 =>
    match send delay w1 (buf.take len) with
    | .fatal f w2 => .fatal f w2
    | .ok _ w2 => send delay w2 (bytes32 crc)

/-! ## main.c -/

/-- Option characters as `getopt(argc, argv, "d:fBP:Vvh?")` returns them;
`other` stands for `h`, `?` (also returned for an unknown option or a missing
argument) and the `default` label. -/
inductive Opt
  | d
  | f
  | B
  | P (optarg : List Char)
  | V
  | other
  deriving DecidableEq, Repr

/-- The globals `parseargs` sets. `filename` records whether an image was
named; `setwrp` is 0 when no level was requested. -/
structure Args where
  delay : Bool
  force : Bool
  boot : Bool
  setwrp : Nat
  version : Bool
  filename : Bool
  deriving DecidableEq, Repr

/-- The globals before `parseargs` runs (zero-initialised statics). -/
def Args.init : Args :=
  { delay := false, force := false, boot := false, setwrp := 0, version := false,
    filename := false }

/-- The `while ((opt = getopt(...)) != -1)` loop of `parseargs`: `none` when
it returns 0 from inside the loop (usage or `goto error`). -/
def parseopts : List Opt → Args → Option Args
  | [], a => some a
  | Opt.d :: rest, a => parseopts rest a
  | Opt.f :: rest, a => parseopts rest { a with delay := a.delay || a.force, force := true }
  | Opt.B :: rest, a => parseopts rest { a with boot := true }
  | Opt.P optarg :: rest, a =>
    match optarg with
    | ['0'] => parseopts rest { a with setwrp := 0x33 }
    | ['1'] => parseopts rest { a with setwrp := 0x44 }
    | ['2'] => parseopts rest { a with setwrp := 0x55 }
    | _ => none
  | Opt.V :: rest, a => parseopts rest { a with version := true }
  | Opt.other :: _, _ => none

/-- `parseargs(argc, argv)`: `opts` are the options `getopt` finds and
`argc` the number of arguments left after them. `none` is the return value
0, `some a` the return value 1 with the globals `a`. -/
def parseargs (opts : List Opt) (argc : Nat) : Option Args :=
  match parseopts opts Args.init with
  | none => none
  | some a =>
    if argc = 0 then (if a.force then none else some a)
    else if argc > 1 then none
    else some { a with filename := true }

/-- `checkres(res, val, msg)`. -/
def checkres (force : Bool) (w : World) (res val : Int) (msg : Msg) : Res Unit :=
  if res = val ∨ force = true then .ok () w
  else .fatal (.check res val msg) w

/-- `recvack(fd, msg)`. -/
def recvack (force : Bool) (w : World) (msg : Msg) : Res Unit :=
  match recvval w with
  | .fatal f w1 => .fatal f w1
  | .ok r w1 => checkres force w1 r 0 msg

/-- `maxlen(pos, size)` on 64-bit `size_t`: the subtraction wraps. -/
def maxlen (pos size : Nat) : Nat :=
  let len := (size + 18446744073709551616 - pos) % 18446744073709551616
  if len > 1024 then 1024 else len

/-- The probing loop `for (int i = 0; !force || i < 20; ++i)`. `none`: the
loop is still running after `fuel` iterations. The counter is a `Nat`: it is
compared only in forced mode, where it stays below 20, and `i & 3` is the same
with or without 32-bit wrap-around. -/
def probeLoop (force delay : Bool) : Nat → Nat → World → Option (Res Unit)
  | 0, _, _ => none
  | fuel + 1, i, w =>
    if !force || decide (i < 20) then
      let w0 := w.log [Ev.out (if force then Out.countdown (20 - (i : Int)) else Out.spinner (i % 4))]
      match sendval delay w0 0 with
      | .fatal f w1 => some (.fatal f w1)
      | .ok _ w1 =>
        match recvval w1 with
        | .fatal f w2 => some (.fatal f w2)
        | .ok r w2 => if r = 0 then some (.ok () w2) else probeLoop force delay fuel (i + 1) w2
    else some (.ok () w)

/-- The bootloader loop `for (size_t pos = 0; pos < size; pos += 1024)`. -/
def bootLoop (crc32 : List Nat → Nat) (force delay : Bool) (data : List Nat) (size : Nat) :
    Nat → Nat → World → Option (Res Unit)
  | 0, _, _ => none
  | fuel + 1, pos, w =>
    if pos < size then
      let w0 := w.log [Ev.out (Out.progress (pos * 100 / size))]
      match senddata crc32 delay w0 (data.drop pos) (maxlen pos size) with
      | .fatal f w1 => some (.fatal f w1)
      | .ok _ w1 =>
        match recvack force w1 Msg.writingData with
        | .fatal f w2 => some (.fatal f w2)
        | .ok _ w2 => bootLoop crc32 force delay data size fuel (pos + 1024) w2
    else some (.ok () w)

/-- The firmware loop `for (size_t pos = 0; pos < size; pos += 1024)`. -/
def fwLoop (crc32 : List Nat → Nat) (force delay : Bool) (data : List Nat) (size : Nat) :
    Nat → Nat → World → Option (Res Unit)
  | 0, _, _ => none
  | fuel + 1, pos, w =>
    if pos < size then
      let w0 := w.log [Ev.out (Out.progress (pos * 100 / size))]
      match sendval delay w0 3 with
      | .fatal f w1 => some (.fatal f w1)
      | .ok _ w1 =>
        match sendval delay w1 ((pos / 1024 : Nat) : Int) with -- Block number
        | .fatal f w2 => some (.fatal f w2)
        | .ok _ w2 =>
          match senddata crc32 delay w2 (data.drop pos) (maxlen pos size) with
          | .fatal f w3 => some (.fatal f w3)
          | .ok _ w3 =>
            match recvack force w3 Msg.writingData with
            | .fatal f w4 => some (.fatal f w4)
            | .ok _ w4 => fwLoop crc32 force delay data size fuel (pos + 1024) w4
    else some (.ok () w)

/-- The size check and the padding of the `if (boot)` branch: `none` is
`errx(1, "%s: Image too big")`, `some s` the size that is transferred. -/
def bootSize (size : Nat) : Option Nat :=
  if size > 4096 then none
  else if size % 1024 = 0 ∧ size ≠ 4096 then some (size + 4) -- Ensure last block marker
  else some size

/-- The `if (boot) ... ` branch of `main`, `recvack(fd, "Update failed")`
included. -/
def updateBootloader (crc32 : List Nat → Nat) (fuel : Nat) (a : Args) (data : List Nat)
    (size : Nat) (w : World) : Option (Res Unit) :=
  match bootSize size with
  | none => some (.fatal .tooBig w)
  | some size1 =>
    match sendval a.delay (w.log [Ev.out Out.updatingBootloader]) 4 with
    | .fatal f w1 => some (.fatal f w1)
    | .ok _ w1 =>
      match bootLoop crc32 a.force a.delay data size1 fuel 0 w1 with
      | none => none
      | some (.fatal f w2) => some (.fatal f w2)
      | some (.ok _ w2) => some (recvack a.force w2 Msg.updateFailed) -- Wait for ACK after reboot

/-- The `else` branch of `if (boot)`. -/
def updateFirmware (crc32 : List Nat → Nat) (fuel : Nat) (a : Args) (data : List Nat)
    (size : Nat) (w : World) : Option (Res Unit) :=
  fwLoop crc32 a.force a.delay data size fuel 0 (w.log [Ev.out Out.updatingFirmware])

/-- The `if (setwrp)` branch. -/
def setProtection (a : Args) (w : World) : Res Unit :=
  match sendval a.delay (w.log [Ev.out Out.settingProtection]) 5 with
  | .fatal f w1 => .fatal f w1
  | .ok _ w1 =>
    match sendval a.delay w1 (a.setwrp : Int) with
    | .fatal f w2 => .fatal f w2
    | .ok _ w2 =>
      match recvack a.force w2 Msg.operationFailed with
      | .fatal f w3 => .fatal f w3
      | .ok _ w3 => .ok () (w3.log [Ev.out Out.done])

/-- The C string starting at `buf`: the bytes before the first 0. -/
def cstring : List Nat → List Nat
  | [] => []
  | b :: rest => if b = 0 then [] else b :: cstring rest

/-- The `else if (!filename && !force)` branch; returns `data`. -/
def queryInfo (crc32 : List Nat → Nat) (a : Args) (data : List Nat) (w : World) :
    Res (List Nat) :=
  match sendval a.delay (w.log [Ev.out Out.fetchingInfo]) 1 with
  | .fatal f w1 => .fatal f w1
  | .ok _ w1 =>
    match recvdata crc32 w1 data with
    | .fatal f w2 => .fatal f w2
    | .ok (r, data1) w2 =>
      match checkres a.force w2 r 32 Msg.readingData with
      | .fatal f w3 => .fatal f w3
      | .ok _ w3 =>
        match sendval a.delay (w3.log [Ev.out (Out.bootloaderRevision (data1.getD 0 0))]) 2 with
        | .fatal f w4 => .fatal f w4
        | .ok _ w4 =>
          match sendval a.delay w4 0 with -- First block
          | .fatal f w5 => .fatal f w5
          | .ok _ w5 =>
            match sendval a.delay w5 4 with -- (4+1)*4=20 bytes
            | .fatal f w6 => .fatal f w6
            | .ok _ w6 =>
              match recvdata crc32 w6 data1 with
              | .fatal f w7 => .fatal f w7
              | .ok (r2, data2) w7 =>
                match checkres a.force w7 r2 20 Msg.readingData with
                | .fatal f w8 => .fatal f w8
                | .ok _ w8 =>
                  if data2.getD 0 0 + 256 * data2.getD 1 0 = 0x32ea then
                    .ok data2 (w8.log [Ev.out (Out.firmwareRevision (data2.getD 2 0)
                      (cstring (data2.drop 4)))])
                  else .ok data2 (w8.log [Ev.out Out.firmwareNotInstalled])

/-- `uint8_t data[61440] = {0xff}`: the first element is 0xff, the others
are zero-initialised. -/
def dataInit : List Nat :=
  0xff :: List.replicate 61439 0

/-- The `if (filename)` block that loads the image: `file` is what `fopen`
and `fread` find (`none` when either fails). Returns `data` and `size`. -/
def loadImage (file : Option (List Nat)) (w : World) : Res (List Nat × Nat) :=
  match file with
  | none => .fatal .fileErr w
  | some bytes =>
    let n := min bytes.length 61440
    let size := (n + 3) / 4 * 4
    if size = 0 then .fatal .emptyData w
    else .ok (writeAt dataInit 0 (bytes.take n), size) w

/-- The part of `main` from the probing loop on. -/
def session (crc32 : List Nat → Nat) (fuel : Nat) (a : Args) (data : List Nat) (size : Nat)
    (w : World) : Option (Res Int) :=
  match probeLoop a.force a.delay fuel 0 w with
  | none => none
  | some (.fatal f w1) => some (.fatal f w1)
  | some (.ok _ w1) =>
    let upd : Option (Res Unit) :=
      if a.filename then
        match (if a.boot then updateBootloader crc32 fuel a data size w1
               else updateFirmware crc32 fuel a data size w1) with
        | none => none
        | some (.fatal f w2) => some (.fatal f w2)
        | some (.ok _ w2) => some (.ok () (w2.log [Ev.out Out.done]))
      else some (.ok () w1)
    match upd with
    | none => none
    | some (.fatal f w2) => some (.fatal f w2)
    | some (.ok _ w2) =>
      if a.setwrp ≠ 0 then
        match setProtection a w2 with
        | .fatal f w3 => some (.fatal f w3)
        | .ok _ w3 => some (.ok 0 w3)
      else if !a.filename && !a.force then
        match queryInfo crc32 a data w2 with
        | .fatal f w3 => some (.fatal f w3)
        | .ok _ w3 => some (.ok 0 w3)
      else some (.ok 0 w2)

/-- `main(argc, argv)`: returns the exit status. `opts`/`argc` are the
command line as `getopt` sees it, `file` the image file, `devOk` whether
`openserial` succeeds. `none`: still running after `fuel` iterations of a
loop. -/
def main (crc32 : List Nat → Nat) (fuel : Nat) (opts : List Opt) (argc : Nat)
    (file : Option (List Nat)) (devOk : Bool) (w : World) : Option (Res Int) :=
  match parseargs opts argc with
  | none => some (.ok 1 (w.log [Ev.out Out.usage]))
  | some a =>
    if a.version then some (.ok 0 (w.log [Ev.out Out.versionBanner]))
    else
      let loaded : Res (List Nat × Nat) :=
        if a.filename then loadImage file w else .ok (dataInit, 0) w
      match loaded with
      | .fatal f w1 => some (.fatal f w1)
      | .ok (data, size) w1 =>
        let w2 := w1.log [Ev.out Out.probing]
        if devOk then session crc32 fuel a data size w2
        else some (.fatal .openErr w2)

/-! ## Notions used to state the properties -/

/-- The bytes the line delivers before its first timeout (or OS error). -/
def pending : List (Option (List Nat)) → List Nat
  | [] => []
  | none :: _ => []
  | some b :: rest => if b.length = 0 then [] else b ++ pending rest

/-- No `read()` (or `write()`) of the list fails with an OS error. -/
def NoErr {α : Type} (l : List (Option α)) : Prop :=
  ∀ e ∈ l, e.isSome = true

instance {α : Type} (l : List (Option α)) : Decidable (NoErr l) := by
  unfold NoErr
  infer_instance

/-- The bytes written to the line, in order, according to a transcript. -/
def sent : List Ev → List Nat
  | [] => []
  | Ev.tx b :: rest => b :: sent rest
  | _ :: rest => sent rest

/-- Wire form of a Value: the byte and its bitwise complement. -/
def valueBytes (v : Nat) : List Nat :=
  [v, 255 - v]

/-- Wire form of a Block with payload `p`: the length Value `len/4 - 1`, the
payload, and the checksum, least-significant byte first. -/
def frame (crc32 : List Nat → Nat) (p : List Nat) : List Nat :=
  valueBytes (p.length / 4 - 1) ++ p ++ bytes32 (crc32 p % 4294967296)

/-- Modelled from the spec: `crc32` is declared in `common.h` and defined
outside the source files; the spec names it "a standard 32-bit cyclic
redundancy check (CRC-32, IEEE 802.3 polynomial)". One bit of the standard
reflected algorithm: shift right, XOR the reflected polynomial when the bit
shifted out is 1. -/
def crcBit (c : Nat) : Nat :=
  if c % 2 = 1 then c / 2 ^^^ 0xEDB88320 else c / 2

/-- Modelled from the spec: one byte of the standard CRC-32 that `crc32`
(missing from the source files) computes. -/
def crcByte (c b : Nat) : Nat :=
  Nat.iterate crcBit 8 (c ^^^ b)

/-- Modelled from the spec: `crc32(buf, len)`, missing from the source files,
as the standard CRC-32 (initial value and final XOR 0xFFFFFFFF; the CRC of
"123456789" is 0xCBF43926). -/
def crc32 (p : List Nat) : Nat :=
  p.foldl crcByte 0xFFFFFFFF ^^^ 0xFFFFFFFF

/-- The acceptance condition of a Block, on the bytes `s` that arrive before
the first timeout: a valid length Value `cnt` arrives, then `(cnt+1)*4` payload
bytes and 4 checksum bytes, and the checksum bytes (least-significant byte
first) are the `crc32` of the payload bytes. -/
def accepts (crc32 : List Nat → Nat) (s : List Nat) : Prop :=
  2 ≤ s.length ∧ s.getD 0 0 ^^^ s.getD 1 0 = 0xff ∧
  2 + (s.getD 0 0 + 1) * 4 + 4 ≤ s.length ∧
  crc32 ((s.drop 2).take ((s.getD 0 0 + 1) * 4)) % 4294967296 =
    le32 ((s.drop (2 + (s.getD 0 0 + 1) * 4)).take 4)

instance (crc32 : List Nat → Nat) (s : List Nat) : Decidable (accepts crc32 s) := by
  unfold accepts
  infer_instance

/-- Block `k` of an image of `size` bytes: `data[1024k .. 1024k + min(1024, size - 1024k))`. -/
def block (data : List Nat) (size k : Nat) : List Nat :=
  (data.drop (1024 * k)).take (min 1024 (size - 1024 * k))

/-- The bytes of `m` OK acknowledgements. -/
def acks : Nat → List Nat
  | 0 => []
  | m + 1 => 0 :: 255 :: acks m

/-- Transcript of Write exchange `k` of the firmware loop with a device
that acknowledges: the progress line, the Value WRITE, the Value `k`, the
frame of block `k`, and the acknowledgement read. -/
def fwExchange (crc32 : List Nat → Nat) (data : List Nat) (size k : Nat) : List Ev :=
  Ev.out (Out.progress (1024 * k * 100 / size)) ::
    ((valueBytes 3 ++ valueBytes k ++ frame crc32 (block data size k)).map Ev.tx ++
      (valueBytes 0).map Ev.rx)

/-- Transcript of the exchange for block `k` of the bootloader loop with a
device that acknowledges: the progress line, the frame of block `k`, and the
acknowledgement read. -/
def bootExchange (crc32 : List Nat → Nat) (data : List Nat) (size k : Nat) : List Ev :=
  Ev.out (Out.progress (1024 * k * 100 / size)) ::
    ((frame crc32 (block data size k)).map Ev.tx ++ (valueBytes 0).map Ev.rx)

/-- The payloads `data + pos`, `maxlen(pos, size)` that the loops
`for (pos = 0; pos < size; pos += 1024)` hand to `senddata`. -/
def chunks (data : List Nat) (size : Nat) : Nat → Nat → List (List Nat)
  | 0, _ => []
  | fuel + 1, pos =>
    if pos < size then (data.drop pos).take (maxlen pos size) :: chunks data size fuel (pos + 1024)
    else []

/-- The bytes of `n` PROBE Values. -/
def probes : Nat → List Nat
  | 0 => []
  | n + 1 => 0 :: 255 :: probes n

/-- An answer burst that `recvval` does not read as OK: a timeout, or two
bytes other than `0x00 0xFF`. -/
def notOK : List Nat → Bool
  | [] => true
  | [x, y] => !(x == 0 && y == 255)
  | _ => false

/-- The bytes written in Write exchange `k`. -/
def fwBytes (crc32 : List Nat → Nat) (data : List Nat) (size k : Nat) : List Nat :=
  valueBytes 3 ++ valueBytes k ++ frame crc32 (block data size k)

/-- The lines that announce a branch of `main`, in the order they appear in
a transcript: "Updating bootloader...", "Updating firmware...", "Setting write
protection...", "Fetching ESCape32 info...". -/
def banners : List Ev → List Out
  | [] => []
  | Ev.out Out.updatingBootloader :: rest => Out.updatingBootloader :: banners rest
  | Ev.out Out.updatingFirmware :: rest => Out.updatingFirmware :: banners rest
  | Ev.out Out.settingProtection :: rest => Out.settingProtection :: banners rest
  | Ev.out Out.fetchingInfo :: rest => Out.fetchingInfo :: banners rest
  | _ :: rest => banners rest

/-- The branches a complete run goes through after probing, as the dispatch
of `main` selects them from the parsed arguments. -/
def plan (a : Args) : List Out :=
  (if a.filename then [if a.boot then Out.updatingBootloader else Out.updatingFirmware]
   else []) ++
  (if a.setwrp ≠ 0 then [Out.settingProtection]
   else if !a.filename && !a.force then [Out.fetchingInfo] else [])

/-! ## Channel lemmas -/

theorem writeAt_writeAt (buf : List Nat) (off : Nat) (a b : List Nat) :
    writeAt (writeAt buf off a) (off + a.length) b = writeAt buf off (a ++ b) := by
  unfold writeAt
  rcases Nat.lt_or_ge buf.length off with h | h
  · have h1 : List.take off buf = buf := List.take_of_length_le (by omega)
    have h2 : List.drop (off + a.length) buf = [] := List.drop_of_length_le (by omega)
    have h3 : List.drop (off + (a ++ b).length) buf = [] :=
      List.drop_of_length_le (by simp; omega)
    rw [h1, h2, h3]
    simp only [List.append_nil]
    rw [List.take_of_length_le (by simp; omega), List.drop_of_length_le (by simp; omega)]
    simp
  · have hl : (List.take off buf ++ a).length = off + a.length := by
      simp [List.length_take]; omega
    have e1 : List.take (off + a.length) (List.take off buf ++ a ++ List.drop (off + a.length) buf)
        = List.take off buf ++ a := List.take_left' hl
    have e2 : List.drop (off + a.length + b.length)
        (List.take off buf ++ a ++ List.drop (off + a.length) buf)
        = List.drop (off + (a ++ b).length) buf := by
      rw [← hl, List.drop_append, List.drop_drop, hl]
      congr 1
      simp; omega
    rw [e1, e2]
    simp

theorem writeAt_zero_take (buf p : List Nat) : (writeAt buf 0 p).take p.length = p := by
  simp [writeAt]

theorem noErr_nil {α : Type} : NoErr ([] : List (Option α)) := by
  intro e he
  cases he

/-- With no OS error, `send` returns after writing exactly the bytes of
`buf`, whatever amounts the individual `write()` calls accept. -/
theorem sendLoop_ok (d : Bool) : ∀ (fuel : Nat) (w : World) (buf : List Nat),
    NoErr w.wr → w.wr.length + buf.length ≤ fuel →
    ∃ wr1, NoErr wr1 ∧
      sendLoop d fuel w buf =
        .ok () { rd := w.rd, wr := wr1, trace := w.trace ++ buf.map Ev.tx } := by
  intro fuel
  induction fuel with
  | zero =>
    intro w buf hw hf
    have h1 : w.wr = [] := List.length_eq_zero.mp (by omega)
    have h2 : buf = [] := List.length_eq_zero.mp (by omega)
    refine ⟨[], noErr_nil, ?_⟩
    subst h2
    cases w
    simp_all [sendLoop]
  | succ fuel ih =>
    intro w buf hw hf
    obtain ⟨rd, wr, trace⟩ := w
    by_cases hb : buf.length = 0
    · have h2 : buf = [] := List.length_eq_zero.mp hb
      subst h2
      exact ⟨wr, hw, by simp [sendLoop]⟩
    · simp only [sendLoop, hb, if_false]
      cases wr with
      | nil =>
        simp only [write]
        have hn : 1 ≤ (if d = true then 1 else buf.length) := by split <;> omega
        obtain ⟨wr1, h1, h2⟩ := ih
          { rd := rd, wr := [],
            trace := trace ++ (buf.take (if d = true then 1 else buf.length)).map Ev.tx }
          (buf.drop (if d = true then 1 else buf.length)) noErr_nil
          (by simp only [List.length_drop, List.length_nil] at hf ⊢; omega)
        refine ⟨wr1, h1, ?_⟩
        rw [h2]
        simp only [List.append_assoc, ← List.map_append, List.take_append_drop]
      | cons e rest =>
        cases e with
        | none => exact absurd (hw none (by simp)) (by simp)
        | some k =>
          simp only [write]
          obtain ⟨wr1, h1, h2⟩ := ih
            { rd := rd, wr := rest,
              trace := trace ++ (buf.take (min k (if d = true then 1 else buf.length))).map Ev.tx }
            (buf.drop (min k (if d = true then 1 else buf.length)))
            (fun e he => hw e (List.mem_cons_of_mem _ he))
            (by simp only [List.length_drop, List.length_cons] at hf ⊢; omega)
          refine ⟨wr1, h1, ?_⟩
          rw [h2]
          simp only [List.append_assoc, ← List.map_append, List.take_append_drop]

theorem send_ok (d : Bool) (w : World) (buf : List Nat) (hw : NoErr w.wr) :
    ∃ wr1, NoErr wr1 ∧
      send d w buf = .ok () { rd := w.rd, wr := wr1, trace := w.trace ++ buf.map Ev.tx } :=
  sendLoop_ok d _ w buf hw (Nat.le_refl _)

/-- When the line delivers `len` bytes before its first timeout, `recv`
returns 1 with these bytes stored, however they are split over `read()`
calls; enough fuel is any amount `≥ len`. -/
theorem recvLoop_ok : ∀ (fuel : Nat) (w : World) (buf : List Nat) (off len : Nat),
    len ≤ fuel → len ≤ (pending w.rd).length →
    ∃ rd1, pending rd1 = (pending w.rd).drop len ∧ (NoErr w.rd → NoErr rd1) ∧
      recvLoop fuel w buf off len =
        .ok (1, writeAt buf off ((pending w.rd).take len))
          { rd := rd1, wr := w.wr,
            trace := w.trace ++ ((pending w.rd).take len).map Ev.rx } := by
  intro fuel
  induction fuel with
  | zero =>
    intro w buf off len hf hp
    have hl : len = 0 := by omega
    subst hl
    refine ⟨w.rd, by simp, id, ?_⟩
    cases w
    simp [recvLoop, writeAt]
  | succ fuel ih =>
    intro w buf off len hf hp
    obtain ⟨rd, wr, trace⟩ := w
    by_cases hl : len = 0
    · subst hl
      exact ⟨rd, by simp, id, by simp [recvLoop, writeAt]⟩
    · simp only [recvLoop, hl, if_false]
      cases rd with
      | nil => simp [pending] at hp; omega
      | cons e rest =>
        cases e with
        | none => simp [pending] at hp; omega
        | some b =>
          by_cases hb : b.length = 0
          · simp [pending, hb] at hp; omega
          · simp only [pending, hb, if_false] at hp ⊢
            simp only [read, hb, if_false]
            by_cases hle : b.length ≤ len
            · simp only [hle, if_true, hb, if_false]
              obtain ⟨rd1, h1, h2, h3⟩ := ih
                { rd := rest, wr := wr, trace := trace ++ b.map Ev.rx }
                (writeAt buf off b) (off + b.length) (len - b.length) (by omega)
                (by simp only [List.length_append] at hp ⊢; omega)
              refine ⟨rd1, ?_, ?_, ?_⟩
              · rw [h1]
                simp only
                rw [List.drop_append_eq_append_drop, List.drop_of_length_le hle, List.nil_append]
              · intro hn
                exact h2 (fun e he => hn e (List.mem_cons_of_mem _ he))
              · rw [h3, writeAt_writeAt]
                simp only
                rw [List.take_append_eq_append_take, List.take_of_length_le hle]
                simp only [List.map_append, List.append_assoc]
            · have hlt : len < b.length := by omega
              simp only [hle, if_false]
              have htl : (List.take len b).length = len := by
                simp [List.length_take]; omega
              simp only [htl, hl, if_false]
              obtain ⟨rd1, h1, h2, h3⟩ := ih
                { rd := some (b.drop len) :: rest, wr := wr,
                  trace := trace ++ (b.take len).map Ev.rx }
                (writeAt buf off (b.take len)) (off + len) (len - len) (by omega) (by omega)
              have hz : len - len = 0 := by omega
              have hd : (List.drop len b).length ≠ 0 := by simp [List.length_drop]; omega
              rw [hz] at h1 h3
              refine ⟨rd1, ?_, ?_, ?_⟩
              · rw [h1]
                simp only [pending, hd, if_false, List.drop_zero]
                rw [List.drop_append_of_le_length (by omega)]
              · intro hn
                apply h2
                intro e he
                rcases List.mem_cons.mp he with h | h
                · simp [h]
                · exact hn e (List.mem_cons_of_mem _ h)
              · rw [hz, h3]
                simp only [List.take_zero, List.map_nil, List.append_nil]
                rw [List.take_append_of_le_length (by omega)]
                simp [writeAt]

theorem recv_ok (w : World) (buf : List Nat) (len : Nat) (hp : len ≤ (pending w.rd).length) :
    ∃ rd1, pending rd1 = (pending w.rd).drop len ∧ (NoErr w.rd → NoErr rd1) ∧
      recv w buf len =
        .ok (1, writeAt buf 0 ((pending w.rd).take len))
          { rd := rd1, wr := w.wr,
            trace := w.trace ++ ((pending w.rd).take len).map Ev.rx } :=
  recvLoop_ok len w buf 0 len (Nat.le_refl _) hp

/-- More fuel than `len` does not change what the loop of `recv` returns. -/
theorem recvLoop_fuel : ∀ (fuel : Nat) (w : World) (buf : List Nat) (off len : Nat),
    len ≤ fuel → recvLoop (fuel + 1) w buf off len = recvLoop fuel w buf off len := by
  intro fuel
  induction fuel with
  | zero =>
    intro w buf off len h
    have hl : len = 0 := by omega
    subst hl
    simp [recvLoop]
  | succ fuel ih =>
    intro w buf off len h
    by_cases hl : len = 0
    · subst hl
      simp [recvLoop]
    · rw [recvLoop, recvLoop.eq_def (fuel + 1)]
      simp only [hl, if_false]
      cases hr : read w len with
      | mk got w1 =>
        cases got with
        | none => rfl
        | some got =>
          by_cases hg : got.length = 0
          · simp only [hg, if_true]
          · simp only [hg, if_false]
            exact ih _ _ _ _ (by omega)

/-- More fuel than `wr.length + len` does not change what the loop of `send`
returns. -/
theorem sendLoop_fuel (d : Bool) : ∀ (fuel : Nat) (w : World) (buf : List Nat),
    w.wr.length + buf.length ≤ fuel →
    sendLoop d (fuel + 1) w buf = sendLoop d fuel w buf := by
  intro fuel
  induction fuel with
  | zero =>
    intro w buf h
    have hb : buf.length = 0 := by omega
    simp [sendLoop, hb]
  | succ fuel ih =>
    intro w buf h
    by_cases hb : buf.length = 0
    · simp [sendLoop, hb]
    · rw [sendLoop, sendLoop.eq_def d (fuel + 1)]
      simp only [hb, if_false]
      obtain ⟨rd, wr, trace⟩ := w
      cases wr with
      | nil =>
        simp only [write]
        apply ih
        have hn : 1 ≤ (if d = true then 1 else buf.length) := by split <;> omega
        simp only [List.length_drop, List.length_nil] at h ⊢
        omega
      | cons e rest =>
        cases e with
        | none => simp only [write]
        | some k =>
          simp only [write]
          apply ih
          simp only [List.length_drop, List.length_cons] at h ⊢
          omega

theorem sent_append (a b : List Ev) : sent (a ++ b) = sent a ++ sent b := by
  induction a with
  | nil => rfl
  | cons e rest ih => cases e <;> simp [sent, ih]

theorem sent_map_rx (bs : List Nat) : sent (bs.map Ev.rx) = [] := by
  induction bs with
  | nil => rfl
  | cons b rest ih => simpa [sent] using ih

theorem sent_map_tx (bs : List Nat) : sent (bs.map Ev.tx) = bs := by
  induction bs with
  | nil => rfl
  | cons b rest ih => simpa [sent] using ih

/-- When fewer than `len` bytes arrive before the first timeout (and no
`read()` fails), `recv` returns 0. -/
theorem recvLoop_timeout : ∀ (fuel : Nat) (w : World) (buf : List Nat) (off len : Nat),
    len ≤ fuel → NoErr w.rd → (pending w.rd).length < len →
    ∃ buf1 w1, recvLoop fuel w buf off len = .ok (0, buf1) w1 ∧ w1.wr = w.wr ∧
      NoErr w1.rd ∧ sent w1.trace = sent w.trace := by
  intro fuel
  induction fuel with
  | zero => intro w buf off len hf _ hp; omega
  | succ fuel ih =>
    intro w buf off len hf hn hp
    obtain ⟨rd, wr, trace⟩ := w
    have hl : len ≠ 0 := by omega
    simp only [recvLoop, hl, if_false]
    cases rd with
    | nil =>
      refine ⟨buf, { rd := [], wr := wr, trace := trace ++ [Ev.timeout] }, ?_, rfl, hn, ?_⟩
      · simp [read, World.log]
      · simp [sent_append, sent]
    | cons e rest =>
      have hrest : NoErr rest := fun e he => hn e (List.mem_cons_of_mem _ he)
      cases e with
      | none => exact absurd (hn none (by simp)) (by simp)
      | some b =>
        by_cases hb : b.length = 0
        · refine ⟨buf, { rd := rest, wr := wr, trace := trace ++ [Ev.timeout] }, ?_, rfl,
            hrest, ?_⟩
          · simp [read, hb]
          · simp [sent_append, sent]
        · simp only [pending, hb, if_false, List.length_append] at hp
          have hle : b.length ≤ len := by omega
          simp only [read, hb, if_false, hle, if_true]
          obtain ⟨buf1, w1, h1, h2, h3, h4⟩ := ih
            { rd := rest, wr := wr, trace := trace ++ b.map Ev.rx }
            (writeAt buf off b) (off + b.length) (len - b.length) (by omega) hrest
            (by simp only; omega)
          exact ⟨buf1, w1, h1, h2, h3, by rw [h4]; simp [sent_append, sent_map_rx]⟩

theorem recv_timeout (w : World) (buf : List Nat) (len : Nat) (hn : NoErr w.rd)
    (hp : (pending w.rd).length < len) :
    ∃ buf1 w1, recv w buf len = .ok (0, buf1) w1 ∧ w1.wr = w.wr ∧
      NoErr w1.rd ∧ sent w1.trace = sent w.trace :=
  recvLoop_timeout len w buf 0 len (Nat.le_refl _) hn hp

/-! ## Values -/

theorem sendval_ok (d : Bool) (w : World) (val : Int) (hw : NoErr w.wr) :
    ∃ wr1, NoErr wr1 ∧
      sendval d w val =
        .ok () { rd := w.rd, wr := wr1,
                 trace := w.trace ++ [Ev.tx (val % 256).toNat, Ev.tx ((-val - 1) % 256).toNat] } := by
  obtain ⟨wr1, h1, h2⟩ := send_ok d w [(val % 256).toNat, ((-val - 1) % 256).toNat] hw
  exact ⟨wr1, h1, by simpa [sendval] using h2⟩

theorem sendval_nat (d : Bool) (w : World) (v : Nat) (hv : v < 256) (hw : NoErr w.wr) :
    ∃ wr1, NoErr wr1 ∧
      sendval d w (v : Int) =
        .ok () { rd := w.rd, wr := wr1, trace := w.trace ++ (valueBytes v).map Ev.tx } := by
  obtain ⟨wr1, h1, h2⟩ := sendval_ok d w (v : Int) hw
  refine ⟨wr1, h1, ?_⟩
  have e1 : ((v : Int) % 256).toNat = v := by omega
  have e2 : ((-(v : Int) - 1) % 256).toNat = 255 - v := by omega
  rw [h2, e1, e2]
  rfl

theorem recvval_ok (w : World) (a b : Nat) (rest : List Nat)
    (hp : pending w.rd = a :: b :: rest) :
    ∃ rd1, pending rd1 = rest ∧ (NoErr w.rd → NoErr rd1) ∧
      recvval w =
        .ok (if a ^^^ b = 255 then (a : Int) else -1)
          { rd := rd1, wr := w.wr, trace := w.trace ++ [Ev.rx a, Ev.rx b] } := by
  obtain ⟨rd1, h1, h2, h3⟩ := recv_ok w [0, 0] 2 (by rw [hp]; simp)
  refine ⟨rd1, by simpa [hp] using h1, h2, ?_⟩
  simp only [recvval, h3, hp]
  simp [writeAt]

theorem recvval_timeout (w : World) (hn : NoErr w.rd) (hp : (pending w.rd).length < 2) :
    ∃ w1, recvval w = .ok (-1) w1 ∧ w1.wr = w.wr ∧ NoErr w1.rd ∧
      sent w1.trace = sent w.trace := by
  obtain ⟨buf1, w1, h1, h2, h3, h4⟩ := recv_timeout w [0, 0] 2 hn hp
  exact ⟨w1, by simp [recvval, h1], h2, h3, h4⟩

set_option maxRecDepth 100000 in
theorem complement_xor : ∀ v < 256, 255 - v = v ^^^ 255 := by decide

theorem flip_first (v i : Nat) (hv : v < 256) : (v ^^^ 2 ^ i) ^^^ (255 - v) ≠ 255 := by
  rw [complement_xor v hv]
  intro h
  have e : (v ^^^ 2 ^ i) ^^^ (v ^^^ 255) = 2 ^ i ^^^ 255 := by
    rw [Nat.xor_comm v (2 ^ i), Nat.xor_assoc, ← Nat.xor_assoc v v, Nat.xor_self, Nat.zero_xor]
  rw [e] at h
  have h0 : 2 ^ i ^^^ 255 = 0 ^^^ 255 := by simpa using h
  have := Nat.xor_left_injective h0
  simp at this

theorem flip_second (v i : Nat) (hv : v < 256) : v ^^^ ((255 - v) ^^^ 2 ^ i) ≠ 255 := by
  rw [complement_xor v hv]
  intro h
  have e : v ^^^ ((v ^^^ 255) ^^^ 2 ^ i) = 2 ^ i ^^^ 255 := by
    rw [← Nat.xor_assoc, ← Nat.xor_assoc, Nat.xor_self, Nat.zero_xor, Nat.xor_comm]
  rw [e] at h
  have h0 : 2 ^ i ^^^ 255 = 0 ^^^ 255 := by simpa using h
  have := Nat.xor_left_injective h0
  simp at this

/-- What `recvval` returns, read off the bytes `s` that arrive before the
first timeout. -/
theorem recvval_value (w : World) (hn : NoErr w.rd) :
    ∃ w1, recvval w =
      .ok (if 2 ≤ (pending w.rd).length ∧
              (pending w.rd).getD 0 0 ^^^ (pending w.rd).getD 1 0 = 0xff
           then ((pending w.rd).getD 0 0 : Int) else -1) w1 := by
  by_cases h2 : 2 ≤ (pending w.rd).length
  · match hp : pending w.rd, h2 with
    | a :: b :: rest, _ =>
      obtain ⟨rd1, _, _, h⟩ := recvval_ok w a b rest hp
      refine ⟨{ rd := rd1, wr := w.wr, trace := w.trace ++ [Ev.rx a, Ev.rx b] }, ?_⟩
      rw [h]
      simp
  · obtain ⟨w1, h, _⟩ := recvval_timeout w hn (by omega)
    exact ⟨w1, by rw [h, if_neg (fun hc => h2 hc.1)]⟩

/-- C1. Value round trip: for every value `v` in [0,255], `sendval` writes
exactly the two bytes `v` and the bitwise complement of `v` (with or without
the delay flag, whatever amounts the `write()` calls accept), and `recvval`
on a line that delivers these two bytes returns `v`. -/
theorem value_round_trip (v : Nat) (d : Bool) (w r : World) (rest : List Nat)
    (hv : v < 256) (hw : NoErr w.wr) (hp : pending r.rd = [v, 255 - v] ++ rest) :
    (255 - v = v ^^^ 0xff) ∧
    (∃ wr1, sendval d w (v : Int) =
        .ok () { rd := w.rd, wr := wr1,
                 trace := w.trace ++ [Ev.tx v, Ev.tx (255 - v)] }) ∧
    (∃ r1, recvval r = .ok (v : Int) r1 ∧ pending r1.rd = rest ∧
        r1.trace = r.trace ++ [Ev.rx v, Ev.rx (255 - v)]) := by
  refine ⟨complement_xor v hv, ?_, ?_⟩
  · obtain ⟨wr1, _, h⟩ := sendval_nat d w v hv hw
    exact ⟨wr1, h⟩
  · obtain ⟨rd1, h1, _, h3⟩ := recvval_ok r v (255 - v) rest hp
    have hx : v ^^^ (255 - v) = 255 := by
      rw [complement_xor v hv, ← Nat.xor_assoc, Nat.xor_self, Nat.zero_xor]
    rw [if_pos hx] at h3
    exact ⟨_, h3, h1, rfl⟩

/-- Witness for C1: the value 0x44, sent one byte at a time over a line whose
first `write()` accepts nothing, and received in two separate reads. -/
theorem value_round_trip_witness :
    (0x44 < 256 ∧ NoErr [some 0, some 5] ∧
      pending [some [0x44], some [0xbb, 7]] = [0x44, 255 - 0x44] ++ [7]) ∧
    ((255 - 0x44 = 0x44 ^^^ 0xff) ∧
     (∃ wr1, sendval true { rd := [], wr := [some 0, some 5], trace := [] } ((0x44 : Nat) : Int) =
        .ok () { rd := [], wr := wr1, trace := [] ++ [Ev.tx 0x44, Ev.tx (255 - 0x44)] }) ∧
     (∃ r1, recvval { rd := [some [0x44], some [0xbb, 7]], wr := [], trace := [] } =
          .ok ((0x44 : Nat) : Int) r1 ∧ pending r1.rd = [7] ∧
        r1.trace = [] ++ [Ev.rx 0x44, Ev.rx (255 - 0x44)])) :=
  ⟨⟨by decide, by decide, by decide⟩,
   value_round_trip 0x44 true { rd := [], wr := [some 0, some 5], trace := [] }
     { rd := [some [0x44], some [0xbb, 7]], wr := [], trace := [] } [7]
     (by decide) (by decide) (by decide)⟩

/-- C2. Value corruption detection: for every value `v` in [0,255] and bit
`i` in 0..7, flipping bit `i` of the first or of the second byte that
`sendval v` produces makes `recvval` return -1. More generally, when no
`read()` fails, `recvval` returns the first byte if two bytes arrive before a
timeout and their XOR is 0xFF, and -1 in every other case. -/
theorem value_corruption_detected (v i : Nat) (w1 w2 w : World) (rest1 rest2 : List Nat)
    (hv : v < 256) (hi : i < 8)
    (h1 : pending w1.rd = [v ^^^ 2 ^ i, 255 - v] ++ rest1)
    (h2 : pending w2.rd = [v, (255 - v) ^^^ 2 ^ i] ++ rest2)
    (hn : NoErr w.rd) :
    (v ^^^ 2 ^ i ≠ v ∧ v ^^^ 2 ^ i < 256 ∧ (255 - v) ^^^ 2 ^ i ≠ 255 - v ∧
      (255 - v) ^^^ 2 ^ i < 256) ∧
    (∃ r1, recvval w1 = .ok (-1) r1) ∧
    (∃ r2, recvval w2 = .ok (-1) r2) ∧
    (∃ r, recvval w =
      .ok (if 2 ≤ (pending w.rd).length ∧
              (pending w.rd).getD 0 0 ^^^ (pending w.rd).getD 1 0 = 0xff
           then ((pending w.rd).getD 0 0 : Int) else -1) r) := by
  have hpow : 2 ^ i < 2 ^ 8 := Nat.pow_lt_pow_right (by decide) hi
  have hne : ∀ x : Nat, x ^^^ 2 ^ i ≠ x := by
    intro x hx
    have h0 : x ^^^ 2 ^ i = x ^^^ 0 := by simpa using hx
    have := Nat.xor_right_injective h0
    simp at this
  refine ⟨⟨hne v, Nat.xor_lt_two_pow (n := 8) hv hpow, hne _,
    Nat.xor_lt_two_pow (n := 8) (by omega) hpow⟩, ?_, ?_, recvval_value w hn⟩
  · obtain ⟨rd1, _, _, h⟩ := recvval_ok w1 _ _ rest1 h1
    rw [if_neg (flip_first v i hv)] at h
    exact ⟨_, h⟩
  · obtain ⟨rd1, _, _, h⟩ := recvval_ok w2 _ _ rest2 h2
    rw [if_neg (flip_second v i hv)] at h
    exact ⟨_, h⟩

/-- Witness for C2: value 0x44 with bit 3 flipped in either byte, and a line
that delivers a valid pair. -/
theorem value_corruption_detected_witness :
    (∃ r1, recvval { rd := [some [0x44 ^^^ 2 ^ 3, 255 - 0x44]], wr := [], trace := [] } =
        .ok (-1) r1) ∧
    (∃ r2, recvval { rd := [some [0x44, (255 - 0x44) ^^^ 2 ^ 3]], wr := [], trace := [] } =
        .ok (-1) r2) ∧
    (∃ r, recvval { rd := [some [5], some [250]], wr := [], trace := [] } = .ok 5 r) :=
  have h := value_corruption_detected 0x44 3
    { rd := [some [0x44 ^^^ 2 ^ 3, 255 - 0x44]], wr := [], trace := [] }
    { rd := [some [0x44, (255 - 0x44) ^^^ 2 ^ 3]], wr := [], trace := [] }
    { rd := [some [5], some [250]], wr := [], trace := [] } [] []
    (by decide) (by decide) (by decide) (by decide) (by decide)
  ⟨h.2.1, h.2.2.1, h.2.2.2⟩

/-! ## Blocks -/

theorem le32_bytes32 (x : Nat) (hx : x < 4294967296) : le32 (bytes32 x) = x := by
  simp only [le32, bytes32, List.getD_cons_zero, List.getD_cons_succ]
  omega

theorem writeAt_full (buf p : List Nat) (h : buf.length = p.length) : writeAt buf 0 p = p := by
  simp [writeAt, h]

/-- `senddata` writes the frame of the `len` bytes at `buf`. -/
theorem senddata_frame (crc32 : List Nat → Nat) (d : Bool) (w : World) (buf : List Nat)
    (len : Nat) (hw : NoErr w.wr) (hlo : 4 ≤ len) (hhi : len ≤ 1024) (hb : len ≤ buf.length) :
    ∃ wr1, NoErr wr1 ∧
      senddata crc32 d w buf len =
        .ok () { rd := w.rd, wr := wr1,
                 trace := w.trace ++ (frame crc32 (buf.take len)).map Ev.tx } := by
  have hv : ((len / 4 : Nat) : Int) - 1 = ((len / 4 - 1 : Nat) : Int) := by omega
  obtain ⟨wr1, n1, e1⟩ := sendval_nat d w (len / 4 - 1) (by omega) hw
  obtain ⟨wr2, n2, e2⟩ := send_ok d
    { rd := w.rd, wr := wr1, trace := w.trace ++ (valueBytes (len / 4 - 1)).map Ev.tx }
    (buf.take len) n1
  obtain ⟨wr3, n3, e3⟩ := send_ok d
    { rd := w.rd, wr := wr2,
      trace := w.trace ++ (valueBytes (len / 4 - 1)).map Ev.tx ++ (buf.take len).map Ev.tx }
    (bytes32 (crc32 (buf.take len) % 4294967296)) n2
  refine ⟨wr3, n3, ?_⟩
  dsimp only at e2 e3
  simp only [senddata, hv, e1]
  rw [e2]
  dsimp only
  rw [e3]
  simp [frame, List.length_take, Nat.min_eq_left hb]

/-- `recvdata` on a line that delivers a valid length Value, a payload of
that length and four more bytes. -/
theorem recvdata_full (crc32 : List Nat → Nat) (w : World) (buf : List Nat) (a b : Nat)
    (p c rest : List Nat) (hp : pending w.rd = a :: b :: (p ++ (c ++ rest)))
    (hab : a ^^^ b = 255) (hlen : p.length = (a + 1) * 4) (hc : c.length = 4) :
    ∃ rd1, pending rd1 = rest ∧ (NoErr w.rd → NoErr rd1) ∧
      recvdata crc32 w buf =
        .ok (if crc32 p % 4294967296 = le32 c then (p.length : Int) else -1, writeAt buf 0 p)
          { rd := rd1, wr := w.wr,
            trace := w.trace ++ (a :: b :: (p ++ c)).map Ev.rx } := by
  obtain ⟨rd1, h1, n1, e1⟩ := recvval_ok w a b _ hp
  rw [if_pos hab] at e1
  have hl : (((a : Int) + 1) * 4).toNat = p.length := by omega
  obtain ⟨rd2, h2, n2, e2⟩ := recv_ok
    { rd := rd1, wr := w.wr, trace := w.trace ++ [Ev.rx a, Ev.rx b] } buf p.length
    (by simp [h1])
  simp only [h1, List.take_left, List.drop_left] at h2 e2
  have t3 : List.take 4 (c ++ rest) = c := List.take_left' hc
  have d3 : List.drop 4 (c ++ rest) = rest := List.drop_left' hc
  obtain ⟨rd3, h3, n3, e3⟩ := recv_ok
    { rd := rd2, wr := w.wr, trace := w.trace ++ [Ev.rx a, Ev.rx b] ++ p.map Ev.rx }
    [0, 0, 0, 0] 4 (by simp [h2, hc])
  simp only [h2, t3, d3] at h3 e3
  refine ⟨rd3, h3, fun h => n3 (n2 (n1 h)), ?_⟩
  have hneg : ((a : Int) = -1) = False := by simp
  have hw4 : writeAt [0, 0, 0, 0] 0 c = c := writeAt_full _ c (by simp [hc])
  simp only [recvdata, e1, hneg, if_false, hl]
  rw [e2]
  simp only [one_ne_zero, if_false]
  rw [e3]
  simp [hw4, writeAt_zero_take]

theorem valueBytes_xor (v : Nat) (hv : v < 256) : v ^^^ (255 - v) = 255 := by
  rw [complement_xor v hv, ← Nat.xor_assoc, Nat.xor_self, Nat.zero_xor]

/-- `recvdata` on a line that delivers a length Value for `p.length`, then
`p`, then the four bytes `c`. -/
theorem recvdata_block (crc32 : List Nat → Nat) (w : World) (buf p c rest : List Nat)
    (h4 : p.length % 4 = 0) (hlo : 4 ≤ p.length) (hhi : p.length ≤ 1024) (hc : c.length = 4)
    (hp : pending w.rd = valueBytes (p.length / 4 - 1) ++ p ++ c ++ rest) :
    ∃ rd1, pending rd1 = rest ∧ (NoErr w.rd → NoErr rd1) ∧
      recvdata crc32 w buf =
        .ok (if crc32 p % 4294967296 = le32 c then (p.length : Int) else -1, writeAt buf 0 p)
          { rd := rd1, wr := w.wr,
            trace := w.trace ++ (valueBytes (p.length / 4 - 1) ++ p ++ c).map Ev.rx } := by
  have h := recvdata_full crc32 w buf (p.length / 4 - 1) (255 - (p.length / 4 - 1)) p c rest
    (by simpa [valueBytes] using hp) (valueBytes_xor _ (by omega)) (by omega) hc
  simpa [valueBytes] using h

/-- C3. Block round trip: for every payload `p` whose length is a multiple of
4 in [4,1024], `senddata` writes the frame of `p` (the length Value
`len/4 - 1` with its complement, the payload, the 4 checksum bytes), and
`recvdata` on a line that delivers exactly these bytes returns `len(p)` and
leaves the first `len(p)` bytes of the receive buffer equal to `p`. This
holds for any checksum function `crc32`. -/
theorem block_round_trip (crc32 : List Nat → Nat) (p mem buf rest : List Nat) (d : Bool)
    (w r : World) (h4 : p.length % 4 = 0) (hlo : 4 ≤ p.length) (hhi : p.length ≤ 1024)
    (hw : NoErr w.wr) (hr : pending r.rd = frame crc32 p ++ rest) :
    (∃ wr1, senddata crc32 d w (p ++ mem) p.length =
        .ok () { rd := w.rd, wr := wr1, trace := w.trace ++ (frame crc32 p).map Ev.tx }) ∧
    (∃ buf1 r1, recvdata crc32 r buf = .ok ((p.length : Int), buf1) r1 ∧
        buf1.take p.length = p ∧ buf1.drop p.length = buf.drop p.length ∧
        pending r1.rd = rest ∧ r1.trace = r.trace ++ (frame crc32 p).map Ev.rx) := by
  constructor
  · obtain ⟨wr1, _, e⟩ := senddata_frame crc32 d w (p ++ mem) p.length hw hlo hhi (by simp)
    rw [List.take_left] at e
    exact ⟨wr1, e⟩
  · obtain ⟨rd1, h1, _, e⟩ := recvdata_block crc32 r buf p (bytes32 (crc32 p % 4294967296)) rest
      h4 hlo hhi (by simp [bytes32]) (by simpa [frame] using hr)
    rw [le32_bytes32 _ (Nat.mod_lt _ (by decide)), if_pos rfl] at e
    refine ⟨_, _, e, writeAt_zero_take buf p, ?_, h1, ?_⟩
    · simp [writeAt]
    · simp [frame]

/-- Witness for C3: an 8-byte payload, sent with the delay flag over a line
whose first `write()` accepts nothing, and received from three bursts. -/
theorem block_round_trip_witness :
    (∃ wr1, senddata (fun _ => 0x11223344) true { rd := [], wr := [some 0], trace := [] }
        ([1, 2, 3, 4, 5, 6, 7, 8] ++ [9, 9]) 8 =
        .ok () { rd := [], wr := wr1,
                 trace := [] ++ (frame (fun _ => 0x11223344) [1, 2, 3, 4, 5, 6, 7, 8]).map Ev.tx }) ∧
    (∃ buf1 r1, recvdata (fun _ => 0x11223344)
          { rd := [some [1, 254, 1, 2, 3], some [4, 5, 6, 7, 8, 0x44, 0x33],
                   some [0x22, 0x11, 77]],
            wr := [], trace := [] } [0, 0, 0, 0, 0, 0, 0, 0, 0, 0] = .ok (8, buf1) r1 ∧
        buf1.take 8 = [1, 2, 3, 4, 5, 6, 7, 8] ∧
        buf1.drop 8 = [0, 0] ∧ pending r1.rd = [77] ∧
        r1.trace = [] ++ (frame (fun _ => 0x11223344) [1, 2, 3, 4, 5, 6, 7, 8]).map Ev.rx) :=
  block_round_trip (fun _ => 0x11223344) [1, 2, 3, 4, 5, 6, 7, 8] [9, 9]
    [0, 0, 0, 0, 0, 0, 0, 0, 0, 0] [77] true { rd := [], wr := [some 0], trace := [] }
    { rd := [some [1, 254, 1, 2, 3], some [4, 5, 6, 7, 8, 0x44, 0x33], some [0x22, 0x11, 77]],
      wr := [], trace := [] }
    (by decide) (by decide) (by decide) (by decide) (by decide)

/-! ## CRC-32 -/

set_option maxRecDepth 100000 in
/-- The check value of the standard CRC-32. -/
theorem crc32_check_value :
    crc32 [0x31, 0x32, 0x33, 0x34, 0x35, 0x36, 0x37, 0x38, 0x39] = 0xCBF43926 := by
  decide

theorem crcBit_lt (c : Nat) (h : c < 4294967296) : crcBit c < 4294967296 := by
  unfold crcBit
  split
  · exact Nat.xor_lt_two_pow (n := 32) (by omega) (by decide)
  · omega

theorem crcBit_inj (a b : Nat) (ha : a < 4294967296) (hb : b < 4294967296)
    (h : crcBit a = crcBit b) : a = b := by
  have key : ∀ x y : Nat, x < 4294967296 → y < 4294967296 → x % 2 = 1 → ¬ y % 2 = 1 →
      x / 2 ^^^ 0xEDB88320 ≠ y / 2 := by
    intro x y hx hy _ _ he
    have h1 : (x / 2 ^^^ 0xEDB88320).testBit 31 = true := by
      rw [Nat.testBit_xor, Nat.testBit_lt_two_pow (show x / 2 < 2 ^ 31 by omega)]
      decide
    have h2 : (y / 2).testBit 31 = false := Nat.testBit_lt_two_pow (show y / 2 < 2 ^ 31 by omega)
    rw [he, h2] at h1
    exact absurd h1 (by decide)
  unfold crcBit at h
  by_cases h1 : a % 2 = 1 <;> by_cases h2 : b % 2 = 1
  · simp only [h1, h2, if_true] at h
    have := Nat.xor_left_injective h
    omega
  · simp only [h1, h2, if_true, if_false] at h
    exact absurd h (key a b ha hb h1 h2)
  · simp only [h1, h2, if_true, if_false] at h
    exact absurd h.symm (key b a hb ha h2 h1)
  · simp only [h1, h2, if_false] at h
    omega

theorem crcIter_lt (n c : Nat) (h : c < 4294967296) : Nat.iterate crcBit n c < 4294967296 := by
  induction n generalizing c with
  | zero => simpa using h
  | succ n ih => exact ih (crcBit c) (crcBit_lt c h)

theorem crcIter_inj (n a b : Nat) (ha : a < 4294967296) (hb : b < 4294967296)
    (h : Nat.iterate crcBit n a = Nat.iterate crcBit n b) : a = b := by
  induction n generalizing a b with
  | zero => simpa using h
  | succ n ih =>
    exact crcBit_inj a b ha hb (ih (crcBit a) (crcBit b) (crcBit_lt a ha) (crcBit_lt b hb) h)

theorem crcByte_lt (c b : Nat) (hc : c < 4294967296) (hb : b < 256) :
    crcByte c b < 4294967296 :=
  crcIter_lt 8 _ (Nat.xor_lt_two_pow (n := 32) hc (by omega))

theorem crcFold_lt (p : List Nat) (hp : ∀ x ∈ p, x < 256) (c : Nat) (hc : c < 4294967296) :
    p.foldl crcByte c < 4294967296 := by
  induction p generalizing c with
  | nil => simpa using hc
  | cons x rest ih =>
    exact ih (fun y hy => hp y (List.mem_cons_of_mem _ hy)) _
      (crcByte_lt c x hc (hp x (List.mem_cons_self _ _)))

theorem crcFold_inj (p : List Nat) (hp : ∀ x ∈ p, x < 256) (a b : Nat) (ha : a < 4294967296)
    (hb : b < 4294967296) (h : p.foldl crcByte a = p.foldl crcByte b) : a = b := by
  induction p generalizing a b with
  | nil => simpa using h
  | cons x rest ih =>
    have hx : x < 256 := hp x (List.mem_cons_self _ _)
    have h1 := ih (fun y hy => hp y (List.mem_cons_of_mem _ hy)) _ _
      (crcByte_lt a x ha hx) (crcByte_lt b x hb hx) h
    have h2 := crcIter_inj 8 _ _ (Nat.xor_lt_two_pow (n := 32) ha (by omega))
      (Nat.xor_lt_two_pow (n := 32) hb (by omega)) h1
    exact Nat.xor_left_injective h2

theorem crc32_lt (p : List Nat) (hp : ∀ x ∈ p, x < 256) : crc32 p < 4294967296 :=
  Nat.xor_lt_two_pow (n := 32) (crcFold_lt p hp _ (by decide)) (by decide)

/-- Replacing one byte of the message changes the CRC-32. -/
theorem crc32_set_ne (p : List Nat) (i b : Nat) (hp : ∀ x ∈ p, x < 256) (hi : i < p.length)
    (hb : b < 256) (hne : b ≠ p.getD i 0) : crc32 (p.set i b) ≠ crc32 p := by
  intro h
  have h0 := Nat.xor_left_injective h
  have e1 : p = p.take i ++ p.getD i 0 :: p.drop (i + 1) := by
    rw [List.getD_eq_getElem _ _ hi]
    simp
  have e2 : p.set i b = p.take i ++ b :: p.drop (i + 1) := by
    rw [List.set_eq_take_append_cons_drop]
    simp [hi]
  rw [e2] at h0
  conv at h0 => rhs; rw [e1]
  simp only [List.foldl_append, List.foldl_cons] at h0
  have hpre : List.foldl crcByte 0xFFFFFFFF (p.take i) < 4294967296 :=
    crcFold_lt _ (fun x hx => hp x (List.mem_of_mem_take hx)) _ (by decide)
  have hx : p.getD i 0 < 256 := by
    rw [List.getD_eq_getElem _ _ hi]
    exact hp _ (List.getElem_mem _)
  have h1 := crcFold_inj _ (fun x hx => hp x (List.mem_of_mem_drop hx)) _ _
    (crcByte_lt _ b hpre hb) (crcByte_lt _ _ hpre hx) h0
  have h2 := crcIter_inj 8 _ _ (Nat.xor_lt_two_pow (n := 32) hpre (by omega))
    (Nat.xor_lt_two_pow (n := 32) hpre (by omega)) h1
  exact hne (Nat.xor_right_injective h2)

/-! ## Corrupted blocks -/

theorem le32_set_ne (x j b : Nat) (hx : x < 4294967296) (hj : j < 4)
    (hb : b ≠ (bytes32 x).getD j 0) : le32 ((bytes32 x).set j b) ≠ x := by
  have h : j = 0 ∨ j = 1 ∨ j = 2 ∨ j = 3 := by omega
  rcases h with h | h | h | h <;> subst h <;>
    simp only [bytes32, le32, List.set_cons_zero, List.set_cons_succ, List.getD_cons_zero,
      List.getD_cons_succ] at hb ⊢ <;> omega

theorem frame_set_payload (crc32 : List Nat → Nat) (p : List Nat) (i b : Nat)
    (hi : i < p.length) :
    (frame crc32 p).set (2 + i) b =
      valueBytes (p.length / 4 - 1) ++ p.set i b ++ bytes32 (crc32 p % 4294967296) := by
  have e : 2 + i = i + 1 + 1 := by omega
  simp [frame, valueBytes, e, List.set_append, hi]

theorem frame_set_crc (crc32 : List Nat → Nat) (p : List Nat) (j b : Nat) :
    (frame crc32 p).set (2 + p.length + j) b =
      valueBytes (p.length / 4 - 1) ++ p ++ (bytes32 (crc32 p % 4294967296)).set j b := by
  have e : 2 + p.length + j = p.length + j + 1 + 1 := by omega
  simp [frame, valueBytes, e, List.set_append]

theorem accepts_cons (crc32 : List Nat → Nat) (a b : Nat) (t : List Nat) :
    accepts crc32 (a :: b :: t) ↔
      a ^^^ b = 255 ∧ (a + 1) * 4 + 4 ≤ t.length ∧
      crc32 (t.take ((a + 1) * 4)) % 4294967296 = le32 ((t.drop ((a + 1) * 4)).take 4) := by
  have e : 2 + (a + 1) * 4 = (a + 1) * 4 + 1 + 1 := by omega
  simp only [accepts, List.getD_cons_zero, List.getD_cons_succ, List.length_cons, e,
    List.drop_succ_cons, List.drop_zero]
  constructor
  · rintro ⟨_, h1, h2, h3⟩
    exact ⟨h1, by omega, h3⟩
  · rintro ⟨h1, h2, h3⟩
    exact ⟨by omega, h1, by omega, h3⟩

theorem recvdata_value (crc32 : List Nat → Nat) (w : World) (buf : List Nat)
    (hn : NoErr w.rd) :
    ∃ r buf1 w1, recvdata crc32 w buf = .ok (r, buf1) w1 ∧
      r = (if accepts crc32 (pending w.rd)
           then ((((pending w.rd).getD 0 0 + 1) * 4 : Nat) : Int) else -1) ∧
      (accepts crc32 (pending w.rd) →
        buf1.take (((pending w.rd).getD 0 0 + 1) * 4) =
          ((pending w.rd).drop 2).take (((pending w.rd).getD 0 0 + 1) * 4)) := by
  by_cases h2 : 2 ≤ (pending w.rd).length
  · match hs : pending w.rd, h2 with
    | a :: b :: t, _ =>
      have hacc := accepts_cons crc32 a b t
      obtain ⟨rd1, h1, n1, e1⟩ := recvval_ok w a b t hs
      by_cases hab : a ^^^ b = 255
      · rw [if_pos hab] at e1
        have hneg : ((a : Int) = -1) = False := by simp
        have hl : (((a : Int) + 1) * 4).toNat = (a + 1) * 4 := by omega
        by_cases hlen : (a + 1) * 4 ≤ t.length
        · by_cases hcl : (a + 1) * 4 + 4 ≤ t.length
          · obtain ⟨rd3, _, _, e⟩ := recvdata_full crc32 w buf a b (t.take ((a + 1) * 4))
              ((t.drop ((a + 1) * 4)).take 4) (t.drop ((a + 1) * 4 + 4))
              (by rw [hs, ← List.drop_drop, List.take_append_drop, List.take_append_drop])
              hab (by simp [List.length_take]; omega)
              (by simp [List.length_take, List.length_drop]; omega)
            have hlt : (List.take ((a + 1) * 4) t).length = (a + 1) * 4 := by
              simp [List.length_take]; omega
            rw [hlt] at e
            refine ⟨_, _, _, e, ?_, ?_⟩
            · by_cases hcrc : crc32 (t.take ((a + 1) * 4)) % 4294967296 =
                  le32 ((t.drop ((a + 1) * 4)).take 4)
              · rw [if_pos hcrc, if_pos (hacc.mpr ⟨hab, hcl, hcrc⟩)]
                simp
              · rw [if_neg hcrc, if_neg (fun h => hcrc (hacc.mp h).2.2)]
            · intro _
              have := writeAt_zero_take buf (t.take ((a + 1) * 4))
              rw [hlt] at this
              simpa using this
          · have hno : ¬ accepts crc32 (a :: b :: t) := fun h => hcl (hacc.mp h).2.1
            obtain ⟨rd2, h2', n2, e2⟩ := recv_ok
              { rd := rd1, wr := w.wr, trace := w.trace ++ [Ev.rx a, Ev.rx b] } buf
              ((a + 1) * 4) (by simpa [h1] using hlen)
            obtain ⟨c1, w3, e3, _⟩ := recv_timeout
              { rd := rd2, wr := w.wr,
                trace := w.trace ++ [Ev.rx a, Ev.rx b] ++
                  ((pending rd1).take ((a + 1) * 4)).map Ev.rx }
              [0, 0, 0, 0] 4 (n2 (n1 hn))
              (by simp only [h2', h1, List.length_drop]; omega)
            dsimp only at e2 h2'
            refine ⟨-1, writeAt buf 0 (List.take ((a + 1) * 4) (pending rd1)), w3, ?_,
              by rw [if_neg hno], fun h => absurd h hno⟩
            simp only [recvdata, e1, hneg, if_false, hl]
            rw [e2]
            simp only [one_ne_zero, if_false]
            rw [e3]
            simp
        · have hno : ¬ accepts crc32 (a :: b :: t) := fun h => hlen (by have := (hacc.mp h).2.1; omega)
          obtain ⟨buf1, w2, e2, _⟩ := recv_timeout
            { rd := rd1, wr := w.wr, trace := w.trace ++ [Ev.rx a, Ev.rx b] } buf
            ((a + 1) * 4) (n1 hn) (by simp only [h1]; omega)
          refine ⟨-1, buf1, w2, ?_, by rw [if_neg hno], fun h => absurd h hno⟩
          simp only [recvdata, e1, hneg, if_false, hl]
          rw [e2]
          simp
      · have hno : ¬ accepts crc32 (a :: b :: t) := fun h => hab (hacc.mp h).1
        rw [if_neg hab] at e1
        refine ⟨-1, buf, { rd := rd1, wr := w.wr, trace := w.trace ++ [Ev.rx a, Ev.rx b] }, ?_,
          by rw [if_neg hno], fun h => absurd h hno⟩
        simp only [recvdata, e1]
        simp
  · obtain ⟨w1, e, _⟩ := recvval_timeout w hn (by omega)
    have hno : ¬ accepts crc32 (pending w.rd) := fun h => h2 h.1
    refine ⟨-1, buf, w1, ?_, by rw [if_neg hno], fun h => absurd h hno⟩
    simp [recvdata, e]

/-- C4. Block payload corruption is detected: with `crc32` the standard
CRC-32, for every payload `p` (bytes `< 256`) whose length is a multiple of 4
in [4,1024], every index `i < len(p)` and every byte `b ≠ p[i]`, `recvdata`
on the frame of `p` with payload byte `i` replaced by `b` returns -1. -/
theorem block_payload_corruption_detected (p : List Nat) (i b : Nat) (w : World)
    (buf rest : List Nat) (h4 : p.length % 4 = 0) (hlo : 4 ≤ p.length)
    (hhi : p.length ≤ 1024) (hbytes : ∀ x ∈ p, x < 256) (hi : i < p.length) (hb : b < 256)
    (hne : b ≠ p.getD i 0)
    (hr : pending w.rd = (frame crc32 p).set (2 + i) b ++ rest) :
    ∃ buf1 w1, recvdata crc32 w buf = .ok (-1, buf1) w1 := by
  rw [frame_set_payload crc32 p i b hi] at hr
  have hlen : (p.set i b).length = p.length := List.length_set _ _ _
  obtain ⟨rd1, _, _, e⟩ := recvdata_block crc32 w buf (p.set i b)
    (bytes32 (crc32 p % 4294967296)) rest (by rw [hlen]; exact h4) (by rw [hlen]; exact hlo)
    (by rw [hlen]; exact hhi) (by simp [bytes32]) (by rw [hlen]; exact hr)
  have hbytes2 : ∀ x ∈ p.set i b, x < 256 := by
    intro x hx
    rcases List.mem_or_eq_of_mem_set hx with h | h
    · exact hbytes x h
    · exact h ▸ hb
  have hcrc : ¬ crc32 (p.set i b) % 4294967296 = le32 (bytes32 (crc32 p % 4294967296)) := by
    rw [le32_bytes32 _ (Nat.mod_lt _ (by decide)), Nat.mod_eq_of_lt (crc32_lt p hbytes),
      Nat.mod_eq_of_lt (crc32_lt _ hbytes2)]
    exact crc32_set_ne p i b hbytes hi hb hne
  rw [if_neg hcrc] at e
  exact ⟨_, _, e⟩

set_option maxRecDepth 100000 in
/-- Witness for C4: the payload 1..8 with byte 5 replaced by 0. -/
theorem block_payload_corruption_detected_witness :
    ∃ buf1 w1, recvdata crc32
      { rd := [some ((frame crc32 [1, 2, 3, 4, 5, 6, 7, 8]).set (2 + 5) 0 ++ [])], wr := [],
        trace := [] } [0, 0, 0, 0, 0, 0, 0, 0] = .ok (-1, buf1) w1 :=
  block_payload_corruption_detected [1, 2, 3, 4, 5, 6, 7, 8] 5 0
    { rd := [some ((frame crc32 [1, 2, 3, 4, 5, 6, 7, 8]).set (2 + 5) 0 ++ [])], wr := [],
      trace := [] } [0, 0, 0, 0, 0, 0, 0, 0] []
    (by decide) (by decide) (by decide) (by decide) (by decide) (by decide) (by decide)
    (by decide)

/-- C5. `recvdata` acceptance condition: when no `read()` fails, `recvdata`
returns `(cnt+1)*4` (with the payload in the buffer) if a valid length Value
`cnt`, `(cnt+1)*4` payload bytes and 4 checksum bytes arrive before any
timeout and the checksum bytes, least-significant first, equal `crc32` of the
payload; in every other case it returns -1. In particular, replacing any of
the four checksum bytes of a frame by a different byte makes `recvdata` return
-1. This holds for any checksum function `crc32`. -/
theorem recvdata_acceptance (crc32 : List Nat → Nat) (w r : World) (buf p rest : List Nat)
    (j b : Nat) (hn : NoErr w.rd) (h4 : p.length % 4 = 0) (hlo : 4 ≤ p.length)
    (hhi : p.length ≤ 1024) (hj : j < 4)
    (hb : b ≠ (bytes32 (crc32 p % 4294967296)).getD j 0)
    (hr : pending r.rd = (frame crc32 p).set (2 + p.length + j) b ++ rest) :
    (∃ res buf1 w1, recvdata crc32 w buf = .ok (res, buf1) w1 ∧
      res = (if accepts crc32 (pending w.rd)
             then ((((pending w.rd).getD 0 0 + 1) * 4 : Nat) : Int) else -1) ∧
      (accepts crc32 (pending w.rd) →
        buf1.take (((pending w.rd).getD 0 0 + 1) * 4) =
          ((pending w.rd).drop 2).take (((pending w.rd).getD 0 0 + 1) * 4))) ∧
    (∃ buf1 r1, recvdata crc32 r buf = .ok (-1, buf1) r1) := by
  refine ⟨recvdata_value crc32 w buf hn, ?_⟩
  rw [frame_set_crc crc32 p j b] at hr
  obtain ⟨rd1, _, _, e⟩ := recvdata_block crc32 r buf p
    ((bytes32 (crc32 p % 4294967296)).set j b) rest h4 hlo hhi (by simp [bytes32]) hr
  have hcrc : ¬ crc32 p % 4294967296 = le32 ((bytes32 (crc32 p % 4294967296)).set j b) :=
    fun h => le32_set_ne _ j b (Nat.mod_lt _ (by decide)) hj hb h.symm
  rw [if_neg hcrc] at e
  exact ⟨_, _, e⟩

/-- Witness for C5: a valid frame delivered in two bursts is accepted, and
the same frame with its last checksum byte replaced is rejected. -/
theorem recvdata_acceptance_witness :
    (∃ res buf1 w1, recvdata (fun _ => 0x11223344)
        { rd := [some [0, 255, 1, 2], some [3, 4, 0x44, 0x33, 0x22, 0x11]], wr := [],
          trace := [] } [9, 9, 9, 9, 9] = .ok (res, buf1) w1 ∧ res = 4 ∧
        (accepts (fun _ => 0x11223344) [0, 255, 1, 2, 3, 4, 0x44, 0x33, 0x22, 0x11] →
          buf1.take 4 = [1, 2, 3, 4])) ∧
    (∃ buf1 r1, recvdata (fun _ => 0x11223344)
        { rd := [some ((frame (fun _ => 0x11223344) [1, 2, 3, 4]).set (2 + 4 + 3) 0x10 ++ [])],
          wr := [], trace := [] } [9, 9, 9, 9, 9] = .ok (-1, buf1) r1) :=
  recvdata_acceptance (fun _ => 0x11223344)
    { rd := [some [0, 255, 1, 2], some [3, 4, 0x44, 0x33, 0x22, 0x11]], wr := [], trace := [] }
    { rd := [some ((frame (fun _ => 0x11223344) [1, 2, 3, 4]).set (2 + 4 + 3) 0x10 ++ [])],
      wr := [], trace := [] }
    [9, 9, 9, 9, 9] [1, 2, 3, 4] [] 3 0x10
    (by decide) (by decide) (by decide) (by decide) (by decide) (by decide) (by decide)

/-! ## Transfer loops -/

theorem maxlen_eq (pos size : Nat) (h : pos < size) (hs : size < 18446744073709551616) :
    maxlen pos size = min 1024 (size - pos) := by
  unfold maxlen
  have e : (size + 18446744073709551616 - pos) % 18446744073709551616 = size - pos := by omega
  simp only [e]
  split <;> omega

theorem recvack_ok (force : Bool) (w : World) (msg : Msg) (rest : List Nat)
    (hp : pending w.rd = 0 :: 255 :: rest) :
    ∃ rd1, pending rd1 = rest ∧ (NoErr w.rd → NoErr rd1) ∧
      recvack force w msg =
        .ok () { rd := rd1, wr := w.wr, trace := w.trace ++ (valueBytes 0).map Ev.rx } := by
  obtain ⟨rd1, h1, n1, e⟩ := recvval_ok w 0 255 rest hp
  refine ⟨rd1, h1, n1, ?_⟩
  simp only [recvack, e]
  simp [checkres, valueBytes]

theorem fwLoop_honest (crc32 : List Nat → Nat) (force d : Bool) (data : List Nat) (size : Nat)
    (h4 : size % 4 = 0) (hd : size ≤ data.length) (hs : size ≤ 61440) :
    ∀ (m fuel k : Nat) (w : World) (rest : List Nat),
      m < fuel → 1024 * (k + m) < size + 1024 → size ≤ 1024 * (k + m) →
      NoErr w.wr → pending w.rd = acks m ++ rest →
      ∃ rd1 wr1, pending rd1 = rest ∧ NoErr wr1 ∧ (NoErr w.rd → NoErr rd1) ∧
        fwLoop crc32 force d data size fuel (1024 * k) w =
          some (.ok ()
            { rd := rd1, wr := wr1,
              trace := w.trace ++ (List.range' k m).flatMap (fwExchange crc32 data size) }) := by
  intro m
  induction m with
  | zero =>
    intro fuel k w rest hf _ hz hw hp
    obtain ⟨fuel, rfl⟩ : ∃ f, fuel = f + 1 := ⟨fuel - 1, by omega⟩
    have hnot : ¬ 1024 * k < size := by omega
    refine ⟨w.rd, w.wr, by simpa [acks] using hp, hw, id, ?_⟩
    cases w
    simp [fwLoop, hnot]
  | succ m ih =>
    intro fuel k w rest hf hk _ hw hp
    obtain ⟨fuel, rfl⟩ : ∃ f, fuel = f + 1 := ⟨fuel - 1, by omega⟩
    have hlt : 1024 * k < size := by omega
    have hml : maxlen (1024 * k) size = min 1024 (size - 1024 * k) :=
      maxlen_eq _ _ hlt (by omega)
    obtain ⟨wr1, n1, e1⟩ := sendval_nat d
      (w.log [Ev.out (Out.progress (1024 * k * 100 / size))]) 3 (by decide) hw
    obtain ⟨wr2, n2, e2⟩ := sendval_nat d
      { rd := w.rd, wr := wr1,
        trace := w.trace ++ [Ev.out (Out.progress (1024 * k * 100 / size))] ++
          (valueBytes 3).map Ev.tx } k (by omega) n1
    obtain ⟨wr3, n3, e3⟩ := senddata_frame crc32 d
      { rd := w.rd, wr := wr2,
        trace := w.trace ++ [Ev.out (Out.progress (1024 * k * 100 / size))] ++
          (valueBytes 3).map Ev.tx ++ (valueBytes k).map Ev.tx }
      (data.drop (1024 * k)) (min 1024 (size - 1024 * k)) n2 (by omega) (by omega)
      (by simp only [List.length_drop]; omega)
    obtain ⟨rd4, h4', m4, e4⟩ := recvack_ok force
      { rd := w.rd, wr := wr3,
        trace := w.trace ++ [Ev.out (Out.progress (1024 * k * 100 / size))] ++
          (valueBytes 3).map Ev.tx ++ (valueBytes k).map Ev.tx ++
          (frame crc32 ((data.drop (1024 * k)).take (min 1024 (size - 1024 * k)))).map Ev.tx }
      Msg.writingData (acks m ++ rest) (by simpa [acks] using hp)
    obtain ⟨rd5, wr5, h5, n5, m5, e5⟩ := ih fuel (k + 1)
      { rd := rd4, wr := wr3,
        trace := w.trace ++ [Ev.out (Out.progress (1024 * k * 100 / size))] ++
          (valueBytes 3).map Ev.tx ++ (valueBytes k).map Ev.tx ++
          (frame crc32 ((data.drop (1024 * k)).take (min 1024 (size - 1024 * k)))).map Ev.tx ++
          (valueBytes 0).map Ev.rx } rest
      (by omega) (by omega) (by omega) n3 h4'
    refine ⟨rd5, wr5, h5, n5, fun h => m5 (m4 h), ?_⟩
    simp only [World.log] at e1
    dsimp only at e2 e3 e4 e5
    have hcast : (((1024 * k / 1024 : Nat) : Int)) = (k : Int) := by
      congr 1; omega
    have hpos : 1024 * k + 1024 = 1024 * (k + 1) := by omega
    simp only [fwLoop, hlt, if_true, World.log, hml, hcast, hpos]
    rw [show ((3 : Int)) = ((3 : Nat) : Int) from rfl, e1]
    dsimp only
    rw [e2]
    dsimp only
    rw [e3]
    dsimp only
    rw [e4]
    dsimp only
    rw [e5]
    simp [List.range'_succ, fwExchange, block, List.append_assoc]

theorem bootLoop_honest (crc32 : List Nat → Nat) (force d : Bool) (data : List Nat) (size : Nat)
    (h4 : size % 4 = 0) (hd : size ≤ data.length) (hs : size ≤ 61440) :
    ∀ (m fuel k : Nat) (w : World) (rest : List Nat),
      m < fuel → 1024 * (k + m) < size + 1024 → size ≤ 1024 * (k + m) →
      NoErr w.wr → pending w.rd = acks m ++ rest →
      ∃ rd1 wr1, pending rd1 = rest ∧ NoErr wr1 ∧ (NoErr w.rd → NoErr rd1) ∧
        bootLoop crc32 force d data size fuel (1024 * k) w =
          some (.ok ()
            { rd := rd1, wr := wr1,
              trace := w.trace ++ (List.range' k m).flatMap (bootExchange crc32 data size) }) := by
  intro m
  induction m with
  | zero =>
    intro fuel k w rest hf _ hz hw hp
    obtain ⟨fuel, rfl⟩ : ∃ f, fuel = f + 1 := ⟨fuel - 1, by omega⟩
    have hnot : ¬ 1024 * k < size := by omega
    refine ⟨w.rd, w.wr, by simpa [acks] using hp, hw, id, ?_⟩
    cases w
    simp [bootLoop, hnot]
  | succ m ih =>
    intro fuel k w rest hf hk _ hw hp
    obtain ⟨fuel, rfl⟩ : ∃ f, fuel = f + 1 := ⟨fuel - 1, by omega⟩
    have hlt : 1024 * k < size := by omega
    have hml : maxlen (1024 * k) size = min 1024 (size - 1024 * k) :=
      maxlen_eq _ _ hlt (by omega)
    obtain ⟨wr3, n3, e3⟩ := senddata_frame crc32 d
      (w.log [Ev.out (Out.progress (1024 * k * 100 / size))])
      (data.drop (1024 * k)) (min 1024 (size - 1024 * k)) hw (by omega) (by omega)
      (by simp only [List.length_drop]; omega)
    obtain ⟨rd4, h4', m4, e4⟩ := recvack_ok force
      { rd := w.rd, wr := wr3,
        trace := w.trace ++ [Ev.out (Out.progress (1024 * k * 100 / size))] ++
          (frame crc32 ((data.drop (1024 * k)).take (min 1024 (size - 1024 * k)))).map Ev.tx }
      Msg.writingData (acks m ++ rest) (by simpa [acks] using hp)
    obtain ⟨rd5, wr5, h5, n5, m5, e5⟩ := ih fuel (k + 1)
      { rd := rd4, wr := wr3,
        trace := w.trace ++ [Ev.out (Out.progress (1024 * k * 100 / size))] ++
          (frame crc32 ((data.drop (1024 * k)).take (min 1024 (size - 1024 * k)))).map Ev.tx ++
          (valueBytes 0).map Ev.rx } rest
      (by omega) (by omega) (by omega) n3 h4'
    refine ⟨rd5, wr5, h5, n5, fun h => m5 (m4 h), ?_⟩
    simp only [World.log] at e3
    dsimp only at e3 e4 e5
    have hpos : 1024 * k + 1024 = 1024 * (k + 1) := by omega
    simp only [bootLoop, hlt, if_true, World.log, hml, hpos]
    rw [e3]
    dsimp only
    rw [e4]
    dsimp only
    rw [e5]
    simp [List.range'_succ, bootExchange, block, List.append_assoc]

theorem chunks_eq (data : List Nat) (size : Nat) (hs : size ≤ 61440) :
    ∀ (m fuel k : Nat), m < fuel → 1024 * (k + m) < size + 1024 → size ≤ 1024 * (k + m) →
      chunks data size fuel (1024 * k) = (List.range' k m).map (block data size) := by
  intro m
  induction m with
  | zero =>
    intro fuel k hf _ hz
    obtain ⟨fuel, rfl⟩ : ∃ f, fuel = f + 1 := ⟨fuel - 1, by omega⟩
    have hnot : ¬ 1024 * k < size := by omega
    simp [chunks, hnot]
  | succ m ih =>
    intro fuel k hf hk hz
    obtain ⟨fuel, rfl⟩ : ∃ f, fuel = f + 1 := ⟨fuel - 1, by omega⟩
    have hlt : 1024 * k < size := by omega
    have hml : maxlen (1024 * k) size = min 1024 (size - 1024 * k) :=
      maxlen_eq _ _ hlt (by omega)
    have hpos : 1024 * k + 1024 = 1024 * (k + 1) := by omega
    simp only [chunks, hlt, if_true, hml, hpos]
    rw [ih fuel (k + 1) (by omega) (by omega) (by omega)]
    simp [List.range'_succ, block]

theorem blocks_flatten (data : List Nat) (size : Nat) :
    ∀ (m k : Nat), 1024 * (k + m) < size + 1024 → size ≤ 1024 * (k + m) →
      ((List.range' k m).map (block data size)).flatten =
        (data.drop (1024 * k)).take (size - 1024 * k) := by
  intro m
  induction m with
  | zero =>
    intro k _ hz
    have e : size - 1024 * k = 0 := by omega
    simp [e]
  | succ m ih =>
    intro k hk hz
    have hlt : 1024 * k < size := by omega
    simp only [List.range'_succ, List.map_cons, List.flatten_cons]
    rw [ih (k + 1) (by omega) (by omega)]
    by_cases hbig : 1024 ≤ size - 1024 * k
    · have e1 : min 1024 (size - 1024 * k) = 1024 := by omega
      have e2 : size - 1024 * k = 1024 + (size - 1024 * (k + 1)) := by omega
      have e3 : 1024 * (k + 1) = 1024 * k + 1024 := by omega
      rw [block, e1, e2, List.take_add, List.drop_drop, ← e3]
    · have e1 : min 1024 (size - 1024 * k) = size - 1024 * k := by omega
      have e2 : size - 1024 * (k + 1) = 0 := by omega
      rw [block, e1, e2]
      simp

theorem sent_flatMap {α : Type} (l : List α) (f : α → List Ev) :
    sent (l.flatMap f) = l.flatMap (fun x => sent (f x)) := by
  induction l with
  | nil => rfl
  | cons x rest ih => simp [sent_append, ih]

theorem sent_fwExchange (crc32 : List Nat → Nat) (data : List Nat) (size k : Nat) :
    sent (fwExchange crc32 data size k) =
      valueBytes 3 ++ valueBytes k ++ frame crc32 (block data size k) := by
  simp [fwExchange, sent, sent_append, sent_map_tx, sent_map_rx, valueBytes, frame, bytes32]

theorem sent_bootExchange (crc32 : List Nat → Nat) (data : List Nat) (size k : Nat) :
    sent (bootExchange crc32 data size k) = frame crc32 (block data size k) := by
  simp [bootExchange, sent, sent_append, sent_map_tx, sent_map_rx, valueBytes, frame, bytes32]

theorem zip_range_map {β γ : Type} (f : Nat → β) (g : Nat × β → List γ) :
    ∀ (m k : Nat), (List.zip (List.range' k m) ((List.range' k m).map f)).flatMap g =
      (List.range' k m).flatMap (fun i => g (i, f i)) := by
  intro m
  induction m with
  | zero => intro k; rfl
  | succ m ih => intro k; simp [List.range'_succ, ih]

/-- C6. Chunking reconstructs the image: for every image size `L` that is a
positive multiple of 4 (`L ≤ 61440`), the payloads the transfer loops hand to
`senddata` (`pos = 0, 1024, ...` while `pos < L`, each
`data[pos .. pos + maxlen(pos, L))`) concatenate to `data[0 .. L)`, and there
are `ceil(L/1024)` of them. With a device that acknowledges every block, the
firmware loop writes, for each payload in turn, WRITE, its index and its frame,
and the bootloader loop writes the frames of the payloads. -/
theorem chunking_reconstructs (crc32 : List Nat → Nat) (force d : Bool) (data : List Nat)
    (L fuel : Nat) (w v : World) (rest1 rest2 : List Nat)
    (h4 : L % 4 = 0) (_hpos : 0 < L) (hmax : L ≤ 61440) (hd : L ≤ data.length)
    (hfuel : (L + 1023) / 1024 < fuel) (hw : NoErr w.wr) (hv : NoErr v.wr)
    (hwr : pending w.rd = acks ((L + 1023) / 1024) ++ rest1)
    (hvr : pending v.rd = acks ((L + 1023) / 1024) ++ rest2) :
    (chunks data L fuel 0).flatten = data.take L ∧
    (chunks data L fuel 0).length = (L + 1023) / 1024 ∧
    (∃ w1, fwLoop crc32 force d data L fuel 0 w = some (.ok () w1) ∧
      sent w1.trace = sent w.trace ++
        (List.zip (List.range ((L + 1023) / 1024)) (chunks data L fuel 0)).flatMap
          (fun kc => valueBytes 3 ++ valueBytes kc.1 ++ frame crc32 kc.2)) ∧
    (∃ v1, bootLoop crc32 force d data L fuel 0 v = some (.ok () v1) ∧
      sent v1.trace = sent v.trace ++ (chunks data L fuel 0).flatMap (frame crc32)) := by
  have hk : 1024 * (0 + (L + 1023) / 1024) < L + 1024 := by omega
  have hz : L ≤ 1024 * (0 + (L + 1023) / 1024) := by omega
  have hc : chunks data L fuel 0 = (List.range' 0 ((L + 1023) / 1024)).map (block data L) :=
    chunks_eq data L hmax _ fuel 0 hfuel hk hz
  refine ⟨?_, ?_, ?_, ?_⟩
  · rw [hc, blocks_flatten data L _ 0 hk hz]
    simp
  · rw [hc]
    simp
  · obtain ⟨rd1, wr1, _, _, _, e⟩ := fwLoop_honest crc32 force d data L h4 hd hmax _ fuel 0 w rest1
      hfuel hk hz hw hwr
    refine ⟨_, e, ?_⟩
    simp only [sent_append, sent_flatMap, sent_fwExchange]
    rw [hc, List.range_eq_range', zip_range_map]
  · obtain ⟨rd1, wr1, _, _, _, e⟩ := bootLoop_honest crc32 force d data L h4 hd hmax _ fuel 0 v
      rest2 hfuel hk hz hv hvr
    refine ⟨_, e, ?_⟩
    simp only [sent_append, sent_flatMap, sent_bootExchange]
    rw [hc, List.flatMap_map]

/-- Witness for C6: an image of 8 bytes in a 9-byte buffer. -/
theorem chunking_reconstructs_witness :
    (chunks [1, 2, 3, 4, 5, 6, 7, 8, 9] 8 2 0).flatten = [1, 2, 3, 4, 5, 6, 7, 8] ∧
    (chunks [1, 2, 3, 4, 5, 6, 7, 8, 9] 8 2 0).length = 1 :=
  have h := chunking_reconstructs (fun _ => 0) false false [1, 2, 3, 4, 5, 6, 7, 8, 9] 8 2
    { rd := [some [0, 255]], wr := [], trace := [] }
    { rd := [some [0], some [255]], wr := [], trace := [] } [] []
    (by decide) (by decide) (by decide) (by decide) (by decide) (by decide) (by decide)
    (by decide) (by decide)
  ⟨h.1, h.2.1⟩

/-! ## Bootloader padding -/

/-- C7. Bootloader padding rule: in bootloader mode a rounded size of exactly
1024, 2048 or 3072 bytes is transferred as 1028, 2052, 3076 bytes; a size of
exactly 4096 is left unchanged; every size above 4096 (so every rounded size
of 4100 bytes or more) is rejected with the fatal "Image too big" error; and
every other size up to 4096 that is not a multiple of 1024 is unchanged. -/
theorem bootloader_padding_rule (crc32 : List Nat → Nat) (fuel : Nat) (a : Args)
    (data : List Nat) (w : World) (big s : Nat) (hbig : 4100 ≤ big)
    (hs : s ≤ 4096) (hs2 : s % 1024 ≠ 0) :
    bootSize 1024 = some 1028 ∧ bootSize 2048 = some 2052 ∧ bootSize 3072 = some 3076 ∧
    bootSize 4096 = some 4096 ∧
    updateBootloader crc32 fuel a data 1024 w = updateBootloader crc32 fuel a data 1028 w ∧
    updateBootloader crc32 fuel a data 2048 w = updateBootloader crc32 fuel a data 2052 w ∧
    updateBootloader crc32 fuel a data 3072 w = updateBootloader crc32 fuel a data 3076 w ∧
    bootSize big = none ∧
    updateBootloader crc32 fuel a data big w = some (.fatal .tooBig w) ∧
    bootSize s = some s := by
  have hb : bootSize big = none := by
    unfold bootSize
    rw [if_pos (by omega)]
  have hsz : bootSize s = some s := by
    unfold bootSize
    rw [if_neg (by omega), if_neg (fun h => hs2 h.1)]
  refine ⟨by decide, by decide, by decide, by decide, ?_, ?_, ?_, hb, ?_, hsz⟩
  · simp [updateBootloader, bootSize]
  · simp [updateBootloader, bootSize]
  · simp [updateBootloader, bootSize]
  · simp [updateBootloader, hb]

/-- Witness for C7: sizes 4100 and 1500. -/
theorem bootloader_padding_rule_witness :
    bootSize 4100 = none ∧ bootSize 1500 = some 1500 :=
  have h := bootloader_padding_rule (fun _ => 0) 0 Args.init [] { rd := [], wr := [], trace := [] }
    4100 1500 (by decide) (by decide) (by decide)
  ⟨h.2.2.2.2.2.2.2.1, h.2.2.2.2.2.2.2.2.2⟩

/-! ## Probing -/

theorem recvLoop_any : ∀ (fuel : Nat) (w : World) (buf : List Nat) (off len : Nat),
    (recvLoop fuel w buf off len).world.wr = w.wr ∧
      sent (recvLoop fuel w buf off len).world.trace = sent w.trace := by
  intro fuel
  induction fuel with
  | zero => intro w buf off len; simp [recvLoop, Res.world]
  | succ fuel ih =>
    intro w buf off len
    obtain ⟨rd, wr, trace⟩ := w
    by_cases hl : len = 0
    · simp [recvLoop, hl, Res.world]
    · simp only [recvLoop, hl, if_false]
      cases rd with
      | nil => simp [read, World.log, Res.world, sent_append, sent]
      | cons e rest =>
        cases e with
        | none => simp [read, Res.world]
        | some b =>
          by_cases hb : b.length = 0
          · simp [read, hb, Res.world, sent_append, sent]
          · by_cases hle : b.length ≤ len
            · simp only [read, hb, hle, if_true, if_false]
              obtain ⟨h1, h2⟩ := ih { rd := rest, wr := wr, trace := trace ++ b.map Ev.rx }
                (writeAt buf off b) (off + b.length) (len - b.length)
              dsimp only at h1 h2
              rw [sent_append, sent_map_rx, List.append_nil] at h2
              exact ⟨h1, h2⟩
            · have htl : (List.take len b).length = len := by
                simp [List.length_take]; omega
              simp only [read, hb, hle, if_false, htl, hl]
              obtain ⟨h1, h2⟩ := ih { rd := some (b.drop len) :: rest, wr := wr,
                                      trace := trace ++ (b.take len).map Ev.rx }
                (writeAt buf off (b.take len)) (off + len) (len - len)
              dsimp only at h1 h2
              rw [sent_append, sent_map_rx, List.append_nil] at h2
              exact ⟨h1, h2⟩

theorem recvval_any (w : World) :
    (recvval w).world.wr = w.wr ∧ sent (recvval w).world.trace = sent w.trace := by
  have h := recvLoop_any 2 w [0, 0] 0 2
  unfold recvval recv
  cases hr : recvLoop 2 w [0, 0] 0 2 with
  | ok a w1 =>
    rw [hr] at h
    obtain ⟨r, buf⟩ := a
    simpa [Res.world] using h
  | fatal f w1 =>
    rw [hr] at h
    simpa [Res.world] using h

theorem recvval_notOK (w : World) (b : List Nat) (rest : List (Option (List Nat)))
    (hrd : w.rd = some b :: rest) (hb : notOK b = true) :
    ∃ r tr, recvval w = .ok r { rd := rest, wr := w.wr, trace := tr } ∧ r ≠ 0 ∧
      sent tr = sent w.trace := by
  obtain ⟨rd, wr, trace⟩ := w
  simp only at hrd
  subst hrd
  match b, hb with
  | [], _ =>
    exact ⟨-1, trace ++ [Ev.timeout], by simp [recvval, recv, recvLoop, read], by decide,
      by simp [sent_append, sent]⟩
  | [x, y], h =>
    refine ⟨if x ^^^ y = 255 then (x : Int) else -1, trace ++ [Ev.rx x, Ev.rx y], ?_, ?_, ?_⟩
    · simp [recvval, recv, recvLoop, read, writeAt]
    · simp only [notOK, Bool.not_eq_true', Bool.and_eq_false_imp, beq_iff_eq] at h
      split
      · rename_i hx
        intro h0
        have hx0 : x = 0 := by exact_mod_cast h0
        subst hx0
        simp at hx
        exact absurd hx (by simpa using h rfl)
      · decide
    · simp [sent_append, sent]

theorem recvval_OK (w : World) (rest : List (Option (List Nat)))
    (hrd : w.rd = some [0, 255] :: rest) :
    recvval w = .ok 0 { rd := rest, wr := w.wr, trace := w.trace ++ [Ev.rx 0, Ev.rx 255] } := by
  obtain ⟨rd, wr, trace⟩ := w
  simp only at hrd
  subst hrd
  simp [recvval, recv, recvLoop, read, writeAt]

/-- One iteration of the probing loop up to the test of the answer. -/
theorem probe_send (d : Bool) (w : World) (o : Out) (hw : NoErr w.wr) :
    ∃ wr1, NoErr wr1 ∧
      sendval d (w.log [Ev.out o]) 0 =
        .ok () { rd := w.rd, wr := wr1,
                 trace := w.trace ++ [Ev.out o] ++ (valueBytes 0).map Ev.tx } := by
  obtain ⟨wr1, n1, e1⟩ := sendval_nat d (w.log [Ev.out o]) 0 (by decide) hw
  exact ⟨wr1, n1, by simpa [World.log] using e1⟩

theorem probeLoop_forced_bound (d : Bool) :
    ∀ (j i fuel : Nat) (w : World), i + j = 20 → j < fuel → NoErr w.wr →
      ∃ r n, probeLoop true d fuel i w = some r ∧ n ≤ j ∧
        sent r.world.trace = sent w.trace ++ probes n := by
  intro j
  induction j with
  | zero =>
    intro i fuel w hi hf _
    obtain ⟨fuel, rfl⟩ : ∃ f, fuel = f + 1 := ⟨fuel - 1, by omega⟩
    have h20 : ¬ i < 20 := by omega
    exact ⟨.ok () w, 0, by simp [probeLoop, h20], Nat.le_refl _, by simp [Res.world, probes]⟩
  | succ j ih =>
    intro i fuel w hi hf hw
    obtain ⟨fuel, rfl⟩ : ∃ f, fuel = f + 1 := ⟨fuel - 1, by omega⟩
    have h20 : i < 20 := by omega
    obtain ⟨wr1, n1, e1⟩ := probe_send d w (Out.countdown (20 - (i : Int))) hw
    have hany := recvval_any
      { rd := w.rd, wr := wr1,
        trace := w.trace ++ [Ev.out (Out.countdown (20 - (i : Int)))] ++ (valueBytes 0).map Ev.tx }
    have hs : sent (w.trace ++ [Ev.out (Out.countdown (20 - (i : Int)))] ++
        (valueBytes 0).map Ev.tx) = sent w.trace ++ probes 1 := by
      simp [sent_append, sent_map_tx, sent, probes, valueBytes]
    simp only [probeLoop, h20, decide_True, Bool.or_true, if_true, e1]
    cases hr : recvval
      { rd := w.rd, wr := wr1,
        trace := w.trace ++ [Ev.out (Out.countdown (20 - (i : Int)))] ++
          (valueBytes 0).map Ev.tx } with
    | fatal f w2 =>
      rw [hr] at hany
      refine ⟨.fatal f w2, 1, by simp, by omega, ?_⟩
      rw [← hs]
      exact hany.2
    | ok r w2 =>
      rw [hr] at hany
      simp only [Res.world] at hany
      by_cases h0 : r = 0
      · refine ⟨.ok () w2, 1, by simp [h0], by omega, ?_⟩
        rw [← hs]
        exact hany.2
      · obtain ⟨r3, n, e3, hn, hs3⟩ := ih (i + 1) fuel w2 (by omega) (by omega)
          (by rw [hany.1]; exact n1)
        refine ⟨r3, n + 1, by simp [h0, e3], by omega, ?_⟩
        rw [hs3, hany.2, hs]
        simp [probes]

theorem probeLoop_forced_exact (d : Bool) :
    ∀ (bad : List (List Nat)) (i fuel : Nat) (w : World) (rest : List (Option (List Nat))),
      (∀ b ∈ bad, notOK b = true) → i + bad.length = 20 → bad.length < fuel → NoErr w.wr →
      w.rd = bad.map some ++ rest →
      ∃ wr1 tr, probeLoop true d fuel i w = some (.ok () { rd := rest, wr := wr1, trace := tr }) ∧
        sent tr = sent w.trace ++ probes bad.length := by
  intro bad
  induction bad with
  | nil =>
    intro i fuel w rest _ hi hf _ hrd
    obtain ⟨fuel, rfl⟩ : ∃ f, fuel = f + 1 := ⟨fuel - 1, by omega⟩
    have h20 : ¬ i < 20 := by simp at hi; omega
    obtain ⟨rd, wr, trace⟩ := w
    simp only [List.map_nil, List.nil_append] at hrd
    subst hrd
    exact ⟨wr, trace, by simp [probeLoop, h20], by simp [probes]⟩
  | cons b bad ih =>
    intro i fuel w rest hbad hi hf hw hrd
    obtain ⟨fuel, rfl⟩ : ∃ f, fuel = f + 1 := ⟨fuel - 1, by omega⟩
    have h20 : i < 20 := by simp at hi; omega
    obtain ⟨wr1, n1, e1⟩ := probe_send d w (Out.countdown (20 - (i : Int))) hw
    obtain ⟨r, tr, e2, hr, hs2⟩ := recvval_notOK
      { rd := w.rd, wr := wr1,
        trace := w.trace ++ [Ev.out (Out.countdown (20 - (i : Int)))] ++ (valueBytes 0).map Ev.tx }
      b (bad.map some ++ rest) (by simpa using hrd) (hbad b (List.mem_cons_self _ _))
    obtain ⟨wr3, tr3, e3, hs3⟩ := ih (i + 1) fuel { rd := bad.map some ++ rest, wr := wr1, trace := tr }
      rest (fun x hx => hbad x (List.mem_cons_of_mem _ hx)) (by simp at hi ⊢; omega)
      (by simp at hf ⊢; omega) n1 rfl
    refine ⟨wr3, tr3, ?_, ?_⟩
    · simp only [probeLoop, h20, decide_True, Bool.or_true, if_true, e1, e2, hr, if_false]
      exact e3
    · rw [hs3]
      simp only at hs2 ⊢
      rw [hs2]
      simp [sent_append, sent_map_tx, sent, probes, valueBytes]

theorem probeLoop_unforced (d : Bool) :
    ∀ (bad : List (List Nat)) (i fuel : Nat) (w : World) (rest : List (Option (List Nat))),
      (∀ b ∈ bad, notOK b = true) → NoErr w.wr →
      w.rd = bad.map some ++ some [0, 255] :: rest →
      (bad.length < fuel →
        ∃ wr1 tr, probeLoop false d fuel i w =
            some (.ok () { rd := rest, wr := wr1, trace := tr }) ∧
          sent tr = sent w.trace ++ probes (bad.length + 1)) ∧
      (fuel ≤ bad.length → probeLoop false d fuel i w = none) := by
  intro bad
  induction bad with
  | nil =>
    intro i fuel w rest _ hw hrd
    constructor
    · intro hf
      obtain ⟨fuel, rfl⟩ : ∃ f, fuel = f + 1 := ⟨fuel - 1, by omega⟩
      obtain ⟨wr1, n1, e1⟩ := probe_send d w (Out.spinner (i % 4)) hw
      have e2 := recvval_OK
        { rd := w.rd, wr := wr1,
          trace := w.trace ++ [Ev.out (Out.spinner (i % 4))] ++ (valueBytes 0).map Ev.tx }
        rest (by simpa using hrd)
      dsimp only at e2
      refine ⟨wr1, w.trace ++ [Ev.out (Out.spinner (i % 4))] ++ (valueBytes 0).map Ev.tx ++
        [Ev.rx 0, Ev.rx 255], ?_, ?_⟩
      · simp only [probeLoop, Bool.not_false, Bool.true_or, if_true, Bool.false_eq_true,
          if_false, e1, e2]
      · simp [sent_append, sent_map_tx, sent, probes, valueBytes]
    · intro hf
      have : fuel = 0 := by simpa using hf
      subst this
      rfl
  | cons b bad ih =>
    intro i fuel w rest hbad hw hrd
    cases fuel with
    | zero => exact ⟨fun hf => absurd hf (by omega), fun _ => rfl⟩
    | succ fuel =>
      obtain ⟨wr1, n1, e1⟩ := probe_send d w (Out.spinner (i % 4)) hw
      obtain ⟨r, tr, e2, hr, hs2⟩ := recvval_notOK
        { rd := w.rd, wr := wr1,
          trace := w.trace ++ [Ev.out (Out.spinner (i % 4))] ++ (valueBytes 0).map Ev.tx }
        b (bad.map some ++ some [0, 255] :: rest) (by simpa using hrd)
        (hbad b (List.mem_cons_self _ _))
      obtain ⟨ihA, ihB⟩ := ih (i + 1) fuel
        { rd := bad.map some ++ some [0, 255] :: rest, wr := wr1, trace := tr }
        rest (fun x hx => hbad x (List.mem_cons_of_mem _ hx)) n1 rfl
      have hstep : probeLoop false d (fuel + 1) i w =
          probeLoop false d fuel (i + 1)
            { rd := bad.map some ++ some [0, 255] :: rest, wr := wr1, trace := tr } := by
        simp only [probeLoop, Bool.not_false, Bool.true_or, if_true, Bool.false_eq_true,
          if_false, e1, e2, hr]
      constructor
      · intro hf
        obtain ⟨wr3, tr3, e3, hs3⟩ := ihA (by simp at hf ⊢; omega)
        refine ⟨wr3, tr3, hstep.trans e3, ?_⟩
        rw [hs3]
        simp only at hs2 ⊢
        rw [hs2]
        simp [sent_append, sent_map_tx, sent, probes, valueBytes]
      · intro hf
        exact hstep.trans (ihB (by simp at hf ⊢; omega))


theorem probeLoop_forced_silent (d : Bool) :
    ∀ (j i fuel : Nat) (w : World), i + j = 20 → j < fuel → NoErr w.wr → w.rd = [] →
      ∃ wr1 tr, probeLoop true d fuel i w = some (.ok () { rd := [], wr := wr1, trace := tr }) ∧
        sent tr = sent w.trace ++ probes j := by
  intro j
  induction j with
  | zero =>
    intro i fuel w hi hf _ hrd
    obtain ⟨fuel, rfl⟩ : ∃ f, fuel = f + 1 := ⟨fuel - 1, by omega⟩
    have h20 : ¬ i < 20 := by omega
    obtain ⟨rd, wr, trace⟩ := w
    simp only at hrd
    subst hrd
    exact ⟨wr, trace, by simp [probeLoop, h20], by simp [probes]⟩
  | succ j ih =>
    intro i fuel w hi hf hw hrd
    obtain ⟨fuel, rfl⟩ : ∃ f, fuel = f + 1 := ⟨fuel - 1, by omega⟩
    have h20 : i < 20 := by omega
    obtain ⟨wr1, n1, e1⟩ := probe_send d w (Out.countdown (20 - (i : Int))) hw
    have e2 : recvval
        { rd := w.rd, wr := wr1,
          trace := w.trace ++ [Ev.out (Out.countdown (20 - (i : Int)))] ++
            (valueBytes 0).map Ev.tx } =
        .ok (-1)
          { rd := [], wr := wr1,
            trace := w.trace ++ [Ev.out (Out.countdown (20 - (i : Int)))] ++
              (valueBytes 0).map Ev.tx ++ [Ev.timeout] } := by
      simp [recvval, recv, recvLoop, read, hrd, World.log]
    obtain ⟨wr3, tr3, e3, hs3⟩ := ih (i + 1) fuel
      { rd := [], wr := wr1,
        trace := w.trace ++ [Ev.out (Out.countdown (20 - (i : Int)))] ++
          (valueBytes 0).map Ev.tx ++ [Ev.timeout] }
      (by omega) (by omega) n1 rfl
    refine ⟨wr3, tr3, ?_, ?_⟩
    · simp only [probeLoop, h20, decide_True, Bool.or_true, if_true, e1, e2]
      simpa using e3
    · rw [hs3]
      simp [sent_append, sent_map_tx, sent, probes, valueBytes]

/-- C8. Probe loop bound. In forced mode the loop sends at most 20 PROBE
values whatever the line delivers (timeouts, garbage, OS read errors), and
exactly 20 when none of the answers is OK (20 answers that are not OK, or a
silent line), and it then returns normally. In non-forced mode, when the
answers before the N-th are not OK and the N-th is OK, the loop returns at the
N-th attempt having sent exactly N PROBE values, and it has not returned
after fewer than N iterations. -/
theorem probe_loop_bound (d : Bool) (fuel f1 f2 : Nat) (w wx ws wn : World)
    (bad20 bad : List (List Nat)) (rest20 rest : List (Option (List Nat)))
    (hfuel : 20 < fuel) (hw : NoErr w.wr)
    (hx : NoErr wx.wr) (hbad20 : ∀ b ∈ bad20, notOK b = true) (hlen : bad20.length = 20)
    (hxrd : wx.rd = bad20.map some ++ rest20)
    (hs : NoErr ws.wr) (hsrd : ws.rd = [])
    (hn : NoErr wn.wr) (hbad : ∀ b ∈ bad, notOK b = true)
    (hnrd : wn.rd = bad.map some ++ some [0, 255] :: rest)
    (hf1 : bad.length + 1 ≤ f1) (hf2 : f2 < bad.length + 1) :
    (∃ r n, probeLoop true d fuel 0 w = some r ∧ n ≤ 20 ∧
      sent r.world.trace = sent w.trace ++ probes n) ∧
    (∃ wr1 tr, probeLoop true d fuel 0 wx =
        some (.ok () { rd := rest20, wr := wr1, trace := tr }) ∧
      sent tr = sent wx.trace ++ probes 20) ∧
    (∃ wr1 tr, probeLoop true d fuel 0 ws = some (.ok () { rd := [], wr := wr1, trace := tr }) ∧
      sent tr = sent ws.trace ++ probes 20) ∧
    (∃ wr1 tr, probeLoop false d f1 0 wn =
        some (.ok () { rd := rest, wr := wr1, trace := tr }) ∧
      sent tr = sent wn.trace ++ probes (bad.length + 1)) ∧
    probeLoop false d f2 0 wn = none := by
  refine ⟨probeLoop_forced_bound d 20 0 fuel w rfl hfuel hw, ?_,
    probeLoop_forced_silent d 20 0 fuel ws rfl hfuel hs hsrd, ?_, ?_⟩
  · have h := probeLoop_forced_exact d bad20 0 fuel wx rest20 hbad20 (by omega) (by omega) hx hxrd
    rwa [hlen] at h
  · exact (probeLoop_unforced d bad 0 f1 wn rest hbad hn hnrd).1 (by omega)
  · exact (probeLoop_unforced d bad 0 f2 wn rest hbad hn hnrd).2 (by omega)

/-- Witness for C8: in forced mode 20 timeouts; in non-forced mode a timeout
and an ERROR answer before the OK answer (N = 3). -/
theorem probe_loop_bound_witness :
    (∃ wr1 tr, probeLoop true false 21 0
        { rd := (List.replicate 20 []).map some ++ [some [0, 255]], wr := [], trace := [] } =
        some (.ok () { rd := [some [0, 255]], wr := wr1, trace := tr }) ∧
      sent tr = sent [] ++ probes 20) ∧
    (∃ wr1 tr, probeLoop false false 3 0
        { rd := [[], [1, 254]].map some ++ some [0, 255] :: [], wr := [], trace := [] } =
        some (.ok () { rd := [], wr := wr1, trace := tr }) ∧
      sent tr = sent [] ++ probes ([[], [1, 254]].length + 1)) ∧
    probeLoop false false 2 0
        { rd := [[], [1, 254]].map some ++ some [0, 255] :: [], wr := [], trace := [] } = none :=
  have h := probe_loop_bound false 21 3 2
    { rd := [some [7, 7, 7]], wr := [], trace := [] }
    { rd := (List.replicate 20 []).map some ++ [some [0, 255]], wr := [], trace := [] }
    { rd := [], wr := [], trace := [] }
    { rd := [[], [1, 254]].map some ++ some [0, 255] :: [], wr := [], trace := [] }
    (List.replicate 20 []) [[], [1, 254]] [some [0, 255]] []
    (by decide) (by decide) (by decide) (by decide) (by decide) (by decide) (by decide)
    (by decide) (by decide) (by decide) (by decide) (by decide) (by decide)
  ⟨h.2.1, h.2.2.2.1, h.2.2.2.2⟩

/-! ## Update sequences -/

theorem recvLoop_noErr : ∀ (fuel : Nat) (w : World) (buf : List Nat) (off len : Nat),
    NoErr w.rd →
    ∃ a w1, recvLoop fuel w buf off len = .ok a w1 ∧ NoErr w1.rd ∧ w1.wr = w.wr ∧
      sent w1.trace = sent w.trace := by
  intro fuel w buf off len hn
  have h := recvLoop_any fuel w buf off len
  suffices hs : ∃ a w1, recvLoop fuel w buf off len = .ok a w1 ∧ NoErr w1.rd by
    obtain ⟨a, w1, e, n1⟩ := hs
    rw [e] at h
    exact ⟨a, w1, e, n1, h.1, h.2⟩
  clear h
  induction fuel generalizing w buf off len with
  | zero => exact ⟨(1, buf), w, rfl, hn⟩
  | succ fuel ih =>
    obtain ⟨rd, wr, trace⟩ := w
    by_cases hl : len = 0
    · exact ⟨(1, buf), _, by simp [recvLoop, hl], hn⟩
    · simp only [recvLoop, hl, if_false]
      cases rd with
      | nil =>
        exact ⟨(0, buf), { rd := [], wr := wr, trace := trace ++ [Ev.timeout] },
          by simp [read, World.log], hn⟩
      | cons e rest =>
        have hrest : NoErr rest := fun e he => hn e (List.mem_cons_of_mem _ he)
        cases e with
        | none => exact absurd (hn none (by simp)) (by simp)
        | some b =>
          by_cases hb : b.length = 0
          · exact ⟨(0, buf), { rd := rest, wr := wr, trace := trace ++ [Ev.timeout] },
              by simp [read, hb], hrest⟩
          · by_cases hle : b.length ≤ len
            · simp only [read, hb, hle, if_true, if_false]
              exact ih _ _ _ _ hrest
            · have htl : (List.take len b).length = len := by
                simp [List.length_take]; omega
              simp only [read, hb, hle, if_false, htl, hl]
              apply ih
              intro e he
              rcases List.mem_cons.mp he with h | h
              · simp [h]
              · exact hrest e h

theorem recvval_total (w : World) (hn : NoErr w.rd) :
    ∃ r w1, recvval w = .ok r w1 ∧ NoErr w1.rd ∧ w1.wr = w.wr ∧
      sent w1.trace = sent w.trace := by
  obtain ⟨⟨r, buf⟩, w1, e, h⟩ := recvLoop_noErr 2 w [0, 0] 0 2 hn
  exact ⟨if r ≠ 0 ∧ (buf.getD 0 0 ^^^ buf.getD 1 0) = 0xff then (buf.getD 0 0 : Int) else -1,
    w1, by simp [recvval, recv, e], h⟩

/-- `recvack` on a line without OS read error: it returns, or (in non-forced
mode only) it is fatal with the result that differs from OK. -/
theorem recvack_total (force : Bool) (w : World) (msg : Msg) (hn : NoErr w.rd) :
    ∃ w1, NoErr w1.rd ∧ w1.wr = w.wr ∧ sent w1.trace = sent w.trace ∧
      (recvack force w msg = .ok () w1 ∨
        (force = false ∧ ∃ r, r ≠ 0 ∧ recvack force w msg = .fatal (.check r 0 msg) w1)) := by
  obtain ⟨r, w1, e, h⟩ := recvval_total w hn
  refine ⟨w1, h.1, h.2.1, h.2.2, ?_⟩
  by_cases hr : r = 0
  · exact Or.inl (by simp [recvack, e, checkres, hr])
  · cases force with
    | true => exact Or.inl (by simp [recvack, e, checkres])
    | false => exact Or.inr ⟨rfl, r, hr, by simp [recvack, e, checkres, hr]⟩

/-- Whatever the device answers (no OS error), the firmware loop ends, and
the bytes it has written are those of the first `j` exchanges; `j` is the
number of all exchanges when the loop returns normally, which it does in
forced mode. -/
theorem fwLoop_general (crc32 : List Nat → Nat) (force d : Bool) (data : List Nat) (size : Nat)
    (h4 : size % 4 = 0) (hd : size ≤ data.length) (hs : size ≤ 61440) :
    ∀ (m fuel k : Nat) (w : World),
      m < fuel → 1024 * (k + m) < size + 1024 → size ≤ 1024 * (k + m) →
      NoErr w.wr → NoErr w.rd →
      ∃ r j, fwLoop crc32 force d data size fuel (1024 * k) w = some r ∧ j ≤ m ∧
        sent r.world.trace = sent w.trace ++ (List.range' k j).flatMap (fwBytes crc32 data size) ∧
        ((∃ w1, r = .ok () w1) → j = m) ∧ (force = true → ∃ w1, r = .ok () w1) := by
  intro m
  induction m with
  | zero =>
    intro fuel k w hf _ hz hw _
    obtain ⟨fuel, rfl⟩ : ∃ f, fuel = f + 1 := ⟨fuel - 1, by omega⟩
    have hnot : ¬ 1024 * k < size := by omega
    exact ⟨.ok () w, 0, by simp [fwLoop, hnot], Nat.le_refl _, by simp [Res.world],
      fun _ => rfl, fun _ => ⟨w, rfl⟩⟩
  | succ m ih =>
    intro fuel k w hf hk _ hw hn
    obtain ⟨fuel, rfl⟩ : ∃ f, fuel = f + 1 := ⟨fuel - 1, by omega⟩
    have hlt : 1024 * k < size := by omega
    have hml : maxlen (1024 * k) size = min 1024 (size - 1024 * k) :=
      maxlen_eq _ _ hlt (by omega)
    obtain ⟨wr1, n1, e1⟩ := sendval_nat d
      (w.log [Ev.out (Out.progress (1024 * k * 100 / size))]) 3 (by decide) hw
    obtain ⟨wr2, n2, e2⟩ := sendval_nat d
      { rd := w.rd, wr := wr1,
        trace := w.trace ++ [Ev.out (Out.progress (1024 * k * 100 / size))] ++
          (valueBytes 3).map Ev.tx } k (by omega) n1
    obtain ⟨wr3, n3, e3⟩ := senddata_frame crc32 d
      { rd := w.rd, wr := wr2,
        trace := w.trace ++ [Ev.out (Out.progress (1024 * k * 100 / size))] ++
          (valueBytes 3).map Ev.tx ++ (valueBytes k).map Ev.tx }
      (data.drop (1024 * k)) (min 1024 (size - 1024 * k)) n2 (by omega) (by omega)
      (by simp only [List.length_drop]; omega)
    obtain ⟨w4, hn4, hw4, hs4, e4⟩ := recvack_total force
      { rd := w.rd, wr := wr3,
        trace := w.trace ++ [Ev.out (Out.progress (1024 * k * 100 / size))] ++
          (valueBytes 3).map Ev.tx ++ (valueBytes k).map Ev.tx ++
          (frame crc32 ((data.drop (1024 * k)).take (min 1024 (size - 1024 * k)))).map Ev.tx }
      Msg.writingData hn
    have hsent : sent w4.trace = sent w.trace ++ fwBytes crc32 data size k := by
      have hout : ∀ o : Out, sent [Ev.out o] = [] := fun _ => rfl
      rw [hs4]
      simp only [sent_append, sent_map_tx, hout, List.append_nil, List.nil_append, fwBytes,
        block, List.append_assoc]
    simp only [World.log] at e1
    dsimp only at e2 e3 e4
    have hcast : (((1024 * k / 1024 : Nat) : Int)) = (k : Int) := by
      congr 1; omega
    have hpos : 1024 * k + 1024 = 1024 * (k + 1) := by omega
    have hstep : fwLoop crc32 force d data size (fuel + 1) (1024 * k) w =
        match recvack force
          { rd := w.rd, wr := wr3,
            trace := w.trace ++ [Ev.out (Out.progress (1024 * k * 100 / size))] ++
              (valueBytes 3).map Ev.tx ++ (valueBytes k).map Ev.tx ++
              (frame crc32 ((data.drop (1024 * k)).take (min 1024 (size - 1024 * k)))).map
                Ev.tx } Msg.writingData with
        | .fatal f w5 => some (.fatal f w5)
        | .ok _ w5 => fwLoop crc32 force d data size fuel (1024 * (k + 1)) w5 := by
      simp only [fwLoop, hlt, if_true, World.log, hml, hcast, hpos]
      rw [show ((3 : Int)) = ((3 : Nat) : Int) from rfl, e1]
      dsimp only
      rw [e2]
      dsimp only
      rw [e3]
    rcases e4 with e4 | ⟨hforce, r, _, e4⟩
    · obtain ⟨r5, j, e5, hj, hs5, hok, hf5⟩ := ih fuel (k + 1) w4 (by omega) (by omega)
        (by omega) (by rw [hw4]; exact n3) hn4
      refine ⟨r5, j + 1, ?_, by omega, ?_, fun h => by rw [hok h], hf5⟩
      · rw [hstep, e4]
        exact e5
      · rw [hs5, hsent]
        simp [List.range'_succ]
    · refine ⟨.fatal (.check r 0 Msg.writingData) w4, 1, ?_, by omega, ?_, ?_, ?_⟩
      · rw [hstep, e4]
      · simp [Res.world, hsent, List.range'_succ]
      · rintro ⟨w1, h⟩
        cases h
      · intro h
        rw [hforce] at h
        cases h

/-- Whatever the device answers (no OS error), the bootloader loop ends, and
the bytes it has written are the frames of the first `j` blocks; `j` is the
number of all blocks when the loop returns normally, which it does in forced
mode. -/
theorem bootLoop_general (crc32 : List Nat → Nat) (force d : Bool) (data : List Nat)
    (size : Nat) (h4 : size % 4 = 0) (hd : size ≤ data.length) (hs : size ≤ 61440) :
    ∀ (m fuel k : Nat) (w : World),
      m < fuel → 1024 * (k + m) < size + 1024 → size ≤ 1024 * (k + m) →
      NoErr w.wr → NoErr w.rd →
      ∃ r j, bootLoop crc32 force d data size fuel (1024 * k) w = some r ∧ j ≤ m ∧
        sent r.world.trace = sent w.trace ++
          (List.range' k j).flatMap (fun i => frame crc32 (block data size i)) ∧
        ((∃ w1, r = .ok () w1) → j = m) ∧
        (force = true → ∃ w1, r = .ok () w1) ∧ NoErr r.world.wr ∧ NoErr r.world.rd := by
  intro m
  induction m with
  | zero =>
    intro fuel k w hf _ hz hw hn
    obtain ⟨fuel, rfl⟩ : ∃ f, fuel = f + 1 := ⟨fuel - 1, by omega⟩
    have hnot : ¬ 1024 * k < size := by omega
    exact ⟨.ok () w, 0, by simp [bootLoop, hnot], Nat.le_refl _, by simp [Res.world],
      fun _ => rfl, fun _ => ⟨w, rfl⟩, hw, hn⟩
  | succ m ih =>
    intro fuel k w hf hk _ hw hn
    obtain ⟨fuel, rfl⟩ : ∃ f, fuel = f + 1 := ⟨fuel - 1, by omega⟩
    have hlt : 1024 * k < size := by omega
    have hml : maxlen (1024 * k) size = min 1024 (size - 1024 * k) :=
      maxlen_eq _ _ hlt (by omega)
    obtain ⟨wr3, n3, e3⟩ := senddata_frame crc32 d
      (w.log [Ev.out (Out.progress (1024 * k * 100 / size))])
      (data.drop (1024 * k)) (min 1024 (size - 1024 * k)) hw (by omega) (by omega)
      (by simp only [List.length_drop]; omega)
    obtain ⟨w4, hn4, hw4, hs4, e4⟩ := recvack_total force
      { rd := w.rd, wr := wr3,
        trace := w.trace ++ [Ev.out (Out.progress (1024 * k * 100 / size))] ++
          (frame crc32 ((data.drop (1024 * k)).take (min 1024 (size - 1024 * k)))).map Ev.tx }
      Msg.writingData hn
    have hsent : sent w4.trace = sent w.trace ++ frame crc32 (block data size k) := by
      have hout : ∀ o : Out, sent [Ev.out o] = [] := fun _ => rfl
      rw [hs4]
      simp only [sent_append, sent_map_tx, hout, List.append_nil, List.nil_append, block,
        List.append_assoc]
    simp only [World.log] at e3
    have hpos : 1024 * k + 1024 = 1024 * (k + 1) := by omega
    have hstep : bootLoop crc32 force d data size (fuel + 1) (1024 * k) w =
        match recvack force
          { rd := w.rd, wr := wr3,
            trace := w.trace ++ [Ev.out (Out.progress (1024 * k * 100 / size))] ++
              (frame crc32 ((data.drop (1024 * k)).take (min 1024 (size - 1024 * k)))).map
                Ev.tx } Msg.writingData with
        | .fatal f w5 => some (.fatal f w5)
        | .ok _ w5 => bootLoop crc32 force d data size fuel (1024 * (k + 1)) w5 := by
      simp only [bootLoop, hlt, if_true, World.log, hml, hpos]
      rw [e3]
    rcases e4 with e4 | ⟨hforce, r, _, e4⟩
    · obtain ⟨r5, j, e5, hj, hs5, hok, hf5, hn5⟩ := ih fuel (k + 1) w4 (by omega) (by omega)
        (by omega) (by rw [hw4]; exact n3) hn4
      refine ⟨r5, j + 1, ?_, by omega, ?_, fun h => by rw [hok h], hf5, hn5⟩
      · rw [hstep, e4]
        exact e5
      · rw [hs5, hsent]
        simp [List.range'_succ]
    · refine ⟨.fatal (.check r 0 Msg.writingData) w4, 1, ?_, by omega, ?_, ?_, ?_, ?_, hn4⟩
      · rw [hstep, e4]
      · simp [Res.world, hsent, List.range'_succ]
      · rintro ⟨w1, h⟩
        cases h
      · intro h
        rw [hforce] at h
        cases h
      · simp only [Res.world]
        rw [hw4]
        exact n3


theorem block_length (data : List Nat) (L k : Nat) (hd : L ≤ data.length) :
    (block data L k).length = min 1024 (L - 1024 * k) := by
  simp only [block, List.length_take, List.length_drop]
  omega

/-- C9. Firmware write sequence: for every rounded image size `L` (positive
multiple of 4, `L ≤ 61440`) and a device that acknowledges, the firmware
update consists of the exchanges `k = 0 .. ceil(L/1024)-1` in order; exchange
`k` writes the Value WRITE (3), the Value `k` (which fits in one byte), and the
frame of `data[1024k .. 1024k + min(1024, L - 1024k))`, and then reads one
acknowledgement; nothing is read after the last exchange. Whatever the device
answers (world `u`, no OS error), the update ends and the bytes written are
those of the first `j` exchanges, with `j = ceil(L/1024)` when the update
returns normally, as it always does in forced mode. For `L = 1500` these are
2 exchanges with blocks of 1024 and 476 bytes. -/
theorem firmware_write_sequence (crc32 : List Nat → Nat) (fuel : Nat) (a : Args)
    (data : List Nat) (L k : Nat) (w u : World) (rest : List Nat)
    (h4 : L % 4 = 0) (_hpos : 0 < L) (hmax : L ≤ 61440) (hd : L ≤ data.length)
    (hfuel : (L + 1023) / 1024 < fuel) (hw : NoErr w.wr)
    (hrd : pending w.rd = acks ((L + 1023) / 1024) ++ rest) (hk : k < (L + 1023) / 1024)
    (hu : NoErr u.wr) (hun : NoErr u.rd) :
    (∃ rd1 wr1, pending rd1 = rest ∧
      updateFirmware crc32 fuel a data L w =
        some (.ok ()
          { rd := rd1, wr := wr1,
            trace := w.trace ++ Ev.out Out.updatingFirmware ::
              (List.range ((L + 1023) / 1024)).flatMap (fwExchange crc32 data L) })) ∧
    fwExchange crc32 data L k =
      Ev.out (Out.progress (1024 * k * 100 / L)) ::
        ([Ev.tx 3, Ev.tx 252, Ev.tx k, Ev.tx (255 - k)] ++
          (frame crc32 ((data.drop (1024 * k)).take (min 1024 (L - 1024 * k)))).map Ev.tx ++
          [Ev.rx 0, Ev.rx 255]) ∧
    k < 256 ∧ ((1024 * k / 1024 : Nat) : Int) % 256 = (k : Int) ∧
    (block data L k).length = min 1024 (L - 1024 * k) ∧
    (∃ r j, updateFirmware crc32 fuel a data L u = some r ∧ j ≤ (L + 1023) / 1024 ∧
      sent r.world.trace = sent u.trace ++ (List.range j).flatMap (fwBytes crc32 data L) ∧
      ((∃ w1, r = .ok () w1) → j = (L + 1023) / 1024) ∧
      (a.force = true → ∃ w1, r = .ok () w1)) ∧
    (L = 1500 → (L + 1023) / 1024 = 2 ∧ (block data L 0).length = 1024 ∧
      (block data L 1).length = 476) := by
  refine ⟨?_, ?_, by omega, by omega, block_length data L k hd, ?_, ?_⟩
  · obtain ⟨rd1, wr1, h1, _, _, e⟩ := fwLoop_honest crc32 a.force a.delay data L h4 hd hmax _
      fuel 0 (w.log [Ev.out Out.updatingFirmware]) rest hfuel (by omega) (by omega) hw hrd
    refine ⟨rd1, wr1, h1, ?_⟩
    simp only [updateFirmware]
    rw [show (0 : Nat) = 1024 * 0 from rfl, e, List.range_eq_range']
    simp [World.log]
  · simp [fwExchange, block, valueBytes]
  · obtain ⟨r, j, e, hj, hs, hok, hf⟩ := fwLoop_general crc32 a.force a.delay data L h4 hd hmax
      _ fuel 0 (u.log [Ev.out Out.updatingFirmware]) hfuel (by omega) (by omega) hu hun
    refine ⟨r, j, ?_, hj, ?_, hok, hf⟩
    · simp only [updateFirmware]
      rw [show (0 : Nat) = 1024 * 0 from rfl, e]
    · rw [hs, List.range_eq_range']
      simp [World.log, sent_append, sent]
  · intro hL
    subst hL
    exact ⟨by decide, (block_length _ _ _ hd).trans (by decide),
      (block_length _ _ _ hd).trans (by decide)⟩

/-- Witness for C9: an image of 1500 bytes. -/
theorem firmware_write_sequence_witness :
    (1500 + 1023) / 1024 = 2 ∧ (block (List.replicate 1500 7) 1500 0).length = 1024 ∧
      (block (List.replicate 1500 7) 1500 1).length = 476 :=
  (firmware_write_sequence (fun _ => 0) 3 Args.init (List.replicate 1500 7) 1500 1
    { rd := [some [0, 255, 0, 255]], wr := [], trace := [] }
    { rd := [some [1, 254]], wr := [], trace := [] } []
    (by decide) (by decide) (by decide) (List.length_replicate 1500 7).ge (by decide)
    (by decide) (by decide) (by decide) (by decide) (by decide)).2.2.2.2.2.2 rfl

theorem recvack_timeout (w : World) (msg : Msg) (hn : NoErr w.rd)
    (hp : (pending w.rd).length < 2) :
    ∃ w1, recvack false w msg = .fatal (.check (-1) 0 msg) w1 := by
  obtain ⟨w1, e, _⟩ := recvval_timeout w hn hp
  exact ⟨w1, by simp [recvack, e, checkres]⟩

/-- C10. Bootloader update choreography: for every accepted bootloader image
and a device that acknowledges, the Value UPDATE (4) is written once, before
any data block; the frames of the blocks follow in increasing offset order
with nothing written between them; one acknowledgement is read after each
block and one more after the last block, so `blocks + 1` acknowledgements are
read. When the device sends only one acknowledgement per block (world `v`),
the final wait times out and, in non-forced mode, the update is fatal
("Update failed"). Whatever the device answers (world `u`, no OS error), the
update ends and the bytes written are UPDATE and the frames of the first `j`
blocks, with `j` the number of all blocks when the update returns normally,
as it always does in forced mode. -/
theorem bootloader_update_choreography (crc32 : List Nat → Nat) (fuel : Nat) (a : Args)
    (data : List Nat) (size S : Nat) (w v u : World) (rest : List Nat)
    (h4 : size % 4 = 0) (_hpos : 0 < size) (hS : bootSize size = some S)
    (hd : S ≤ data.length) (hfuel : (S + 1023) / 1024 < fuel)
    (hw : NoErr w.wr) (hrd : pending w.rd = acks ((S + 1023) / 1024 + 1) ++ rest)
    (hv : NoErr v.wr) (hvn : NoErr v.rd) (hvrd : pending v.rd = acks ((S + 1023) / 1024))
    (hforce : a.force = false) (hu : NoErr u.wr) (hun : NoErr u.rd) :
    (∃ rd1 wr1, pending rd1 = rest ∧
      updateBootloader crc32 fuel a data size w =
        some (.ok ()
          { rd := rd1, wr := wr1,
            trace := w.trace ++ Ev.out Out.updatingBootloader ::
              ((valueBytes 4).map Ev.tx ++
                (List.range ((S + 1023) / 1024)).flatMap (bootExchange crc32 data S) ++
                (valueBytes 0).map Ev.rx) })) ∧
    (∃ v1, updateBootloader crc32 fuel a data size v =
      some (.fatal (.check (-1) 0 Msg.updateFailed) v1)) ∧
    (∀ force : Bool, ∃ r j,
      updateBootloader crc32 fuel { a with force := force } data size u = some r ∧
      j ≤ (S + 1023) / 1024 ∧
      sent r.world.trace = sent u.trace ++ valueBytes 4 ++
        (List.range j).flatMap (fun i => frame crc32 (block data S i)) ∧
      ((∃ w1, r = .ok () w1) → j = (S + 1023) / 1024) ∧
      (force = true → ∃ w1, r = .ok () w1)) := by
  have hSle : S ≤ 4100 ∧ S % 4 = 0 := by
    unfold bootSize at hS
    split at hS
    · cases hS
    · split at hS <;> (injection hS with hS; omega)
  have hacks : ∀ m : Nat, acks (m + 1) = acks m ++ [0, 255] := by
    intro m
    induction m with
    | zero => rfl
    | succ m ih => simp [acks] at ih ⊢; exact ih
  refine ⟨?_, ?_, ?_⟩
  · obtain ⟨wr1, n1, e1⟩ := sendval_nat a.delay (w.log [Ev.out Out.updatingBootloader]) 4
      (by decide) hw
    obtain ⟨rd2, wr2, h2, n2, _, e2⟩ := bootLoop_honest crc32 a.force a.delay data S hSle.2 hd
      (by omega) _ fuel 0
      { rd := w.rd, wr := wr1,
        trace := w.trace ++ [Ev.out Out.updatingBootloader] ++ (valueBytes 4).map Ev.tx }
      ([0, 255] ++ rest) hfuel (by omega) (by omega) n1
      (by rw [hrd, hacks, List.append_assoc])
    obtain ⟨rd3, h3, _, e3⟩ := recvack_ok a.force
      { rd := rd2, wr := wr2,
        trace := w.trace ++ [Ev.out Out.updatingBootloader] ++ (valueBytes 4).map Ev.tx ++
          (List.range' 0 ((S + 1023) / 1024)).flatMap (bootExchange crc32 data S) }
      Msg.updateFailed rest h2
    refine ⟨rd3, wr2, h3, ?_⟩
    simp only [World.log] at e1
    dsimp only at e2 e3
    simp only [updateBootloader, hS, World.log]
    rw [show ((4 : Int)) = ((4 : Nat) : Int) from rfl, e1]
    dsimp only
    rw [show (0 : Nat) = 1024 * 0 from rfl, e2]
    dsimp only
    rw [e3, List.range_eq_range']
    simp [List.append_assoc]
  · obtain ⟨wr1, n1, e1⟩ := sendval_nat a.delay (v.log [Ev.out Out.updatingBootloader]) 4
      (by decide) hv
    obtain ⟨rd2, wr2, h2, n2, m2, e2⟩ := bootLoop_honest crc32 false a.delay data S hSle.2 hd
      (by omega) _ fuel 0
      { rd := v.rd, wr := wr1,
        trace := v.trace ++ [Ev.out Out.updatingBootloader] ++ (valueBytes 4).map Ev.tx }
      [] hfuel (by omega) (by omega) n1 (by rw [hvrd, List.append_nil])
    obtain ⟨v1, e3⟩ := recvack_timeout
      { rd := rd2, wr := wr2,
        trace := v.trace ++ [Ev.out Out.updatingBootloader] ++ (valueBytes 4).map Ev.tx ++
          (List.range' 0 ((S + 1023) / 1024)).flatMap (bootExchange crc32 data S) }
      Msg.updateFailed (m2 hvn) (by simp [h2])
    refine ⟨v1, ?_⟩
    simp only [World.log] at e1
    dsimp only at e2
    simp only [updateBootloader, hS, World.log, hforce]
    rw [show ((4 : Int)) = ((4 : Nat) : Int) from rfl, e1]
    dsimp only
    rw [show (0 : Nat) = 1024 * 0 from rfl, e2]
    dsimp only
    rw [e3]
  · intro force
    obtain ⟨wr1, n1, e1⟩ := sendval_nat a.delay (u.log [Ev.out Out.updatingBootloader]) 4
      (by decide) hu
    obtain ⟨r2, j, e2, hj, hs2, hok2, hf2, hnw2, hnr2⟩ := bootLoop_general crc32 force a.delay
      data S hSle.2 hd (by omega) _ fuel 0
      { rd := u.rd, wr := wr1,
        trace := u.trace ++ [Ev.out Out.updatingBootloader] ++ (valueBytes 4).map Ev.tx }
      hfuel (by omega) (by omega) n1 hun
    have hout : ∀ o : Out, sent [Ev.out o] = [] := fun _ => rfl
    have hs0 : sent (u.trace ++ [Ev.out Out.updatingBootloader] ++ (valueBytes 4).map Ev.tx) =
        sent u.trace ++ valueBytes 4 := by
      simp only [sent_append, sent_map_tx, hout, List.append_nil]
    simp only [World.log] at e1
    dsimp only at hs2
    rw [hs0, ← List.range_eq_range'] at hs2
    have hstep : updateBootloader crc32 fuel { a with force := force } data size u =
        (match some r2 with
        | none => none
        | some (.fatal f w2) => some (.fatal f w2)
        | some (.ok _ w2) => some (recvack force w2 Msg.updateFailed)) := by
      simp only [updateBootloader, hS, World.log]
      rw [show ((4 : Int)) = ((4 : Nat) : Int) from rfl, e1]
      dsimp only
      rw [show (0 : Nat) = 1024 * 0 from rfl, e2]
    cases r2 with
    | fatal f w2 =>
      refine ⟨.fatal f w2, j, hstep, hj, hs2, ?_, ?_⟩
      · rintro ⟨w1, h⟩
        cases h
      · intro h
        obtain ⟨w1, h1⟩ := hf2 h
        cases h1
    | ok x w2 =>
      have hjm : j = (S + 1023) / 1024 := hok2 ⟨w2, rfl⟩
      simp only [Res.world] at hs2 hnr2
      dsimp only at hstep
      obtain ⟨w3, _, _, hs3, e3⟩ := recvack_total force w2 Msg.updateFailed hnr2
      rcases e3 with e3 | ⟨hfalse, r, _, e3⟩
      · refine ⟨.ok () w3, j, by rw [hstep, e3], hj, ?_, fun _ => hjm, fun _ => ⟨w3, rfl⟩⟩
        simp only [Res.world]
        rw [hs3, hs2]
      · refine ⟨.fatal (.check r 0 Msg.updateFailed) w3, j, by rw [hstep, e3], hj, ?_,
          fun _ => hjm, ?_⟩
        · simp only [Res.world]
          rw [hs3, hs2]
        · intro h
          rw [hfalse] at h
          cases h

/-- Witness for C10: a 4-byte bootloader image; the device acknowledges the
block and the reboot (first line), or only the block (second line). -/
theorem bootloader_update_choreography_witness :
    (∃ rd1 wr1, pending rd1 = [9] ∧
      updateBootloader (fun _ => 0) 2 Args.init [1, 2, 3, 4] 4
          { rd := [some [0, 255], some [0, 255, 9]], wr := [], trace := [] } =
        some (.ok ()
          { rd := rd1, wr := wr1,
            trace := [] ++ Ev.out Out.updatingBootloader ::
              ((valueBytes 4).map Ev.tx ++
                (List.range ((4 + 1023) / 1024)).flatMap
                  (bootExchange (fun _ => 0) [1, 2, 3, 4] 4) ++
                (valueBytes 0).map Ev.rx) })) ∧
    (∃ v1, updateBootloader (fun _ => 0) 2 Args.init [1, 2, 3, 4] 4
          { rd := [some [0, 255]], wr := [], trace := [] } =
      some (.fatal (.check (-1) 0 Msg.updateFailed) v1)) :=
  have h := bootloader_update_choreography (fun _ => 0) 2 Args.init [1, 2, 3, 4] 4 4
    { rd := [some [0, 255], some [0, 255, 9]], wr := [], trace := [] }
    { rd := [some [0, 255]], wr := [], trace := [] }
    { rd := [some [1, 254]], wr := [], trace := [] } [9]
    (by decide) (by decide) (by decide) (by decide) (by decide) (by decide) (by decide)
    (by decide) (by decide) (by decide) (by decide) (by decide) (by decide)
  ⟨h.1, h.2.1⟩

/-! ## Result checking -/

/-- C11. Result-check policy: `checkres` ends the run with a fatal error
exactly when `res ≠ val` and force mode is not active; with force mode active
it returns for every `res`. Consequently, in non-forced mode `recvack` is
fatal for a timeout, for a complement-check failure, for the ERROR code and
for every other value different from OK (0), and in forced mode it returns
whatever arrives (no OS read error). -/
theorem result_check_policy (force : Bool) (w wt wc we wo wf : World) (res val : Int)
    (msg : Msg) (a b x y : Nat) (rc re ro : List Nat)
    (ht : NoErr wt.rd) (ht2 : (pending wt.rd).length < 2)
    (hc : pending wc.rd = a :: b :: rc) (hc2 : a ^^^ b ≠ 255)
    (he : pending we.rd = 1 :: 254 :: re)
    (ho : pending wo.rd = x :: y :: ro) (ho2 : x ^^^ y = 255) (ho3 : x ≠ 0)
    (hf : NoErr wf.rd) :
    ((∃ f w1, checkres force w res val msg = .fatal f w1) ↔ (res ≠ val ∧ force = false)) ∧
    checkres false w res val msg =
      (if res = val then .ok () w else .fatal (.check res val msg) w) ∧
    checkres true w res val msg = .ok () w ∧
    (∃ w1, recvack false wt msg = .fatal (.check (-1) 0 msg) w1) ∧
    (∃ w1, recvack false wc msg = .fatal (.check (-1) 0 msg) w1) ∧
    (∃ w1, recvack false we msg = .fatal (.check 1 0 msg) w1) ∧
    (∃ w1, recvack false wo msg = .fatal (.check (x : Int) 0 msg) w1) ∧
    (∃ w1, recvack true wf msg = .ok () w1) := by
  refine ⟨?_, ?_, by simp [checkres], recvack_timeout wt msg ht ht2, ?_, ?_, ?_, ?_⟩
  · constructor
    · rintro ⟨f, w1, h⟩
      unfold checkres at h
      split at h
      · cases h
      · rename_i hn
        constructor
        · exact fun h' => hn (Or.inl h')
        · cases force
          · rfl
          · exact absurd (Or.inr rfl) hn
    · rintro ⟨h1, h2⟩
      exact ⟨.check res val msg, w, by simp [checkres, h1, h2]⟩
  · simp [checkres]
  · obtain ⟨rd1, _, _, e⟩ := recvval_ok wc a b rc hc
    rw [if_neg hc2] at e
    exact ⟨{ rd := rd1, wr := wc.wr, trace := wc.trace ++ [Ev.rx a, Ev.rx b] },
      by simp [recvack, e, checkres]⟩
  · obtain ⟨rd1, _, _, e⟩ := recvval_ok we 1 254 re he
    rw [if_pos (by decide)] at e
    exact ⟨{ rd := rd1, wr := we.wr, trace := we.trace ++ [Ev.rx 1, Ev.rx 254] },
      by simp [recvack, e, checkres]⟩
  · obtain ⟨rd1, _, _, e⟩ := recvval_ok wo x y ro ho
    rw [if_pos ho2] at e
    have hx : ¬ ((x : Int) = 0) := by exact_mod_cast ho3
    exact ⟨{ rd := rd1, wr := wo.wr, trace := wo.trace ++ [Ev.rx x, Ev.rx y] },
      by simp [recvack, e, checkres, hx]⟩
  · obtain ⟨w1, _, _, _, e⟩ := recvack_total true wf msg hf
    rcases e with e | ⟨h, _⟩
    · exact ⟨w1, e⟩
    · cases h

/-- Witness for C11: a silent line, the pair `12 34`, the ERROR code, the
value 7, and a forced wait on a silent line. -/
theorem result_check_policy_witness :
    (∃ w1, recvack false { rd := [], wr := [], trace := [] } Msg.writingData =
      .fatal (.check (-1) 0 Msg.writingData) w1) ∧
    (∃ w1, recvack false { rd := [some [0x12, 0x34]], wr := [], trace := [] } Msg.writingData =
      .fatal (.check (-1) 0 Msg.writingData) w1) ∧
    (∃ w1, recvack false { rd := [some [1, 254]], wr := [], trace := [] } Msg.writingData =
      .fatal (.check 1 0 Msg.writingData) w1) ∧
    (∃ w1, recvack false { rd := [some [7], some [248]], wr := [], trace := [] }
        Msg.writingData = .fatal (.check ((7 : Nat) : Int) 0 Msg.writingData) w1) ∧
    (∃ w1, recvack true { rd := [], wr := [], trace := [] } Msg.writingData = .ok () w1) :=
  (result_check_policy false { rd := [], wr := [], trace := [] }
    { rd := [], wr := [], trace := [] }
    { rd := [some [0x12, 0x34]], wr := [], trace := [] }
    { rd := [some [1, 254]], wr := [], trace := [] }
    { rd := [some [7], some [248]], wr := [], trace := [] }
    { rd := [], wr := [], trace := [] } 1 0 Msg.writingData 0x12 0x34 7 248 [] [] []
    (by decide) (by decide) (by decide) (by decide) (by decide) (by decide) (by decide)
    (by decide) (by decide)).2.2.2

/-! ## Image buffer -/

/-- After loading a file of `n` bytes (`1 ≤ n ≤ 61440`), every byte of `data`
from index `n` on is 0x00. -/
theorem loaded_tail_zero (bytes : List Nat) (i : Nat) (h1 : 1 ≤ bytes.length)
    (hi : bytes.length ≤ i) (hi2 : i < 61440) :
    (writeAt dataInit 0 bytes).getD i 0xff = 0 := by
  have e : writeAt dataInit 0 bytes = bytes ++ dataInit.drop bytes.length := by
    simp [writeAt]
  rw [e, List.getD_eq_getElem?_getD, List.getElem?_append_right hi, List.getElem?_drop]
  have e2 : bytes.length + (i - bytes.length) = i := by omega
  rw [e2]
  obtain ⟨j, rfl⟩ : ∃ j, i = j + 1 := ⟨i - 1, by omega⟩
  simp only [dataInit, List.getElem?_cons_succ]
  rw [List.getElem?_replicate]
  rw [if_pos (by omega)]
  rfl

set_option maxRecDepth 100000 in
/-- C12 (code at the failing inputs). A file of the single byte 0x12 is
rounded to 4 bytes and the three bytes added are 0x00, not 0xFF: the firmware
update writes the payload `12 00 00 00`. A bootloader file of 1024 bytes is
padded with four bytes 0x00. -/
theorem image_tail_bytes_are_zero :
    (∃ data, loadImage (some [0x12]) { rd := [], wr := [], trace := [] } =
        .ok (data, 4) { rd := [], wr := [], trace := [] } ∧ data.take 4 = [0x12, 0, 0, 0]) ∧
    (main (fun _ => 0) 5 [] 1 (some [0x12]) true
        { rd := [some [0, 255], some [0, 255]], wr := [], trace := [] }).map
        (fun r => sent r.world.trace) =
      some (valueBytes 0 ++ valueBytes 3 ++ valueBytes 0 ++
        frame (fun _ => 0) [0x12, 0, 0, 0]) ∧
    (∃ data, loadImage (some (List.replicate 1024 0xaa)) { rd := [], wr := [], trace := [] } =
        .ok (data, 1024) { rd := [], wr := [], trace := [] } ∧ bootSize 1024 = some 1028 ∧
        (data.drop 1024).take 4 = [0, 0, 0, 0]) :=
  ⟨⟨_, rfl, by decide⟩, by decide, ⟨_, rfl, by decide, by decide⟩⟩

/-! ## Policy errors -/

/-- Whenever the probing loop returns on a line without OS error, it returns
normally and has written only PROBE values; at least one unless the loop is
entered in forced mode with the counter already at 20. -/
theorem probeLoop_sent (force d : Bool) : ∀ (fuel i : Nat) (w : World) (r : Res Unit),
    NoErr w.wr → NoErr w.rd → probeLoop force d fuel i w = some r →
    ∃ w1 n, r = .ok () w1 ∧ sent w1.trace = sent w.trace ++ probes n ∧
      NoErr w1.wr ∧ NoErr w1.rd ∧ ((force = false ∨ i < 20) → 1 ≤ n) := by
  intro fuel
  induction fuel with
  | zero => intro i w r _ _ h; simp [probeLoop] at h
  | succ fuel ih =>
    intro i w r hw hn h
    by_cases hc : (!force || decide (i < 20)) = true
    · obtain ⟨wr1, n1, e1⟩ := probe_send d w
        (if force = true then Out.countdown (20 - (i : Int)) else Out.spinner (i % 4)) hw
      obtain ⟨v, w2, e2, hn2, hw2, hs2⟩ := recvval_total
        { rd := w.rd, wr := wr1,
          trace := w.trace ++
            [Ev.out (if force = true then Out.countdown (20 - (i : Int))
              else Out.spinner (i % 4))] ++ (valueBytes 0).map Ev.tx } hn
      have hs : sent w2.trace = sent w.trace ++ probes 1 := by
        have hout : ∀ o : Out, sent [Ev.out o] = [] := fun _ => rfl
        rw [hs2]
        simp only [sent_append, sent_map_tx, hout, List.append_nil]
        rfl
      simp only [probeLoop, hc, if_true, e1, e2] at h
      by_cases h0 : v = 0
      · simp only [h0, if_true, Option.some.injEq] at h
        subst h
        exact ⟨w2, 1, rfl, hs, by rw [hw2]; exact n1, hn2, fun _ => Nat.le_refl _⟩
      · simp only [h0, if_false] at h
        obtain ⟨w3, n, e3, hs3, hw3, hn3, _⟩ := ih (i + 1) w2 r (by rw [hw2]; exact n1) hn2 h
        refine ⟨w3, n + 1, e3, ?_, hw3, hn3, fun _ => by omega⟩
        rw [hs3, hs]
        simp [probes]
    · simp only [probeLoop, hc, Bool.false_eq_true, if_false, Option.some.injEq] at h
      subst h
      refine ⟨w, 0, rfl, by simp [probes], hw, hn, ?_⟩
      intro h
      rcases h with h | h
      · simp [h] at hc
      · simp [h] at hc


/-- In bootloader mode with a rounded image size above 4096, `main` is the
probing loop followed by the fatal "Image too big" error. -/
theorem main_too_big (crc32 : List Nat → Nat) (fuel : Nat) (opts : List Opt) (argc : Nat)
    (bytes : List Nat) (w : World) (a : Args) (hp : parseargs opts argc = some a)
    (hv : a.version = false) (hf : a.filename = true) (hb : a.boot = true)
    (hsize : 4096 < (min bytes.length 61440 + 3) / 4 * 4) :
    main crc32 fuel opts argc (some bytes) true w =
      (match probeLoop a.force a.delay fuel 0 (w.log [Ev.out Out.probing]) with
       | none => none
       | some (.fatal f w1) => some (.fatal f w1)
       | some (.ok _ w1) => some (.fatal .tooBig w1)) := by
  have hsz : ¬ (min bytes.length 61440 + 3) / 4 * 4 = 0 := by omega
  have hbs : bootSize ((min bytes.length 61440 + 3) / 4 * 4) = none := by
    unfold bootSize
    rw [if_pos hsize]
  simp only [main, hp, hv, hf, loadImage, hsz, if_true, if_false, Bool.false_eq_true,
    session, hb, updateBootloader, hbs]

/-- C13 (counterexample). A bootloader image of 4097 bytes (rounded to 4100)
with a device that answers the first PROBE: the run ends with "Image too
big", but the PROBE value `00 FF` has been written before that error. -/
theorem too_big_after_probe_bytes :
    main (fun _ => 0) 5 [Opt.B] 1 (some (List.replicate 4097 0)) true
        { rd := [some [0, 255]], wr := [], trace := [] } =
      some (.fatal .tooBig
        { rd := [], wr := [],
          trace := [Ev.out Out.probing, Ev.out (Out.spinner 0), Ev.tx 0, Ev.tx 255,
            Ev.rx 0, Ev.rx 255] }) ∧
    sent [Ev.out Out.probing, Ev.out (Out.spinner 0), Ev.tx 0, Ev.tx 255,
      Ev.rx 0, Ev.rx 255] = [0, 255] := by
  constructor
  · rw [main_too_big (fun _ => 0) 5 [Opt.B] 1 (List.replicate 4097 0)
      { rd := [some [0, 255]], wr := [], trace := [] }
      { delay := false, force := false, boot := true, setwrp := 0, version := false,
        filename := true }
      (by decide) rfl rfl rfl (by rw [List.length_replicate]; decide)]
    decide
  · decide

/-- C13 (amended). In bootloader mode with a rounded image size above 4096
the run is the probing loop followed by the fatal "Image too big" error:
whenever the run ends (line without OS error), it ends with that error, and
the bytes written before it are PROBE values only, at least one; no UPDATE
value and no data block is written. An empty image is rejected ("Empty
data") before anything is written or printed, whether or not the device can
be opened. -/
theorem policy_errors_and_communication (crc32 : List Nat → Nat) (fuel : Nat)
    (opts : List Opt) (argc : Nat) (bytes : List Nat) (devOk : Bool) (w : World) (a : Args)
    (r : Res Int) (hp : parseargs opts argc = some a) (hv : a.version = false)
    (hf : a.filename = true) (hb : a.boot = true)
    (hsize : 4096 < (min bytes.length 61440 + 3) / 4 * 4) (hw : NoErr w.wr) (hn : NoErr w.rd)
    (hr : main crc32 fuel opts argc (some bytes) true w = some r) :
    main crc32 fuel opts argc (some bytes) true w =
      (match probeLoop a.force a.delay fuel 0 (w.log [Ev.out Out.probing]) with
       | none => none
       | some (.fatal f w1) => some (.fatal f w1)
       | some (.ok _ w1) => some (.fatal .tooBig w1)) ∧
    (∃ w1 n, r = .fatal .tooBig w1 ∧ 1 ≤ n ∧ sent w1.trace = sent w.trace ++ probes n) ∧
    main crc32 fuel opts argc (some []) devOk w = some (.fatal .emptyData w) := by
  have hmain := main_too_big crc32 fuel opts argc bytes w a hp hv hf hb hsize
  refine ⟨hmain, ?_, ?_⟩
  · rw [hmain] at hr
    cases hpl : probeLoop a.force a.delay fuel 0 (w.log [Ev.out Out.probing]) with
    | none => rw [hpl] at hr; cases hr
    | some r1 =>
      obtain ⟨w1, n, e1, hs1, _, _, hn1⟩ := probeLoop_sent a.force a.delay fuel 0
        (w.log [Ev.out Out.probing]) r1 hw hn hpl
      subst e1
      rw [hpl] at hr
      simp only [Option.some.injEq] at hr
      refine ⟨w1, n, hr.symm, hn1 (Or.inr (by decide)), ?_⟩
      rw [hs1]
      simp [World.log, sent_append, sent]
  · simp [main, hp, hv, hf, loadImage]

/-- Witness for C13 (amended): a bootloader image of 4097 bytes and a device
that answers the second PROBE. -/
theorem policy_errors_and_communication_witness :
    (∃ w1 n, Res.fatal (α := Int) .tooBig
        { rd := [], wr := [],
          trace := [Ev.out Out.probing, Ev.out (Out.spinner 0), Ev.tx 0, Ev.tx 255,
            Ev.timeout, Ev.out (Out.spinner 1), Ev.tx 0, Ev.tx 255,
            Ev.rx 0, Ev.rx 255] } = .fatal .tooBig w1 ∧ 1 ≤ n ∧
      sent w1.trace = sent [] ++ probes n) ∧
    main (fun _ => 0) 5 [Opt.B] 1 (some []) false
        { rd := [some [], some [0, 255]], wr := [], trace := [] } =
      some (.fatal .emptyData { rd := [some [], some [0, 255]], wr := [], trace := [] }) :=
  (policy_errors_and_communication (fun _ => 0) 5 [Opt.B] 1 (List.replicate 4097 0) false
    { rd := [some [], some [0, 255]], wr := [], trace := [] }
    { delay := false, force := false, boot := true, setwrp := 0, version := false,
      filename := true }
    (.fatal .tooBig
      { rd := [], wr := [],
        trace := [Ev.out Out.probing, Ev.out (Out.spinner 0), Ev.tx 0, Ev.tx 255,
          Ev.timeout, Ev.out (Out.spinner 1), Ev.tx 0, Ev.tx 255,
          Ev.rx 0, Ev.rx 255] })
    (by decide) (by decide) (by decide) (by decide)
    (by rw [List.length_replicate]; decide) (by decide) (by decide)
    (by
      rw [main_too_big (fun _ => 0) 5 [Opt.B] 1 (List.replicate 4097 0)
        { rd := [some [], some [0, 255]], wr := [], trace := [] }
        { delay := false, force := false, boot := true, setwrp := 0, version := false,
          filename := true }
        (by decide) rfl rfl rfl (by rw [List.length_replicate]; decide)]
      decide)).2

/-! ## Write protection -/

/-- C14. Set-write-protect exchange: the levels `0`, `1`, `2` (off,
bootloader, full) of option `-P` select the codes 0x33, 0x44, 0x55. For such a
code the branch writes the Value SETWRP (5) and then the Value of the code,
and then waits for an acknowledgement: with an OK answer (world `w`) it
prints "Done!"; with any other outcome (world `u`, no OS error) it is fatal
in non-forced mode ("Operation failed"). For level `1` the four bytes
written are `05 FA 44 BB`. After probing, a run with a level and no image is
this branch. -/
theorem set_write_protect_exchange (crc32 : List Nat → Nat) (fuel : Nat) (a : Args)
    (data : List Nat) (size : Nat) (w u p p1 : World) (rest : List Nat)
    (hcode : a.setwrp = 0x33 ∨ a.setwrp = 0x44 ∨ a.setwrp = 0x55)
    (hw : NoErr w.wr) (hrd : pending w.rd = acks 1 ++ rest)
    (hu : NoErr u.wr) (hun : NoErr u.rd) (hforce : a.force = false)
    (hfile : a.filename = false)
    (hprobe : probeLoop a.force a.delay fuel 0 p = some (.ok () p1)) :
    parseopts [Opt.P ['0']] Args.init = some { Args.init with setwrp := 0x33 } ∧
    parseopts [Opt.P ['1']] Args.init = some { Args.init with setwrp := 0x44 } ∧
    parseopts [Opt.P ['2']] Args.init = some { Args.init with setwrp := 0x55 } ∧
    (∃ rd1 wr1, pending rd1 = rest ∧
      setProtection a w =
        .ok ()
          { rd := rd1, wr := wr1,
            trace := w.trace ++ Ev.out Out.settingProtection ::
              ((valueBytes 5 ++ valueBytes a.setwrp).map Ev.tx ++ (valueBytes 0).map Ev.rx ++
                [Ev.out Out.done]) }) ∧
    (∃ wr2 res u1,
      recvval
          { rd := u.rd, wr := wr2,
            trace := u.trace ++ [Ev.out Out.settingProtection] ++ (valueBytes 5).map Ev.tx ++
              (valueBytes a.setwrp).map Ev.tx } = .ok res u1 ∧
      setProtection a u =
        (if res = 0 then .ok () (u1.log [Ev.out Out.done])
         else .fatal (.check res 0 Msg.operationFailed) u1)) ∧
    valueBytes 5 ++ valueBytes 0x44 = [0x05, 0xfa, 0x44, 0xbb] ∧
    session crc32 fuel a data size p =
      some (match setProtection a p1 with
        | .fatal f w3 => .fatal f w3
        | .ok _ w3 => .ok 0 w3) := by
  have hlt : a.setwrp < 256 := by omega
  have hne : a.setwrp ≠ 0 := by omega
  refine ⟨rfl, rfl, rfl, ?_, ?_, by decide, ?_⟩
  · obtain ⟨wr1, n1, e1⟩ := sendval_nat a.delay (w.log [Ev.out Out.settingProtection]) 5
      (by decide) hw
    obtain ⟨wr2, n2, e2⟩ := sendval_nat a.delay
      { rd := w.rd, wr := wr1,
        trace := w.trace ++ [Ev.out Out.settingProtection] ++ (valueBytes 5).map Ev.tx }
      a.setwrp hlt n1
    obtain ⟨rd3, h3, _, e3⟩ := recvack_ok a.force
      { rd := w.rd, wr := wr2,
        trace := w.trace ++ [Ev.out Out.settingProtection] ++ (valueBytes 5).map Ev.tx ++
          (valueBytes a.setwrp).map Ev.tx }
      Msg.operationFailed rest (by simpa [acks] using hrd)
    refine ⟨rd3, wr2, h3, ?_⟩
    simp only [World.log] at e1
    dsimp only at e2 e3
    simp only [setProtection, World.log]
    rw [show ((5 : Int)) = ((5 : Nat) : Int) from rfl, e1]
    dsimp only
    rw [e2]
    dsimp only
    rw [e3]
    simp [List.append_assoc]
  · obtain ⟨wr1, n1, e1⟩ := sendval_nat a.delay (u.log [Ev.out Out.settingProtection]) 5
      (by decide) hu
    obtain ⟨wr2, n2, e2⟩ := sendval_nat a.delay
      { rd := u.rd, wr := wr1,
        trace := u.trace ++ [Ev.out Out.settingProtection] ++ (valueBytes 5).map Ev.tx }
      a.setwrp hlt n1
    obtain ⟨res, u1, e3, _⟩ := recvval_total
      { rd := u.rd, wr := wr2,
        trace := u.trace ++ [Ev.out Out.settingProtection] ++ (valueBytes 5).map Ev.tx ++
          (valueBytes a.setwrp).map Ev.tx } hun
    refine ⟨wr2, res, u1, e3, ?_⟩
    simp only [World.log] at e1
    dsimp only at e2
    simp only [setProtection, World.log]
    rw [show ((5 : Int)) = ((5 : Nat) : Int) from rfl, e1]
    dsimp only
    rw [e2]
    dsimp only
    simp only [recvack, e3, checkres, hforce, Bool.false_eq_true, or_false]
    by_cases h0 : res = 0
    · simp [h0]
    · simp [h0]
  · simp only [session, hprobe, hfile, Bool.false_eq_true, if_false, hne, ne_eq,
      not_false_eq_true, if_true]
    cases setProtection a p1 <;> rfl

/-- Witness for C14: level `1` with a device that answers OK, and with a
device that answers ERROR; the whole run `-P 1` writes PROBE, SETWRP, 0x44. -/
theorem set_write_protect_exchange_witness :
    (∃ rd1 wr1, pending rd1 = [] ∧
      setProtection { Args.init with setwrp := 0x44 }
          { rd := [some [0, 255]], wr := [], trace := [] } =
        .ok ()
          { rd := rd1, wr := wr1,
            trace := [] ++ Ev.out Out.settingProtection ::
              ((valueBytes 5 ++ valueBytes 0x44).map Ev.tx ++ (valueBytes 0).map Ev.rx ++
                [Ev.out Out.done]) }) ∧
    (main (fun _ => 0) 5 [Opt.P ['1']] 0 none true
        { rd := [some [0, 255], some [0, 255]], wr := [], trace := [] }).map
        (fun r => sent r.world.trace) = some [0, 255, 0x05, 0xfa, 0x44, 0xbb] ∧
    (∃ w1, main (fun _ => 0) 5 [Opt.P ['1']] 0 none true
        { rd := [some [0, 255], some [1, 254]], wr := [], trace := [] } =
      some (.fatal (.check 1 0 Msg.operationFailed) w1)) :=
  ⟨(set_write_protect_exchange (fun _ => 0) 5 { Args.init with setwrp := 0x44 } [] 0
      { rd := [some [0, 255]], wr := [], trace := [] }
      { rd := [some [1, 254]], wr := [], trace := [] }
      { rd := [some [0, 255]], wr := [], trace := [] }
      { rd := [], wr := [],
        trace := [Ev.out (Out.spinner 0), Ev.tx 0, Ev.tx 255, Ev.rx 0, Ev.rx 255] } []
      (by decide) (by decide) (by decide) (by decide) (by decide) (by decide) (by decide)
      (by decide)).2.2.2.1, by decide, ⟨_, rfl⟩⟩

/-! ## Info query -/

/-- `recvdata` on a line that delivers the frame of `p`. -/
theorem recvdata_frame (crc32 : List Nat → Nat) (w : World) (buf p rest : List Nat)
    (h4 : p.length % 4 = 0) (hlo : 4 ≤ p.length) (hhi : p.length ≤ 1024)
    (hp : pending w.rd = frame crc32 p ++ rest) :
    ∃ rd1, pending rd1 = rest ∧ (NoErr w.rd → NoErr rd1) ∧
      recvdata crc32 w buf =
        .ok ((p.length : Int), writeAt buf 0 p)
          { rd := rd1, wr := w.wr, trace := w.trace ++ (frame crc32 p).map Ev.rx } := by
  obtain ⟨rd1, h1, n1, e⟩ := recvdata_block crc32 w buf p (bytes32 (crc32 p % 4294967296)) rest
    h4 hlo hhi (by simp [bytes32]) (by simpa [frame] using hp)
  rw [le32_bytes32 _ (Nat.mod_lt _ (by decide)), if_pos rfl] at e
  exact ⟨rd1, h1, n1, by simpa [frame] using e⟩

theorem getD_lt_of_forall (p : List Nat) (i : Nat) (hb : ∀ x ∈ p, x < 256)
    (hi : i < p.length) : p.getD i 0 < 256 := by
  rw [List.getD_eq_getElem _ _ hi]
  exact hb _ (List.getElem_mem _)

theorem writeAt_getD (buf p : List Nat) (i : Nat) (hi : i < p.length) :
    (writeAt buf 0 p).getD i 0 = p.getD i 0 := by
  simp only [writeAt, List.take_zero, List.nil_append, Nat.zero_add]
  rw [List.getD_eq_getElem?_getD, List.getD_eq_getElem?_getD, List.getElem?_append_left hi]

/-- C15. Firmware descriptor decoding: the info query writes INFO (1), reads
a block that must have 32 bytes and prints its first byte as bootloader
revision; then it writes READ (2), block 0 and the size value 4 and reads a
block that must have exactly 20 bytes (any other length is fatal, world `v`).
For every such 20-byte block `p2`: if its first two bytes are `EA 32` (the
word 0x32EA on a little-endian host) the output is the firmware revision
`p2[2]`, otherwise it is "Firmware not installed". After probing, a
non-forced run without image and without protection level is this query. -/
theorem firmware_descriptor_decoding (crc32 : List Nat → Nat) (fuel : Nat) (a : Args)
    (data p1 p2 p3 rest restv : List Nat) (size : Nat) (w v p q : World)
    (hw : NoErr w.wr) (h1 : p1.length = 32) (h2 : p2.length = 20) (hb : ∀ x ∈ p2, x < 256)
    (hrd : pending w.rd = frame crc32 p1 ++ frame crc32 p2 ++ rest)
    (hv : NoErr v.wr) (hforce : a.force = false)
    (h3a : p3.length % 4 = 0) (h3b : 4 ≤ p3.length) (h3c : p3.length ≤ 1024)
    (h3d : p3.length ≠ 20)
    (hvrd : pending v.rd = frame crc32 p1 ++ frame crc32 p3 ++ restv)
    (hfile : a.filename = false) (hwrp : a.setwrp = 0)
    (hprobe : probeLoop a.force a.delay fuel 0 p = some (.ok () q)) :
    (∃ rd1 wr1 data2, pending rd1 = rest ∧ data2.take 20 = p2 ∧
      queryInfo crc32 a data w =
        .ok data2
          { rd := rd1, wr := wr1,
            trace := w.trace ++ Ev.out Out.fetchingInfo ::
              ((valueBytes 1).map Ev.tx ++ (frame crc32 p1).map Ev.rx ++
                [Ev.out (Out.bootloaderRevision (p1.getD 0 0))] ++
                (valueBytes 2 ++ valueBytes 0 ++ valueBytes 4).map Ev.tx ++
                (frame crc32 p2).map Ev.rx ++
                [Ev.out (if p2.getD 0 0 = 0xea ∧ p2.getD 1 0 = 0x32
                  then Out.firmwareRevision (p2.getD 2 0) (cstring (data2.drop 4))
                  else Out.firmwareNotInstalled)]) }) ∧
    (∃ v1, queryInfo crc32 a data v =
      .fatal (.check (p3.length : Int) 20 Msg.readingData) v1) ∧
    session crc32 fuel a data size p =
      some (match queryInfo crc32 a data q with
        | .fatal f w3 => .fatal f w3
        | .ok _ w3 => .ok 0 w3) := by
  refine ⟨?_, ?_, ?_⟩
  · obtain ⟨wr1, n1, e1⟩ := sendval_nat a.delay (w.log [Ev.out Out.fetchingInfo]) 1
      (by decide) hw
    obtain ⟨rd2, h2', _, e2⟩ := recvdata_frame crc32
      { rd := w.rd, wr := wr1,
        trace := w.trace ++ [Ev.out Out.fetchingInfo] ++ (valueBytes 1).map Ev.tx }
      data p1 (frame crc32 p2 ++ rest) (by omega) (by omega) (by omega)
      (by rw [hrd, List.append_assoc])
    obtain ⟨wr3, n3, e3⟩ := sendval_nat a.delay
      { rd := rd2, wr := wr1,
        trace := w.trace ++ [Ev.out Out.fetchingInfo] ++ (valueBytes 1).map Ev.tx ++
          (frame crc32 p1).map Ev.rx ++ [Ev.out (Out.bootloaderRevision (p1.getD 0 0))] }
      2 (by decide) n1
    obtain ⟨wr4, n4, e4⟩ := sendval_nat a.delay
      { rd := rd2, wr := wr3,
        trace := w.trace ++ [Ev.out Out.fetchingInfo] ++ (valueBytes 1).map Ev.tx ++
          (frame crc32 p1).map Ev.rx ++ [Ev.out (Out.bootloaderRevision (p1.getD 0 0))] ++
          (valueBytes 2).map Ev.tx }
      0 (by decide) n3
    obtain ⟨wr5, n5, e5⟩ := sendval_nat a.delay
      { rd := rd2, wr := wr4,
        trace := w.trace ++ [Ev.out Out.fetchingInfo] ++ (valueBytes 1).map Ev.tx ++
          (frame crc32 p1).map Ev.rx ++ [Ev.out (Out.bootloaderRevision (p1.getD 0 0))] ++
          (valueBytes 2).map Ev.tx ++ (valueBytes 0).map Ev.tx }
      4 (by decide) n4
    obtain ⟨rd6, h6, _, e6⟩ := recvdata_frame crc32
      { rd := rd2, wr := wr5,
        trace := w.trace ++ [Ev.out Out.fetchingInfo] ++ (valueBytes 1).map Ev.tx ++
          (frame crc32 p1).map Ev.rx ++ [Ev.out (Out.bootloaderRevision (p1.getD 0 0))] ++
          (valueBytes 2).map Ev.tx ++ (valueBytes 0).map Ev.tx ++ (valueBytes 4).map Ev.tx }
      (writeAt data 0 p1) p2 rest (by omega) (by omega) (by omega) h2'
    have hg0 : (writeAt (writeAt data 0 p1) 0 p2).getD 0 0 = p2.getD 0 0 :=
      writeAt_getD _ _ 0 (by omega)
    have hg1 : (writeAt (writeAt data 0 p1) 0 p2).getD 1 0 = p2.getD 1 0 :=
      writeAt_getD _ _ 1 (by omega)
    have hg2 : (writeAt (writeAt data 0 p1) 0 p2).getD 2 0 = p2.getD 2 0 :=
      writeAt_getD _ _ 2 (by omega)
    have hp1 : (writeAt data 0 p1).getD 0 0 = p1.getD 0 0 := writeAt_getD _ _ 0 (by omega)
    have hl0 := getD_lt_of_forall p2 0 hb (by omega)
    have hl1 := getD_lt_of_forall p2 1 hb (by omega)
    have hmagic : (p2.getD 0 0 + 256 * p2.getD 1 0 = 0x32ea) ↔
        (p2.getD 0 0 = 0xea ∧ p2.getD 1 0 = 0x32) := by
      constructor
      · intro h; omega
      · rintro ⟨h, h'⟩; omega
    refine ⟨rd6, wr5, writeAt (writeAt data 0 p1) 0 p2, h6, ?_, ?_⟩
    · rw [← h2]
      exact writeAt_zero_take _ p2
    · simp only [World.log] at e1
      dsimp only at e2 e3 e4 e5 e6
      simp only [queryInfo, World.log]
      rw [show ((1 : Int)) = ((1 : Nat) : Int) from rfl, e1]
      dsimp only
      rw [e2]
      simp only [checkres, h1, Nat.cast_ofNat, true_or, if_true, hp1]
      rw [show ((2 : Int)) = ((2 : Nat) : Int) from rfl, e3]
      dsimp only
      rw [show ((0 : Int)) = ((0 : Nat) : Int) from rfl, e4]
      dsimp only
      rw [show ((4 : Int)) = ((4 : Nat) : Int) from rfl, e5]
      dsimp only
      rw [e6]
      simp only [h2, Nat.cast_ofNat, true_or, if_true, hg0, hg1, hg2, hmagic]
      by_cases hm : p2.getD 0 0 = 0xea ∧ p2.getD 1 0 = 0x32
      · rw [if_pos hm, if_pos hm]
        simp [List.append_assoc]
      · rw [if_neg hm, if_neg hm]
        simp [List.append_assoc]
  · obtain ⟨wr1, n1, e1⟩ := sendval_nat a.delay (v.log [Ev.out Out.fetchingInfo]) 1
      (by decide) hv
    obtain ⟨rd2, h2', _, e2⟩ := recvdata_frame crc32
      { rd := v.rd, wr := wr1,
        trace := v.trace ++ [Ev.out Out.fetchingInfo] ++ (valueBytes 1).map Ev.tx }
      data p1 (frame crc32 p3 ++ restv) (by omega) (by omega) (by omega)
      (by rw [hvrd, List.append_assoc])
    obtain ⟨wr3, n3, e3⟩ := sendval_nat a.delay
      { rd := rd2, wr := wr1,
        trace := v.trace ++ [Ev.out Out.fetchingInfo] ++ (valueBytes 1).map Ev.tx ++
          (frame crc32 p1).map Ev.rx ++ [Ev.out (Out.bootloaderRevision (p1.getD 0 0))] }
      2 (by decide) n1
    obtain ⟨wr4, n4, e4⟩ := sendval_nat a.delay
      { rd := rd2, wr := wr3,
        trace := v.trace ++ [Ev.out Out.fetchingInfo] ++ (valueBytes 1).map Ev.tx ++
          (frame crc32 p1).map Ev.rx ++ [Ev.out (Out.bootloaderRevision (p1.getD 0 0))] ++
          (valueBytes 2).map Ev.tx }
      0 (by decide) n3
    obtain ⟨wr5, n5, e5⟩ := sendval_nat a.delay
      { rd := rd2, wr := wr4,
        trace := v.trace ++ [Ev.out Out.fetchingInfo] ++ (valueBytes 1).map Ev.tx ++
          (frame crc32 p1).map Ev.rx ++ [Ev.out (Out.bootloaderRevision (p1.getD 0 0))] ++
          (valueBytes 2).map Ev.tx ++ (valueBytes 0).map Ev.tx }
      4 (by decide) n4
    obtain ⟨rd6, h6, _, e6⟩ := recvdata_frame crc32
      { rd := rd2, wr := wr5,
        trace := v.trace ++ [Ev.out Out.fetchingInfo] ++ (valueBytes 1).map Ev.tx ++
          (frame crc32 p1).map Ev.rx ++ [Ev.out (Out.bootloaderRevision (p1.getD 0 0))] ++
          (valueBytes 2).map Ev.tx ++ (valueBytes 0).map Ev.tx ++ (valueBytes 4).map Ev.tx }
      (writeAt data 0 p1) p3 restv h3a h3b h3c h2'
    have hp1 : (writeAt data 0 p1).getD 0 0 = p1.getD 0 0 := writeAt_getD _ _ 0 (by omega)
    have hne : ¬ ((p3.length : Int) = 20) := by exact_mod_cast h3d
    refine ⟨{ rd := rd6, wr := wr5,
              trace := v.trace ++ [Ev.out Out.fetchingInfo] ++ (valueBytes 1).map Ev.tx ++
                (frame crc32 p1).map Ev.rx ++
                [Ev.out (Out.bootloaderRevision (p1.getD 0 0))] ++
                (valueBytes 2).map Ev.tx ++ (valueBytes 0).map Ev.tx ++
                (valueBytes 4).map Ev.tx ++ (frame crc32 p3).map Ev.rx }, ?_⟩
    simp only [World.log] at e1
    dsimp only at e2 e3 e4 e5 e6
    simp only [queryInfo, World.log]
    rw [show ((1 : Int)) = ((1 : Nat) : Int) from rfl, e1]
    dsimp only
    rw [e2]
    simp only [checkres, h1, Nat.cast_ofNat, true_or, if_true, hp1]
    rw [show ((2 : Int)) = ((2 : Nat) : Int) from rfl, e3]
    dsimp only
    rw [show ((0 : Int)) = ((0 : Nat) : Int) from rfl, e4]
    dsimp only
    rw [show ((4 : Int)) = ((4 : Nat) : Int) from rfl, e5]
    dsimp only
    rw [e6]
    simp only [hne, hforce, Bool.false_eq_true, or_false, if_false]
  · have hprobe2 := hprobe
    rw [hforce] at hprobe2
    simp only [session, hfile, hforce, hwrp, hprobe2, Bool.false_eq_true, if_false, ne_eq,
      not_true_eq_false, Bool.not_false, Bool.and_self, if_true]
    cases queryInfo crc32 a data q with
    | ok x w3 => rfl
    | fatal f w3 => rfl

/-- Witness for C15: a descriptor with marker `EA 32` and third byte 3, and
a 24-byte block instead of the descriptor. -/
theorem firmware_descriptor_decoding_witness :
    (∃ rd1 wr1 data2, pending rd1 = [] ∧
      data2.take 20 = [0xea, 0x32, 3, 0, 0x45, 0x53, 0x43, 0, 0, 0, 0, 0, 0, 0, 0, 0, 0, 0, 0, 0] ∧
      queryInfo (fun _ => 0) Args.init dataInit
          { rd := [some (frame (fun _ => 0) (List.replicate 32 7) ++
              frame (fun _ => 0)
                [0xea, 0x32, 3, 0, 0x45, 0x53, 0x43, 0, 0, 0, 0, 0, 0, 0, 0, 0, 0, 0, 0, 0] ++
              [])],
            wr := [], trace := [] } =
        .ok data2
          { rd := rd1, wr := wr1,
            trace := [] ++ Ev.out Out.fetchingInfo ::
              ((valueBytes 1).map Ev.tx ++
                (frame (fun _ => 0) (List.replicate 32 7)).map Ev.rx ++
                [Ev.out (Out.bootloaderRevision 7)] ++
                (valueBytes 2 ++ valueBytes 0 ++ valueBytes 4).map Ev.tx ++
                (frame (fun _ => 0)
                  [0xea, 0x32, 3, 0, 0x45, 0x53, 0x43, 0, 0, 0, 0, 0, 0, 0, 0, 0, 0, 0, 0,
                    0]).map Ev.rx ++
                [Ev.out (Out.firmwareRevision 3 (cstring (data2.drop 4)))]) }) ∧
    (∃ v1, queryInfo (fun _ => 0) Args.init dataInit
        { rd := [some (frame (fun _ => 0) (List.replicate 32 7) ++
            frame (fun _ => 0) (List.replicate 24 1) ++ [])],
          wr := [], trace := [] } =
      .fatal (.check 24 20 Msg.readingData) v1) :=
  have h := firmware_descriptor_decoding (fun _ => 0) 5 Args.init dataInit
    (List.replicate 32 7)
    [0xea, 0x32, 3, 0, 0x45, 0x53, 0x43, 0, 0, 0, 0, 0, 0, 0, 0, 0, 0, 0, 0, 0]
    (List.replicate 24 1) [] [] 0
    { rd := [some (frame (fun _ => 0) (List.replicate 32 7) ++
        frame (fun _ => 0)
          [0xea, 0x32, 3, 0, 0x45, 0x53, 0x43, 0, 0, 0, 0, 0, 0, 0, 0, 0, 0, 0, 0, 0] ++ [])],
      wr := [], trace := [] }
    { rd := [some (frame (fun _ => 0) (List.replicate 32 7) ++
        frame (fun _ => 0) (List.replicate 24 1) ++ [])],
      wr := [], trace := [] }
    { rd := [some [0, 255]], wr := [], trace := [] }
    { rd := [], wr := [],
      trace := [Ev.out (Out.spinner 0), Ev.tx 0, Ev.tx 255, Ev.rx 0, Ev.rx 255] }
    (by decide) (by decide) (by decide) (by decide) (by decide) (by decide) (by decide)
    (by decide) (by decide) (by decide) (by decide) (by decide) (by decide) (by decide)
    (by decide)
  ⟨h.1, h.2.1⟩

/-! ## Branches of a run -/

theorem banners_append (a b : List Ev) : banners (a ++ b) = banners a ++ banners b := by
  induction a with
  | nil => rfl
  | cons e rest ih =>
    cases e with
    | out o => cases o <;> simp [banners, ih]
    | _ => simp [banners, ih]

theorem banners_map_tx (bs : List Nat) : banners (bs.map Ev.tx) = [] := by
  induction bs with
  | nil => rfl
  | cons b rest ih => simpa [banners] using ih

theorem banners_map_rx (bs : List Nat) : banners (bs.map Ev.rx) = [] := by
  induction bs with
  | nil => rfl
  | cons b rest ih => simpa [banners] using ih

theorem sendLoop_banners (d : Bool) : ∀ (fuel : Nat) (w : World) (buf : List Nat),
    banners (sendLoop d fuel w buf).world.trace = banners w.trace := by
  intro fuel
  induction fuel with
  | zero => intro w buf; rfl
  | succ fuel ih =>
    intro w buf
    obtain ⟨rd, wr, trace⟩ := w
    by_cases hb : buf.length = 0
    · simp [sendLoop, hb, Res.world]
    · simp only [sendLoop, hb, if_false]
      cases wr with
      | nil =>
        simp only [write]
        rw [ih]
        simp only [banners_append, banners_map_tx, List.append_nil]
      | cons e rest =>
        cases e with
        | none => simp [write, Res.world]
        | some k =>
          simp only [write]
          rw [ih]
          simp only [banners_append, banners_map_tx, List.append_nil]

theorem recvLoop_banners : ∀ (fuel : Nat) (w : World) (buf : List Nat) (off len : Nat),
    banners (recvLoop fuel w buf off len).world.trace = banners w.trace := by
  intro fuel
  induction fuel with
  | zero => intro w buf off len; rfl
  | succ fuel ih =>
    intro w buf off len
    obtain ⟨rd, wr, trace⟩ := w
    by_cases hl : len = 0
    · simp [recvLoop, hl, Res.world]
    · simp only [recvLoop, hl, if_false]
      cases rd with
      | nil => simp [read, World.log, Res.world, banners_append, banners]
      | cons e rest =>
        cases e with
        | none => simp [read, Res.world]
        | some b =>
          by_cases hb : b.length = 0
          · simp [read, hb, Res.world, banners_append, banners]
          · by_cases hle : b.length ≤ len
            · simp only [read, hb, hle, if_true, if_false]
              rw [ih]
              simp only [banners_append, banners_map_rx, List.append_nil]
            · have htl : (List.take len b).length = len := by
                simp [List.length_take]; omega
              simp only [read, hb, hle, if_false, htl, hl]
              rw [ih]
              simp only [banners_append, banners_map_rx, List.append_nil]

theorem sendval_banners (d : Bool) (w : World) (v : Int) :
    banners (sendval d w v).world.trace = banners w.trace :=
  sendLoop_banners d _ w _

theorem recv_banners (w : World) (buf : List Nat) (len : Nat) :
    banners (recv w buf len).world.trace = banners w.trace :=
  recvLoop_banners len w buf 0 len

theorem recvval_banners (w : World) :
    banners (recvval w).world.trace = banners w.trace := by
  have h := recv_banners w [0, 0] 2
  unfold recvval
  cases hr : recv w [0, 0] 2 with
  | ok a w1 =>
    rw [hr] at h
    obtain ⟨r, buf⟩ := a
    exact h
  | fatal f w1 =>
    rw [hr] at h
    exact h

theorem recvack_banners (force : Bool) (w : World) (msg : Msg) :
    banners (recvack force w msg).world.trace = banners w.trace := by
  have h := recvval_banners w
  unfold recvack
  cases hr : recvval w with
  | ok r w1 =>
    rw [hr] at h
    simp only [checkres]
    split <;> exact h
  | fatal f w1 =>
    rw [hr] at h
    exact h

theorem senddata_banners (crc32 : List Nat → Nat) (d : Bool) (w : World) (buf : List Nat)
    (len : Nat) : banners (senddata crc32 d w buf len).world.trace = banners w.trace := by
  have h1 := sendval_banners d w ((len / 4 : Nat) - 1)
  unfold senddata
  cases hr1 : sendval d w ((len / 4 : Nat) - 1) with
  | fatal f w1 => rw [hr1] at h1; exact h1
  | ok x w1 =>
    rw [hr1] at h1
    have h2 := sendLoop_banners d (w1.wr.length + (buf.take len).length) w1 (buf.take len)
    simp only
    cases hr2 : send d w1 (buf.take len) with
    | fatal f w2 =>
      unfold send at hr2
      rw [hr2] at h2
      exact h2.trans h1
    | ok y w2 =>
      unfold send at hr2
      rw [hr2] at h2
      simp only
      exact ((sendLoop_banners d _ w2 _).trans h2).trans h1

theorem recvdata_banners (crc32 : List Nat → Nat) (w : World) (buf : List Nat) :
    banners (recvdata crc32 w buf).world.trace = banners w.trace := by
  have h1 := recvval_banners w
  unfold recvdata
  cases hr1 : recvval w with
  | fatal f w1 => rw [hr1] at h1; exact h1
  | ok cnt w1 =>
    rw [hr1] at h1
    simp only
    split
    · exact h1
    · have h2 := recv_banners w1 buf ((cnt + 1) * 4).toNat
      cases hr2 : recv w1 buf ((cnt + 1) * 4).toNat with
      | fatal f w2 => rw [hr2] at h2; exact h2.trans h1
      | ok x w2 =>
        rw [hr2] at h2
        obtain ⟨r1, buf1⟩ := x
        simp only
        split
        · exact h2.trans h1
        · have h3 := recv_banners w2 [0, 0, 0, 0] 4
          cases hr3 : recv w2 [0, 0, 0, 0] 4 with
          | fatal f w3 => rw [hr3] at h3; exact (h3.trans h2).trans h1
          | ok y w3 =>
            rw [hr3] at h3
            obtain ⟨r2, crc⟩ := y
            simp only
            split <;> exact (h3.trans h2).trans h1

theorem probeLoop_banners (force d : Bool) : ∀ (fuel i : Nat) (w : World) (r : Res Unit),
    probeLoop force d fuel i w = some r → banners r.world.trace = banners w.trace := by
  intro fuel
  induction fuel with
  | zero => intro i w r h; simp [probeLoop] at h
  | succ fuel ih =>
    intro i w r h
    have hlog : ∀ o : Out, (o = Out.countdown (20 - (i : Int)) ∨ o = Out.spinner (i % 4)) →
        banners (w.log [Ev.out o]).trace = banners w.trace := by
      intro o ho
      rcases ho with ho | ho <;> subst ho <;> simp [World.log, banners_append, banners]
    by_cases hc : (!force || decide (i < 20)) = true
    · simp only [probeLoop, hc, if_true] at h
      have hw0 := hlog (if force = true then Out.countdown (20 - (i : Int))
        else Out.spinner (i % 4)) (by cases force <;> simp)
      have h1 := sendval_banners d (w.log [Ev.out (if force = true then
        Out.countdown (20 - (i : Int)) else Out.spinner (i % 4))]) 0
      cases hr1 : sendval d (w.log [Ev.out (if force = true then
          Out.countdown (20 - (i : Int)) else Out.spinner (i % 4))]) 0 with
      | fatal f w1 =>
        rw [hr1] at h h1
        simp only [Option.some.injEq] at h
        subst h
        exact h1.trans hw0
      | ok x w1 =>
        rw [hr1] at h h1
        simp only at h
        have h2 := recvval_banners w1
        cases hr2 : recvval w1 with
        | fatal f w2 =>
          rw [hr2] at h h2
          simp only [Option.some.injEq] at h
          subst h
          exact (h2.trans h1).trans hw0
        | ok v w2 =>
          rw [hr2] at h h2
          simp only at h
          by_cases h0 : v = 0
          · simp only [h0, if_true, Option.some.injEq] at h
            subst h
            exact (h2.trans h1).trans hw0
          · simp only [h0, if_false] at h
            exact ((ih (i + 1) w2 r h).trans h2).trans (h1.trans hw0)
    · simp only [probeLoop, hc, Bool.false_eq_true, if_false, Option.some.injEq] at h
      subst h
      rfl

theorem fwLoop_banners (crc32 : List Nat → Nat) (force d : Bool) (data : List Nat)
    (size : Nat) : ∀ (fuel pos : Nat) (w : World) (r : Res Unit),
    fwLoop crc32 force d data size fuel pos w = some r →
    banners r.world.trace = banners w.trace := by
  intro fuel
  induction fuel with
  | zero => intro pos w r h; simp [fwLoop] at h
  | succ fuel ih =>
    intro pos w r h
    by_cases hc : pos < size
    · simp only [fwLoop, hc, if_true] at h
      have hw0 : banners (w.log [Ev.out (Out.progress (pos * 100 / size))]).trace =
          banners w.trace := by simp [World.log, banners_append, banners]
      have h1 := sendval_banners d (w.log [Ev.out (Out.progress (pos * 100 / size))]) 3
      cases hr1 : sendval d (w.log [Ev.out (Out.progress (pos * 100 / size))]) 3 with
      | fatal f w1 =>
        rw [hr1] at h h1
        simp only [Option.some.injEq] at h
        subst h
        exact h1.trans hw0
      | ok x w1 =>
        rw [hr1] at h h1
        simp only at h
        have h2 := sendval_banners d w1 ((pos / 1024 : Nat) : Int)
        cases hr2 : sendval d w1 ((pos / 1024 : Nat) : Int) with
        | fatal f w2 =>
          rw [hr2] at h h2
          simp only [Option.some.injEq] at h
          subst h
          exact (h2.trans h1).trans hw0
        | ok y w2 =>
          rw [hr2] at h h2
          simp only at h
          have h3 := senddata_banners crc32 d w2 (data.drop pos) (maxlen pos size)
          cases hr3 : senddata crc32 d w2 (data.drop pos) (maxlen pos size) with
          | fatal f w3 =>
            rw [hr3] at h h3
            simp only [Option.some.injEq] at h
            subst h
            exact ((h3.trans h2).trans h1).trans hw0
          | ok z w3 =>
            rw [hr3] at h h3
            simp only at h
            have h4 := recvack_banners force w3 Msg.writingData
            cases hr4 : recvack force w3 Msg.writingData with
            | fatal f w4 =>
              rw [hr4] at h h4
              simp only [Option.some.injEq] at h
              subst h
              exact (((h4.trans h3).trans h2).trans h1).trans hw0
            | ok u w4 =>
              rw [hr4] at h h4
              simp only at h
              exact (ih (pos + 1024) w4 r h).trans
                ((((h4.trans h3).trans h2).trans h1).trans hw0)
    · simp only [fwLoop, hc, if_false, Option.some.injEq] at h
      subst h
      rfl

theorem bootLoop_banners (crc32 : List Nat → Nat) (force d : Bool) (data : List Nat)
    (size : Nat) : ∀ (fuel pos : Nat) (w : World) (r : Res Unit),
    bootLoop crc32 force d data size fuel pos w = some r →
    banners r.world.trace = banners w.trace := by
  intro fuel
  induction fuel with
  | zero => intro pos w r h; simp [bootLoop] at h
  | succ fuel ih =>
    intro pos w r h
    by_cases hc : pos < size
    · simp only [bootLoop, hc, if_true] at h
      have hw0 : banners (w.log [Ev.out (Out.progress (pos * 100 / size))]).trace =
          banners w.trace := by simp [World.log, banners_append, banners]
      have h3 := senddata_banners crc32 d (w.log [Ev.out (Out.progress (pos * 100 / size))])
        (data.drop pos) (maxlen pos size)
      cases hr3 : senddata crc32 d (w.log [Ev.out (Out.progress (pos * 100 / size))])
          (data.drop pos) (maxlen pos size) with
      | fatal f w3 =>
        rw [hr3] at h h3
        simp only [Option.some.injEq] at h
        subst h
        exact h3.trans hw0
      | ok z w3 =>
        rw [hr3] at h h3
        simp only at h
        have h4 := recvack_banners force w3 Msg.writingData
        cases hr4 : recvack force w3 Msg.writingData with
        | fatal f w4 =>
          rw [hr4] at h h4
          simp only [Option.some.injEq] at h
          subst h
          exact (h4.trans h3).trans hw0
        | ok u w4 =>
          rw [hr4] at h h4
          simp only at h
          exact (ih (pos + 1024) w4 r h).trans ((h4.trans h3).trans hw0)
    · simp only [bootLoop, hc, if_false, Option.some.injEq] at h
      subst h
      rfl

theorem updateFirmware_banners (crc32 : List Nat → Nat) (fuel : Nat) (a : Args)
    (data : List Nat) (size : Nat) (w : World) (r : Res Unit)
    (h : updateFirmware crc32 fuel a data size w = some r) :
    banners r.world.trace = banners w.trace ++ [Out.updatingFirmware] := by
  have h1 := fwLoop_banners crc32 a.force a.delay data size fuel 0
    (w.log [Ev.out Out.updatingFirmware]) r h
  rw [h1]
  simp [World.log, banners_append, banners]

theorem updateBootloader_banners (crc32 : List Nat → Nat) (fuel : Nat) (a : Args)
    (data : List Nat) (size : Nat) (w : World) (r : Res Unit)
    (h : updateBootloader crc32 fuel a data size w = some r) :
    banners r.world.trace = banners w.trace ++ [Out.updatingBootloader] ∨
      ((∀ w1, r ≠ .ok () w1) ∧ banners r.world.trace = banners w.trace) := by
  unfold updateBootloader at h
  cases hs : bootSize size with
  | none =>
    rw [hs] at h
    simp only [Option.some.injEq] at h
    subst h
    exact Or.inr ⟨fun w1 hc => (by cases hc), rfl⟩
  | some size1 =>
    rw [hs] at h
    simp only at h
    left
    have hw0 : banners (w.log [Ev.out Out.updatingBootloader]).trace =
        banners w.trace ++ [Out.updatingBootloader] := by
      simp [World.log, banners_append, banners]
    have h1 := sendval_banners a.delay (w.log [Ev.out Out.updatingBootloader]) 4
    cases hr1 : sendval a.delay (w.log [Ev.out Out.updatingBootloader]) 4 with
    | fatal f w1 =>
      rw [hr1] at h h1
      simp only [Option.some.injEq] at h
      subst h
      exact h1.trans hw0
    | ok x w1 =>
      rw [hr1] at h h1
      simp only at h
      cases hr2 : bootLoop crc32 a.force a.delay data size1 fuel 0 w1 with
      | none => rw [hr2] at h; cases h
      | some r2 =>
        have h2 := bootLoop_banners crc32 a.force a.delay data size1 fuel 0 w1 r2 hr2
        rw [hr2] at h
        cases r2 with
        | fatal f w2 =>
          simp only [Option.some.injEq] at h
          subst h
          exact (h2.trans h1).trans hw0
        | ok y w2 =>
          simp only [Option.some.injEq] at h
          subst h
          exact ((recvack_banners a.force w2 Msg.updateFailed).trans h2).trans (h1.trans hw0)

theorem setProtection_banners (a : Args) (w : World) :
    banners (setProtection a w).world.trace = banners w.trace ++ [Out.settingProtection] := by
  have hw0 : banners (w.log [Ev.out Out.settingProtection]).trace =
      banners w.trace ++ [Out.settingProtection] := by
    simp [World.log, banners_append, banners]
  have h1 := sendval_banners a.delay (w.log [Ev.out Out.settingProtection]) 5
  unfold setProtection
  cases hr1 : sendval a.delay (w.log [Ev.out Out.settingProtection]) 5 with
  | fatal f w1 => rw [hr1] at h1; exact h1.trans hw0
  | ok x w1 =>
    rw [hr1] at h1
    simp only
    have h2 := sendval_banners a.delay w1 (a.setwrp : Int)
    cases hr2 : sendval a.delay w1 (a.setwrp : Int) with
    | fatal f w2 => rw [hr2] at h2; exact (h2.trans h1).trans hw0
    | ok y w2 =>
      rw [hr2] at h2
      simp only
      have h3 := recvack_banners a.force w2 Msg.operationFailed
      cases hr3 : recvack a.force w2 Msg.operationFailed with
      | fatal f w3 => rw [hr3] at h3; exact ((h3.trans h2).trans h1).trans hw0
      | ok z w3 =>
        rw [hr3] at h3
        simp only [Res.world, World.log, banners_append, banners, List.append_nil]
        exact ((h3.trans h2).trans h1).trans hw0

theorem checkres_world (force : Bool) (w : World) (res val : Int) (msg : Msg) :
    (checkres force w res val msg).world = w := by
  unfold checkres
  split <;> rfl

theorem queryInfo_banners (crc32 : List Nat → Nat) (a : Args) (data : List Nat) (w : World) :
    banners (queryInfo crc32 a data w).world.trace = banners w.trace ++ [Out.fetchingInfo] := by
  have hw0 : banners (w.log [Ev.out Out.fetchingInfo]).trace =
      banners w.trace ++ [Out.fetchingInfo] := by
    simp [World.log, banners_append, banners]
  have h1 := sendval_banners a.delay (w.log [Ev.out Out.fetchingInfo]) 1
  unfold queryInfo
  cases hr1 : sendval a.delay (w.log [Ev.out Out.fetchingInfo]) 1 with
  | fatal f w1 => rw [hr1] at h1; exact h1.trans hw0
  | ok x w1 =>
    rw [hr1] at h1
    simp only
    have h2 := recvdata_banners crc32 w1 data
    cases hr2 : recvdata crc32 w1 data with
    | fatal f w2 => rw [hr2] at h2; exact (h2.trans h1).trans hw0
    | ok y w2 =>
      rw [hr2] at h2
      obtain ⟨r, data1⟩ := y
      simp only
      have h3 := checkres_world a.force w2 r 32 Msg.readingData
      cases hr3 : checkres a.force w2 r 32 Msg.readingData with
      | fatal f w3 =>
        rw [hr3] at h3
        simp only [Res.world] at h3 ⊢
        rw [h3]
        exact (h2.trans h1).trans hw0
      | ok z w3 =>
        rw [hr3] at h3
        simp only [Res.world] at h3
        subst h3
        simp only
        have hb : banners (w3.log [Ev.out (Out.bootloaderRevision (data1.getD 0 0))]).trace =
            banners w3.trace := by simp [World.log, banners_append, banners]
        have h4 := sendval_banners a.delay
          (w3.log [Ev.out (Out.bootloaderRevision (data1.getD 0 0))]) 2
        have hpre := (hb.trans h2).trans (h1.trans hw0)
        cases hr4 : sendval a.delay
            (w3.log [Ev.out (Out.bootloaderRevision (data1.getD 0 0))]) 2 with
        | fatal f w4 => rw [hr4] at h4; exact h4.trans hpre
        | ok u w4 =>
          rw [hr4] at h4
          simp only
          have h5 := sendval_banners a.delay w4 0
          cases hr5 : sendval a.delay w4 0 with
          | fatal f w5 => rw [hr5] at h5; exact (h5.trans h4).trans hpre
          | ok u5 w5 =>
            rw [hr5] at h5
            simp only
            have h6 := sendval_banners a.delay w5 4
            cases hr6 : sendval a.delay w5 4 with
            | fatal f w6 => rw [hr6] at h6; exact ((h6.trans h5).trans h4).trans hpre
            | ok u6 w6 =>
              rw [hr6] at h6
              simp only
              have h7 := recvdata_banners crc32 w6 data1
              cases hr7 : recvdata crc32 w6 data1 with
              | fatal f w7 =>
                rw [hr7] at h7
                exact (((h7.trans h6).trans h5).trans h4).trans hpre
              | ok y7 w7 =>
                rw [hr7] at h7
                obtain ⟨r2, data2⟩ := y7
                simp only
                have hall := (((h7.trans h6).trans h5).trans h4).trans hpre
                have h8 := checkres_world a.force w7 r2 20 Msg.readingData
                cases hr8 : checkres a.force w7 r2 20 Msg.readingData with
                | fatal f w8 =>
                  rw [hr8] at h8
                  simp only [Res.world] at h8 ⊢
                  rw [h8]
                  exact hall
                | ok z8 w8 =>
                  rw [hr8] at h8
                  simp only [Res.world] at h8
                  subst h8
                  simp only
                  split
                  · simp only [Res.world, World.log, banners_append, banners,
                      List.append_nil]
                    exact hall
                  · simp only [Res.world, World.log, banners_append, banners,
                      List.append_nil]
                    exact hall

theorem parseopts_filename : ∀ (opts : List Opt) (a0 a : Args),
    parseopts opts a0 = some a → a.filename = a0.filename := by
  intro opts
  induction opts with
  | nil => intro a0 a h; simp only [parseopts, Option.some.injEq] at h; rw [← h]
  | cons o rest ih =>
    intro a0 a h
    cases o with
    | d => exact ih _ _ (by simpa [parseopts] using h)
    | f =>
      simp only [parseopts] at h
      exact (ih _ _ h).trans rfl
    | B =>
      simp only [parseopts] at h
      exact (ih _ _ h).trans rfl
    | V =>
      simp only [parseopts] at h
      exact (ih _ _ h).trans rfl
    | other => simp [parseopts] at h
    | P optarg =>
      unfold parseopts at h
      split at h
      · exact (ih _ _ h).trans rfl
      · exact (ih _ _ h).trans rfl
      · exact (ih _ _ h).trans rfl
      · cases h

/-- A configuration accepted by `parseargs` without an image is not forced. -/
theorem parseargs_accepts (opts : List Opt) (argc : Nat) (a : Args)
    (h : parseargs opts argc = some a) : a.filename = false → a.force = false := by
  unfold parseargs at h
  cases hp : parseopts opts Args.init with
  | none => rw [hp] at h; cases h
  | some a1 =>
    rw [hp] at h
    simp only at h
    by_cases h0 : argc = 0
    · simp only [h0, if_true] at h
      by_cases hf : a1.force = true
      · simp [hf] at h
      · simp only [hf, Bool.false_eq_true, if_false, Option.some.injEq] at h
        subst h
        intro _
        simpa using hf
    · simp only [h0, if_false] at h
      by_cases h1 : argc > 1
      · simp [h1] at h
      · simp only [h1, if_false, Option.some.injEq] at h
        subst h
        intro hc
        cases hc

/-- The second stage of the dispatch in `main` (`if (setwrp) ... else if
(!filename && !force) ...`) announces exactly what `plan` lists. -/
theorem stage2_banners (crc32 : List Nat → Nat) (a : Args) (data : List Nat) (w2 : World)
    (r : Res Int)
    (h : (if a.setwrp ≠ 0 then
            match setProtection a w2 with
            | .fatal f w3 => some (.fatal f w3)
            | .ok _ w3 => some (.ok 0 w3)
          else if (!a.filename && !a.force) = true then
            match queryInfo crc32 a data w2 with
            | .fatal f w3 => some (.fatal f w3)
            | .ok _ w3 => some (.ok 0 w3)
          else some (.ok 0 w2)) = some r) :
    banners r.world.trace = banners w2.trace ++
      (if a.setwrp ≠ 0 then [Out.settingProtection]
       else if (!a.filename && !a.force) = true then [Out.fetchingInfo] else []) := by
  by_cases hs : a.setwrp ≠ 0
  · rw [if_pos hs] at h ⊢
    have hb := setProtection_banners a w2
    cases hr : setProtection a w2 with
    | fatal f w3 =>
      rw [hr] at h hb
      simp only [Option.some.injEq] at h
      subst h
      exact hb
    | ok x w3 =>
      rw [hr] at h hb
      simp only [Option.some.injEq] at h
      subst h
      exact hb
  · rw [if_neg hs] at h ⊢
    by_cases hi : (!a.filename && !a.force) = true
    · rw [if_pos hi] at h ⊢
      have hb := queryInfo_banners crc32 a data w2
      cases hr : queryInfo crc32 a data w2 with
      | fatal f w3 =>
        rw [hr] at h hb
        simp only [Option.some.injEq] at h
        subst h
        exact hb
      | ok x w3 =>
        rw [hr] at h hb
        simp only [Option.some.injEq] at h
        subst h
        exact hb
    · rw [if_neg hi] at h ⊢
      simp only [Option.some.injEq] at h
      subst h
      simp [Res.world]

theorem session_banners (crc32 : List Nat → Nat) (fuel : Nat) (a : Args) (data : List Nat)
    (size : Nat) (w : World) (r : Res Int)
    (h : session crc32 fuel a data size w = some r) :
    ∃ B, banners r.world.trace = banners w.trace ++ B ∧ B <+: plan a ∧
      ((∃ w1, r = .ok 0 w1) → B = plan a) := by
  unfold session at h
  cases hp : probeLoop a.force a.delay fuel 0 w with
  | none => rw [hp] at h; cases h
  | some r1 =>
    have hb1 := probeLoop_banners a.force a.delay fuel 0 w r1 hp
    rw [hp] at h
    cases r1 with
    | fatal f w1 =>
      simp only [Option.some.injEq] at h
      subst h
      exact ⟨[], by simpa [Res.world] using hb1, List.nil_prefix, fun ⟨w1, hc⟩ => by cases hc⟩
    | ok x w1 =>
      simp only [Res.world] at hb1
      simp only at h
      by_cases hf : a.filename = true
      · simp only [hf, if_true] at h
        have key : ∀ (u : Option (Res Unit)) (bn : Out),
            (∀ ru, u = some ru → banners ru.world.trace = banners w1.trace ++ [bn] ∨
              ((∀ w', ru ≠ .ok () w') ∧ banners ru.world.trace = banners w1.trace)) →
            (match ((match u with
                | none => none
                | some (Res.fatal f w2) => some (Res.fatal f w2)
                | some (Res.ok _ w2) => some (Res.ok () (w2.log [Ev.out Out.done]))) :
                  Option (Res Unit)) with
              | none => none
              | some (Res.fatal f w2) => some (Res.fatal f w2)
              | some (Res.ok _ w2) =>
                if a.setwrp ≠ 0 then
                  match setProtection a w2 with
                  | Res.fatal f w3 => some (Res.fatal f w3)
                  | Res.ok _ w3 => some (Res.ok 0 w3)
                else if (!true && !a.force) = true then
                  match queryInfo crc32 a data w2 with
                  | Res.fatal f w3 => some (Res.fatal f w3)
                  | Res.ok _ w3 => some (Res.ok 0 w3)
                else some (Res.ok 0 w2)) = some r →
            ∃ B, banners r.world.trace = banners w.trace ++ B ∧
              B <+: [bn] ++ (if a.setwrp ≠ 0 then [Out.settingProtection] else []) ∧
              ((∃ w1, r = .ok 0 w1) →
                B = [bn] ++ (if a.setwrp ≠ 0 then [Out.settingProtection] else [])) := by
          intro u bn hu hm
          cases u with
          | none => cases hm
          | some ru =>
            have hru := hu ru rfl
            cases ru with
            | fatal f w2 =>
              simp only [Option.some.injEq] at hm
              subst hm
              rcases hru with hru | ⟨_, hru⟩
              · refine ⟨[bn], ?_, List.prefix_append _ _, fun ⟨w', hc⟩ => by cases hc⟩
                simp only [Res.world] at hru ⊢
                rw [hru, hb1]
              · refine ⟨[], ?_, List.nil_prefix, fun ⟨w', hc⟩ => by cases hc⟩
                simp only [Res.world] at hru ⊢
                rw [hru, hb1, List.append_nil]
            | ok y w2 =>
              rcases hru with hru | ⟨hno, _⟩
              · simp only [Res.world] at hru
                have h2 := stage2_banners crc32 { a with filename := true } data
                  (w2.log [Ev.out Out.done]) r
                simp only at hm
                have h3 := h2 hm
                refine ⟨_, ?_, List.prefix_refl _, fun _ => rfl⟩
                rw [h3]
                simp only [World.log, banners_append, banners, List.append_nil, hru, hb1,
                  Bool.not_true, Bool.false_and, Bool.false_eq_true, if_false,
                  List.append_assoc]
              · exact absurd rfl (hno w2)
        have hplan : plan a = [if a.boot = true then Out.updatingBootloader
            else Out.updatingFirmware] ++
            (if a.setwrp ≠ 0 then [Out.settingProtection] else []) := by
          simp [plan, hf]
        rw [hplan]
        by_cases hb : a.boot = true
        · simp only [hb, if_true] at h ⊢
          exact key _ Out.updatingBootloader
            (fun ru hru => updateBootloader_banners crc32 fuel a data size w1 ru hru) h
        · simp only [hb, Bool.false_eq_true, if_false] at h ⊢
          exact key _ Out.updatingFirmware
            (fun ru hru => Or.inl (updateFirmware_banners crc32 fuel a data size w1 ru hru)) h
      · have hf2 : a.filename = false := by simpa using hf
        simp only [hf2, Bool.false_eq_true, if_false] at h
        have h3 := stage2_banners crc32 a data w1 r (by simpa [hf2] using h)
        refine ⟨_, ?_, List.prefix_refl _, fun _ => rfl⟩
        rw [h3, hb1]
        simp [plan, hf2]

theorem plan_facts (a : Args) (hacc : a.filename = false → a.force = false) :
    plan a ≠ [] ∧ (plan a).length ≤ 2 ∧
    ¬ (Out.updatingBootloader ∈ plan a ∧ Out.updatingFirmware ∈ plan a) ∧
    (Out.fetchingInfo ∈ plan a → plan a = [Out.fetchingInfo]) ∧
    ((Out.updatingBootloader ∈ plan a ∨ Out.updatingFirmware ∈ plan a) ↔ a.filename = true) ∧
    (Out.updatingBootloader ∈ plan a → a.boot = true) ∧
    (Out.updatingFirmware ∈ plan a → a.boot = false) ∧
    (Out.settingProtection ∈ plan a ↔ a.setwrp ≠ 0) ∧
    (Out.fetchingInfo ∈ plan a ↔ (a.filename = false ∧ a.setwrp = 0)) := by
  obtain ⟨delay, force, boot, setwrp, version, filename⟩ := a
  simp only at hacc
  by_cases hs : setwrp = 0 <;> cases filename <;> cases boot <;> cases force <;>
    simp [plan, hs] at hacc ⊢

set_option maxRecDepth 100000 in
/-- C16 (counterexample). The accepted command line `-P 1 image` with a
device that acknowledges: the run executes the firmware update and then also
sets the write protection. -/
theorem update_and_protect_in_one_run :
    parseargs [Opt.P ['1']] 1 =
      some { delay := false, force := false, boot := false, setwrp := 0x44, version := false,
             filename := true } ∧
    (main (fun _ => 0) 5 [Opt.P ['1']] 1 (some [1, 2, 3, 4]) true
        { rd := [some [0, 255], some [0, 255], some [0, 255]], wr := [], trace := [] }).map
        (fun r => banners r.world.trace) =
      some [Out.updatingFirmware, Out.settingProtection] ∧
    (∃ w1, main (fun _ => 0) 5 [Opt.P ['1']] 1 (some [1, 2, 3, 4]) true
        { rd := [some [0, 255], some [0, 255], some [0, 255]], wr := [], trace := [] } =
      some (.ok 0 w1)) :=
  ⟨by decide, by decide, ⟨_, rfl⟩⟩

/-- C16 (amended). For every configuration accepted by argument parsing that
does not just print the version, the branches announced in a run are, in
order, a prefix of `plan`, and all of `plan` when the run returns status 0:
one update branch if and only if an image is given (Updating-Bootloader with
the boot flag, Updating-Firmware without; never both), then SettingProtect if
and only if a level is requested, and Querying-Info if and only if neither
image nor level is given. So at least one and at most two branches are
planned, Querying-Info never runs together with another branch, and an
update and SettingProtect both run when image and level are given. -/
theorem branches_of_a_run (crc32 : List Nat → Nat) (fuel : Nat) (opts : List Opt)
    (argc : Nat) (file : Option (List Nat)) (devOk : Bool) (w : World) (a : Args)
    (r : Res Int) (hp : parseargs opts argc = some a) (hv : a.version = false)
    (hr : main crc32 fuel opts argc file devOk w = some r) :
    (∃ B, banners r.world.trace = banners w.trace ++ B ∧ B <+: plan a ∧
      ((∃ w1, r = .ok 0 w1) → B = plan a)) ∧
    plan a ≠ [] ∧ (plan a).length ≤ 2 ∧
    ¬ (Out.updatingBootloader ∈ plan a ∧ Out.updatingFirmware ∈ plan a) ∧
    (Out.fetchingInfo ∈ plan a → plan a = [Out.fetchingInfo]) ∧
    ((Out.updatingBootloader ∈ plan a ∨ Out.updatingFirmware ∈ plan a) ↔ a.filename = true) ∧
    (Out.updatingBootloader ∈ plan a → a.boot = true) ∧
    (Out.updatingFirmware ∈ plan a → a.boot = false) ∧
    (Out.settingProtection ∈ plan a ↔ a.setwrp ≠ 0) ∧
    (Out.fetchingInfo ∈ plan a ↔ (a.filename = false ∧ a.setwrp = 0)) := by
  refine ⟨?_, plan_facts a (parseargs_accepts opts argc a hp)⟩
  have hne : plan a ≠ [] := (plan_facts a (parseargs_accepts opts argc a hp)).1
  have hfatal : ∀ (f : Fatal) (w1 : World), banners w1.trace = banners w.trace →
      r = .fatal f w1 →
      ∃ B, banners r.world.trace = banners w.trace ++ B ∧ B <+: plan a ∧
        ((∃ w1, r = .ok 0 w1) → B = plan a) := by
    intro f w1 hb hrf
    subst hrf
    exact ⟨[], by simpa [Res.world] using hb, List.nil_prefix, fun ⟨w', hc⟩ => by cases hc⟩
  have hprobing : banners (w.log [Ev.out Out.probing]).trace = banners w.trace := by
    simp [World.log, banners_append, banners]
  simp only [main, hp, hv, Bool.false_eq_true, if_false] at hr
  have hsess : ∀ (data : List Nat) (size : Nat),
      (if devOk = true then session crc32 fuel a data size (w.log [Ev.out Out.probing])
        else some (.fatal .openErr (w.log [Ev.out Out.probing]))) = some r →
      ∃ B, banners r.world.trace = banners w.trace ++ B ∧ B <+: plan a ∧
        ((∃ w1, r = .ok 0 w1) → B = plan a) := by
    intro data size h
    cases devOk with
    | false =>
      simp only [Bool.false_eq_true, if_false, Option.some.injEq] at h
      exact hfatal _ _ hprobing h.symm
    | true =>
      simp only [if_true] at h
      obtain ⟨B, h1, h2, h3⟩ := session_banners crc32 fuel a data size _ r h
      exact ⟨B, by rw [h1, hprobing], h2, h3⟩
  by_cases hf : a.filename = true
  · simp only [hf, if_true] at hr
    cases file with
    | none =>
      simp only [loadImage, Option.some.injEq] at hr
      exact hfatal _ _ rfl hr.symm
    | some bytes =>
      simp only [loadImage] at hr
      by_cases hz : (min bytes.length 61440 + 3) / 4 * 4 = 0
      · simp only [hz, if_true, Option.some.injEq] at hr
        exact hfatal _ _ rfl hr.symm
      · simp only [hz, if_false] at hr
        exact hsess _ _ hr
  · simp only [hf, Bool.false_eq_true, if_false] at hr
    exact hsess _ _ hr

set_option maxRecDepth 100000 in
/-- Witness for C16 (amended): the run `-P 1 image` of the counterexample. -/
theorem branches_of_a_run_witness :
    ∃ B, banners (Res.world (α := Int) (.ok 0
        { rd := [], wr := [],
          trace := [Ev.out Out.probing, Ev.out (Out.spinner 0), Ev.tx 0, Ev.tx 255, Ev.rx 0,
            Ev.rx 255, Ev.out Out.updatingFirmware, Ev.out (Out.progress 0), Ev.tx 3,
            Ev.tx 252, Ev.tx 0, Ev.tx 255, Ev.tx 0, Ev.tx 255, Ev.tx 1, Ev.tx 2, Ev.tx 3,
            Ev.tx 4, Ev.tx 0, Ev.tx 0, Ev.tx 0, Ev.tx 0, Ev.rx 0, Ev.rx 255, Ev.out Out.done,
            Ev.out Out.settingProtection, Ev.tx 5, Ev.tx 250, Ev.tx 68, Ev.tx 187, Ev.rx 0,
            Ev.rx 255, Ev.out Out.done] })).trace = banners [] ++ B ∧
      B <+: plan { delay := false, force := false, boot := false, setwrp := 0x44,
                   version := false, filename := true } :=
  have h := (branches_of_a_run (fun _ => 0) 5 [Opt.P ['1']] 1 (some [1, 2, 3, 4]) true
    { rd := [some [0, 255], some [0, 255], some [0, 255]], wr := [], trace := [] }
    { delay := false, force := false, boot := false, setwrp := 0x44, version := false,
      filename := true }
    (.ok 0
      { rd := [], wr := [],
        trace := [Ev.out Out.probing, Ev.out (Out.spinner 0), Ev.tx 0, Ev.tx 255, Ev.rx 0,
          Ev.rx 255, Ev.out Out.updatingFirmware, Ev.out (Out.progress 0), Ev.tx 3,
          Ev.tx 252, Ev.tx 0, Ev.tx 255, Ev.tx 0, Ev.tx 255, Ev.tx 1, Ev.tx 2, Ev.tx 3,
          Ev.tx 4, Ev.tx 0, Ev.tx 0, Ev.tx 0, Ev.tx 0, Ev.rx 0, Ev.rx 255, Ev.out Out.done,
          Ev.out Out.settingProtection, Ev.tx 5, Ev.tx 250, Ev.tx 68, Ev.tx 187, Ev.rx 0,
          Ev.rx 255, Ev.out Out.done] })
    (by decide) (by decide) (by decide)).1
  match h with
  | ⟨B, h1, h2, _⟩ => ⟨B, h1, h2⟩

/-! ## Receive accumulation -/

theorem writeAt_nil (buf : List Nat) (off : Nat) : writeAt buf off [] = buf := by
  simp [writeAt]

/-- When fewer than `len` bytes arrive before the first timeout, `recv` has
stored the bytes that did arrive, and the last `read()` returned no byte. -/
theorem recvLoop_timeout_trace : ∀ (fuel : Nat) (w : World) (buf : List Nat) (off len : Nat),
    len ≤ fuel → NoErr w.rd → (pending w.rd).length < len →
    ∃ rd1, recvLoop fuel w buf off len =
      .ok (0, writeAt buf off (pending w.rd))
        { rd := rd1, wr := w.wr,
          trace := w.trace ++ (pending w.rd).map Ev.rx ++ [Ev.timeout] } := by
  intro fuel
  induction fuel with
  | zero => intro w buf off len hf _ hp; omega
  | succ fuel ih =>
    intro w buf off len hf hn hp
    obtain ⟨rd, wr, trace⟩ := w
    have hl : len ≠ 0 := by omega
    simp only [recvLoop, hl, if_false]
    cases rd with
    | nil => exact ⟨[], by simp [read, World.log, pending, writeAt_nil]⟩
    | cons e rest =>
      have hrest : NoErr rest := fun e he => hn e (List.mem_cons_of_mem _ he)
      cases e with
      | none => exact absurd (hn none (by simp)) (by simp)
      | some b =>
        by_cases hb : b.length = 0
        · exact ⟨rest, by simp [read, hb, pending, writeAt_nil]⟩
        · simp only [pending, hb, if_false, List.length_append] at hp ⊢
          have hle : b.length ≤ len := by omega
          simp only [read, hb, if_false, hle, if_true]
          obtain ⟨rd1, e1⟩ := ih
            { rd := rest, wr := wr, trace := trace ++ b.map Ev.rx }
            (writeAt buf off b) (off + b.length) (len - b.length) (by omega) hrest
            (by simp only; omega)
          refine ⟨rd1, ?_⟩
          rw [e1, writeAt_writeAt]
          simp [List.append_assoc]

theorem pending_bursts (bursts : List (List Nat)) (rest : List (Option (List Nat)))
    (hne : ∀ b ∈ bursts, b ≠ []) :
    pending (bursts.map some ++ rest) = bursts.flatten ++ pending rest := by
  induction bursts with
  | nil => simp
  | cons b bs ih =>
    have hb : b.length ≠ 0 := by
      intro h
      exact hne b (List.mem_cons_self _ _) (List.length_eq_zero.mp h)
    have e := ih (fun x hx => hne x (List.mem_cons_of_mem _ hx))
    simp only [List.map_cons, List.cons_append, pending, hb, if_false, List.flatten_cons,
      List.append_assoc]
    exact congrArg (fun l => b ++ l) e

/-- C17. Channel receive accumulation: for every requested length `len > 0`
and every way the bytes arrive (no OS error): if `len` bytes arrive before
any `read()` returns 0 bytes (world `w`), `recv` returns 1 with exactly those
bytes in the buffer, in order, and no `read()` of the call returned 0 bytes;
if fewer than `len` bytes arrive before a `read()` returns 0 bytes (world
`v`), `recv` returns 0, and that empty `read()` is its last one. A short
non-zero read never causes failure: bytes delivered by any sequence of
non-empty reads `bursts` that add up to `len` (world `u`) are accumulated. -/
theorem recv_accumulates (len : Nat) (buf : List Nat) (w v u : World)
    (bursts : List (List Nat)) (rest : List (Option (List Nat)))
    (_hlen : 0 < len) (hw : len ≤ (pending w.rd).length)
    (hv : NoErr v.rd) (hv2 : (pending v.rd).length < len)
    (hu : u.rd = bursts.map some ++ rest) (hu2 : ∀ b ∈ bursts, b ≠ [])
    (hu3 : bursts.flatten.length = len) :
    (∃ rd1, recv w buf len =
        .ok (1, writeAt buf 0 ((pending w.rd).take len))
          { rd := rd1, wr := w.wr,
            trace := w.trace ++ ((pending w.rd).take len).map Ev.rx } ∧
      pending rd1 = (pending w.rd).drop len ∧
      (writeAt buf 0 ((pending w.rd).take len)).take len = (pending w.rd).take len) ∧
    (∃ rd1, recv v buf len =
        .ok (0, writeAt buf 0 (pending v.rd))
          { rd := rd1, wr := v.wr,
            trace := v.trace ++ (pending v.rd).map Ev.rx ++ [Ev.timeout] }) ∧
    (∃ rd1, recv u buf len =
        .ok (1, writeAt buf 0 bursts.flatten)
          { rd := rd1, wr := u.wr, trace := u.trace ++ bursts.flatten.map Ev.rx } ∧
      pending rd1 = pending rest) := by
  refine ⟨?_, recvLoop_timeout_trace len v buf 0 len (Nat.le_refl _) hv hv2, ?_⟩
  · obtain ⟨rd1, h1, _, e⟩ := recv_ok w buf len hw
    refine ⟨rd1, e, h1, ?_⟩
    have hl : ((pending w.rd).take len).length = len := by
      simp [List.length_take]; omega
    have := writeAt_zero_take buf ((pending w.rd).take len)
    rwa [hl] at this
  · have hp := pending_bursts bursts rest hu2
    rw [← hu] at hp
    obtain ⟨rd1, h1, _, e⟩ := recv_ok u buf len
      (by rw [hp, List.length_append, hu3]; omega)
    have ht : (pending u.rd).take len = bursts.flatten := by
      rw [hp, ← hu3, List.take_left]
    have hd : (pending u.rd).drop len = pending rest := by
      rw [hp, ← hu3, List.drop_left]
    rw [ht] at e
    exact ⟨rd1, e, by rw [h1, hd]⟩

/-- Witness for C17: four bytes requested; they arrive as 1 + 2 + 3 bytes
(the last byte stays queued), or only three arrive before a timeout. -/
theorem recv_accumulates_witness :
    (∃ rd1, recv { rd := [some [1], some [2, 3], some [4, 5, 6]], wr := [], trace := [] }
          [0, 0, 0, 0, 9] 4 =
        .ok (1, writeAt [0, 0, 0, 0, 9] 0
              ((pending [some [1], some [2, 3], some [4, 5, 6]]).take 4))
          { rd := rd1, wr := [],
            trace := [] ++ ((pending [some [1], some [2, 3], some [4, 5, 6]]).take 4).map
              Ev.rx } ∧
      pending rd1 = (pending [some [1], some [2, 3], some [4, 5, 6]]).drop 4 ∧
      (writeAt [0, 0, 0, 0, 9] 0
          ((pending [some [1], some [2, 3], some [4, 5, 6]]).take 4)).take 4 =
        (pending [some [1], some [2, 3], some [4, 5, 6]]).take 4) ∧
    (∃ rd1, recv { rd := [some [1], some [2, 3], some [], some [4]], wr := [], trace := [] }
          [0, 0, 0, 0, 9] 4 =
        .ok (0, writeAt [0, 0, 0, 0, 9] 0 (pending [some [1], some [2, 3], some [], some [4]]))
          { rd := rd1, wr := [],
            trace := [] ++ (pending [some [1], some [2, 3], some [], some [4]]).map Ev.rx ++
              [Ev.timeout] }) :=
  have h := recv_accumulates 4 [0, 0, 0, 0, 9]
    { rd := [some [1], some [2, 3], some [4, 5, 6]], wr := [], trace := [] }
    { rd := [some [1], some [2, 3], some [], some [4]], wr := [], trace := [] }
    { rd := [[1], [2, 3], [4]].map some ++ [none], wr := [], trace := [] }
    [[1], [2, 3], [4]] [none]
    (by decide) (by decide) (by decide) (by decide) (by decide) (by decide) (by decide)
  ⟨h.1, h.2.1⟩

/-! ## Chunk lengths -/

theorem dataInit_length : dataInit.length = 61440 := by
  rw [dataInit, List.length_cons, List.length_replicate]

theorem loadImage_ok (bytes : List Nat) (w : World) (h1 : 1 ≤ bytes.length)
    (h2 : bytes.length ≤ 61440) :
    loadImage (some bytes) w =
        .ok (writeAt dataInit 0 bytes, (bytes.length + 3) / 4 * 4) w ∧
      (writeAt dataInit 0 bytes).length = 61440 := by
  have hmin : min bytes.length 61440 = bytes.length := by omega
  have hz : ¬ (bytes.length + 3) / 4 * 4 = 0 := by omega
  constructor
  · simp only [loadImage, hmin, hz, if_false]
    rw [List.take_of_length_le (Nat.le_refl _)]
  · simp only [writeAt, List.take_zero, List.nil_append, Nat.zero_add, List.length_append,
      List.length_drop, dataInit_length]
    omega

/-- C18. Every chunk satisfies `senddata`'s precondition: for every file of
`n` bytes, `1 ≤ n ≤ 61440`, loading gives `size = (n+3)` rounded down to a
multiple of 4; with `S` this size (firmware mode) or, in bootloader mode with
`size ≤ 4096`, the size after the padding step, for every loop position
`pos = 1024k < S` the length `maxlen(pos, S)` equals `min(1024, S - pos)`, is
a multiple of 4 in [4,1024], its length Value `len/4 - 1` lies in [0,255] and
is written without truncation, and `pos + len ≤ S ≤ 61440`. All payloads of
the loops have such a length. -/
theorem chunk_lengths_valid (bytes : List Nat) (w : World) (S k fuel : Nat)
    (h1 : 1 ≤ bytes.length) (h2 : bytes.length ≤ 61440)
    (hS : S = (bytes.length + 3) / 4 * 4 ∨
      ((bytes.length + 3) / 4 * 4 ≤ 4096 ∧ bootSize ((bytes.length + 3) / 4 * 4) = some S))
    (hlt : 1024 * k < S) (hfuel : (S + 1023) / 1024 < fuel) :
    (∃ data, loadImage (some bytes) w = .ok (data, (bytes.length + 3) / 4 * 4) w ∧
      data.length = 61440 ∧
      ∀ c ∈ chunks data S fuel 0, c.length % 4 = 0 ∧ 4 ≤ c.length ∧ c.length ≤ 1024) ∧
    S % 4 = 0 ∧ S ≤ 61440 ∧
    maxlen (1024 * k) S = min 1024 (S - 1024 * k) ∧
    maxlen (1024 * k) S % 4 = 0 ∧ 4 ≤ maxlen (1024 * k) S ∧ maxlen (1024 * k) S ≤ 1024 ∧
    maxlen (1024 * k) S / 4 - 1 < 256 ∧
    (((maxlen (1024 * k) S / 4 : Nat) : Int) - 1) % 256 =
      ((maxlen (1024 * k) S / 4 - 1 : Nat) : Int) ∧
    1024 * k + maxlen (1024 * k) S ≤ S := by
  have hSprop : S % 4 = 0 ∧ S ≤ 61440 ∧ 4 ≤ S := by
    rcases hS with hS | ⟨hle, hS⟩
    · omega
    · unfold bootSize at hS
      split at hS
      · cases hS
      · split at hS <;> (injection hS with hS; omega)
  obtain ⟨hS4, hSmax, _⟩ := hSprop
  have hm := maxlen_eq (1024 * k) S hlt (by omega)
  obtain ⟨hload, hlen⟩ := loadImage_ok bytes w h1 h2
  refine ⟨⟨_, hload, hlen, ?_⟩, hS4, hSmax, hm, ?_, ?_, ?_, ?_, ?_, ?_⟩
  · intro c hc
    rw [chunks_eq _ S hSmax ((S + 1023) / 1024) fuel 0 hfuel (by omega) (by omega)] at hc
    obtain ⟨j, hj, rfl⟩ := List.mem_map.mp hc
    have hj2 : j < (S + 1023) / 1024 := by
      have := List.mem_range'_1.mp hj
      omega
    rw [block_length _ S j (by omega)]
    omega
  all_goals (rw [hm]; omega)

set_option maxRecDepth 100000 in
/-- Witness for C18: a file of 1497 bytes in firmware mode, second chunk. -/
theorem chunk_lengths_valid_witness :
    maxlen (1024 * 1) 1500 = min 1024 (1500 - 1024 * 1) ∧
    maxlen (1024 * 1) 1500 % 4 = 0 ∧ 4 ≤ maxlen (1024 * 1) 1500 ∧
    maxlen (1024 * 1) 1500 ≤ 1024 :=
  have h := chunk_lengths_valid (List.replicate 1497 0) { rd := [], wr := [], trace := [] }
    1500 1 3 (by rw [List.length_replicate]; decide) (by rw [List.length_replicate]; decide)
    (Or.inl (by rw [List.length_replicate])) (by decide) (by decide)
  ⟨h.2.2.2.1, h.2.2.2.2.1, h.2.2.2.2.2.1, h.2.2.2.2.2.2.1⟩

/-! ## Last-block marker -/

/-- C19. Last-block marker: for every accepted bootloader image (rounded
size in [4,4096]; `S` is the size after the padding step), the blocks the
loop sends are the `ceil(S/1024)` blocks `block data S k`; every block except
the last has length exactly 1024, and the last block is shorter than 1024
(and not empty) unless `S = 4096`, in which case there are exactly four
blocks of 1024 bytes. -/
theorem last_block_marker (data : List Nat) (size S k fuel : Nat)
    (h4 : size % 4 = 0) (hlo : 4 ≤ size) (hhi : size ≤ 4096)
    (hS : bootSize size = some S) (hd : S ≤ data.length)
    (hfuel : (S + 1023) / 1024 < fuel) (hk : k < (S + 1023) / 1024) :
    chunks data S fuel 0 = (List.range ((S + 1023) / 1024)).map (block data S) ∧
    (block data S k).length =
      (if k + 1 < (S + 1023) / 1024 then 1024 else S - 1024 * ((S + 1023) / 1024 - 1)) ∧
    ((S = 4096 ∧ size = 4096 ∧ (S + 1023) / 1024 = 4 ∧ (block data S k).length = 1024) ∨
      (S ≠ 4096 ∧ 0 < S - 1024 * ((S + 1023) / 1024 - 1) ∧
        S - 1024 * ((S + 1023) / 1024 - 1) < 1024)) := by
  have hSprop : S % 4 = 0 ∧ S ≤ 4100 ∧ 4 ≤ S ∧ (S % 1024 = 0 → S = 4096) ∧
      (S = 4096 → size = 4096) := by
    unfold bootSize at hS
    split at hS
    · cases hS
    · split at hS
      · injection hS with hS
        omega
      · rename_i hne
        injection hS with hS
        subst hS
        refine ⟨h4, by omega, hlo, ?_, fun h => h⟩
        intro hm
        by_contra hc
        exact hne ⟨hm, hc⟩
  obtain ⟨hS4, hSmax, hSlo, hmark, hback⟩ := hSprop
  have hlen := block_length data S k hd
  refine ⟨?_, ?_, ?_⟩
  · rw [chunks_eq data S (by omega) ((S + 1023) / 1024) fuel 0 hfuel (by omega) (by omega),
      List.range_eq_range']
  · rw [hlen]
    split <;> omega
  · by_cases h : S = 4096
    · left
      subst h
      exact ⟨rfl, hback rfl, by decide, by rw [hlen]; omega⟩
    · right
      refine ⟨h, ?_, ?_⟩
      · omega
      · have : S % 1024 ≠ 0 := fun hm => h (hmark hm)
        omega

/-- Witness for C19: a bootloader image of 2048 bytes is sent as 2052 bytes,
in blocks of 1024, 1024 and 4 bytes. -/
theorem last_block_marker_witness :
    (block (List.replicate 2052 0) 2052 2).length =
      (if 2 + 1 < (2052 + 1023) / 1024 then 1024
       else 2052 - 1024 * ((2052 + 1023) / 1024 - 1)) :=
  (last_block_marker (List.replicate 2052 0) 2048 2052 2 4 (by decide) (by decide)
    (by decide) (by decide) (List.length_replicate 2052 0).ge (by decide) (by decide)).2.1

/-! ## Delay mode -/

/-- When every `write()` call accepts at least one byte, each iteration of
the loop of `send` shortens what is left, so `buf.length` iterations are
enough, whatever the flag `delay`. -/
theorem sendLoop_progress (d : Bool) : ∀ (fuel : Nat) (w : World) (buf : List Nat),
    (∀ e ∈ w.wr, e ≠ none ∧ e ≠ some 0) → buf.length ≤ fuel →
    ∃ wr1, sendLoop d fuel w buf =
      .ok () { rd := w.rd, wr := wr1, trace := w.trace ++ buf.map Ev.tx } := by
  intro fuel
  induction fuel with
  | zero =>
    intro w buf _ hf
    have h2 : buf = [] := List.length_eq_zero.mp (by omega)
    subst h2
    obtain ⟨rd, wr, trace⟩ := w
    exact ⟨wr, by simp [sendLoop]⟩
  | succ fuel ih =>
    intro w buf hw hf
    obtain ⟨rd, wr, trace⟩ := w
    by_cases hb : buf.length = 0
    · have h2 : buf = [] := List.length_eq_zero.mp hb
      subst h2
      exact ⟨wr, by simp [sendLoop]⟩
    · simp only [sendLoop, hb, if_false]
      have hn : 1 ≤ (if d = true then 1 else buf.length) := by split <;> omega
      cases wr with
      | nil =>
        simp only [write]
        obtain ⟨wr1, h2⟩ := ih
          { rd := rd, wr := [],
            trace := trace ++ (buf.take (if d = true then 1 else buf.length)).map Ev.tx }
          (buf.drop (if d = true then 1 else buf.length))
          (fun e he => by cases he)
          (by simp only [List.length_drop]; omega)
        refine ⟨wr1, ?_⟩
        rw [h2]
        simp only [List.append_assoc, ← List.map_append, List.take_append_drop]
      | cons e rest =>
        cases e with
        | none => exact absurd rfl (hw none (by simp)).1
        | some k =>
          have hk : 1 ≤ k := by
            have := (hw (some k) (by simp)).2
            rcases k with _ | k
            · exact absurd rfl this
            · omega
          simp only [write]
          obtain ⟨wr1, h2⟩ := ih
            { rd := rd, wr := rest,
              trace := trace ++ (buf.take (min k (if d = true then 1 else buf.length))).map Ev.tx }
            (buf.drop (min k (if d = true then 1 else buf.length)))
            (fun e he => hw e (List.mem_cons_of_mem _ he))
            (by simp only [List.length_drop]; omega)
          refine ⟨wr1, ?_⟩
          rw [h2]
          simp only [List.append_assoc, ← List.map_append, List.take_append_drop]

/-- When every `write()` call accepts at least one byte, one more iteration
allowed changes nothing once `buf.length` iterations are allowed. -/
theorem sendLoop_progress_fuel (d : Bool) : ∀ (fuel : Nat) (w : World) (buf : List Nat),
    (∀ e ∈ w.wr, e ≠ none ∧ e ≠ some 0) → buf.length ≤ fuel →
    sendLoop d (fuel + 1) w buf = sendLoop d fuel w buf := by
  intro fuel
  induction fuel with
  | zero =>
    intro w buf _ hf
    have hb : buf.length = 0 := by omega
    simp [sendLoop, hb]
  | succ fuel ih =>
    intro w buf hw hf
    obtain ⟨rd, wr, trace⟩ := w
    by_cases hb : buf.length = 0
    · simp [sendLoop, hb]
    · have hn : 1 ≤ (if d = true then 1 else buf.length) := by split <;> omega
      rw [sendLoop, sendLoop.eq_def d (fuel + 1)]
      simp only [hb, if_false]
      cases wr with
      | nil =>
        simp only [write]
        exact ih _ _ (fun e he => by cases he) (by simp only [List.length_drop]; omega)
      | cons e rest =>
        cases e with
        | none => exact absurd rfl (hw none (by simp)).1
        | some k =>
          have hk : 1 ≤ k := by
            have := (hw (some k) (by simp)).2
            rcases k with _ | k
            · exact absurd rfl this
            · omega
          simp only [write]
          exact ih _ _ (fun e he => hw e (List.mem_cons_of_mem _ he))
            (by simp only [List.length_drop]; omega)

/-- When every `write()` call accepts at least one byte, any number of
allowed iterations from `buf.length` on gives the result of `send`. -/
theorem sendLoop_enough (d : Bool) (w : World) (buf : List Nat)
    (hw : ∀ e ∈ w.wr, e ≠ none ∧ e ≠ some 0) :
    ∀ (m : Nat), sendLoop d (buf.length + m) w buf = sendLoop d buf.length w buf := by
  intro m
  induction m with
  | zero => rfl
  | succ m ih =>
    rw [← ih, ← Nat.add_assoc]
    exact sendLoop_progress_fuel d _ w buf hw (by omega)

/-- C20. Delay mode does not change what is transmitted: for every buffer
`buf` (of any length, 0 included) and every behaviour of `write()` in which
each call accepts at least one byte (`w1.wr` for the run with the delay flag
set, `w2.wr` for the run with the flag clear), `send` returns in both runs
having appended to the line exactly the bytes of `buf`, in order, each once;
and both loops terminate: `buf.length` iterations are enough, any larger
number of allowed iterations gives the result of `send`. -/
theorem delay_does_not_change_bytes (buf : List Nat) (w1 w2 : World) (fuel : Nat)
    (h1 : ∀ e ∈ w1.wr, e ≠ none ∧ e ≠ some 0)
    (h2 : ∀ e ∈ w2.wr, e ≠ none ∧ e ≠ some 0)
    (hfuel : buf.length ≤ fuel) :
    ∃ wr1 wr2,
      send true w1 buf =
        .ok () { rd := w1.rd, wr := wr1, trace := w1.trace ++ buf.map Ev.tx } ∧
      send false w2 buf =
        .ok () { rd := w2.rd, wr := wr2, trace := w2.trace ++ buf.map Ev.tx } ∧
      sent (buf.map Ev.tx) = buf ∧
      sendLoop true fuel w1 buf = send true w1 buf ∧
      sendLoop false fuel w2 buf = send false w2 buf := by
  have key : ∀ (d : Bool) (w : World), (∀ e ∈ w.wr, e ≠ none ∧ e ≠ some 0) →
      ∃ wr1, send d w buf =
          .ok () { rd := w.rd, wr := wr1, trace := w.trace ++ buf.map Ev.tx } ∧
        sendLoop d fuel w buf = send d w buf := by
    intro d w h
    have hs : send d w buf = sendLoop d buf.length w buf := by
      rw [send, Nat.add_comm]
      exact sendLoop_enough d w buf h _
    have hf : sendLoop d fuel w buf = sendLoop d buf.length w buf := by
      obtain ⟨m, rfl⟩ := Nat.exists_eq_add_of_le hfuel
      exact sendLoop_enough d w buf h m
    obtain ⟨wrA, hA⟩ := sendLoop_progress d buf.length w buf h (Nat.le_refl _)
    exact ⟨wrA, by rw [hs, hA], by rw [hs, hf]⟩
  obtain ⟨wr1, ha, hb⟩ := key true w1 h1
  obtain ⟨wr2, hc, hd⟩ := key false w2 h2
  exact ⟨wr1, wr2, ha, hc, sent_map_tx buf, hb, hd⟩

/-- Witness for C20: three bytes, with `write()` accepting 2 bytes and then 1
byte in the run with the delay flag set and everything at once in the other
run. -/
theorem delay_does_not_change_bytes_witness :
    ∃ wr1 wr2,
      send true { rd := [], wr := [some 2, some 1], trace := [] } [7, 8, 9] =
        .ok () { rd := [], wr := wr1, trace := [] ++ [7, 8, 9].map Ev.tx } ∧
      send false { rd := [], wr := [], trace := [] } [7, 8, 9] =
        .ok () { rd := [], wr := wr2, trace := [] ++ [7, 8, 9].map Ev.tx } ∧
      sent ([7, 8, 9].map Ev.tx) = [7, 8, 9] ∧
      sendLoop true 3 { rd := [], wr := [some 2, some 1], trace := [] } [7, 8, 9] =
        send true { rd := [], wr := [some 2, some 1], trace := [] } [7, 8, 9] ∧
      sendLoop false 3 { rd := [], wr := [], trace := [] } [7, 8, 9] =
        send false { rd := [], wr := [], trace := [] } [7, 8, 9] :=
  delay_does_not_change_bytes [7, 8, 9] { rd := [], wr := [some 2, some 1], trace := [] }
    { rd := [], wr := [], trace := [] } 3 (by decide) (by decide) (by decide)

end ESCape32
